import Mathlib

/-!
# Verification of the rededup duplicate-link detector

A shallow embedding, in Lean 4, of the core algorithms of the rededup
browser extension (`rededup.js`, `phash.js`): the JavaScript 32-bit
integer semantics used by the Hamming-distance kernel, the BK-tree
index, the union-find forest, the duplicate-record merging logic of the
clustering engine, and the bit layouts of the perceptual hash functions.

JavaScript numbers are IEEE doubles; every arithmetic operation that the
embedded code performs stays in the exact-integer range of doubles, so
plain `Int` arithmetic models `+`, `-`, `*` faithfully.  The bitwise
operators (`&`, `^`, `>>`) first convert their operands with ToInt32
(take the value mod 2^32 and reinterpret as a signed 32-bit value) and
return a signed 32-bit result; `>>` is an arithmetic (sign-extending)
shift, i.e. flooring division by a power of two.
-/

namespace Rededup

/-- The unsigned 32-bit value of a JS number fed to a bitwise operator
(the ToUint32 part of ToInt32: reduce mod 2^32). -/
def toUInt32 (z : Int) : Nat := (z % (4294967296 : Int)).toNat

/-- Reinterpret an unsigned 32-bit value as a signed 32-bit JS number. -/
def ofUInt32 (u : Nat) : Int :=
  if u < 2147483648 then (u : Int) else (u : Int) - 4294967296

/-- ToInt32: the signed 32-bit value of a JS number. -/
def toInt32 (z : Int) : Int := ofUInt32 (toUInt32 z)

/-- JS `a & b` on numbers. -/
def jsAnd (a b : Int) : Int := ofUInt32 (toUInt32 a &&& toUInt32 b)

/-- JS `a ^ b` on numbers. -/
def jsXor (a b : Int) : Int := ofUInt32 (toUInt32 a ^^^ toUInt32 b)

/-- JS `a >> k` on numbers: arithmetic shift of the int32 value,
i.e. flooring division by `2^k`. -/
def jsShr (a : Int) (k : Nat) : Int := Int.fdiv (toInt32 a) (2 ^ k)

/-- Embedding of `bitCount32` (rededup.js):
```
function bitCount32(n) {
  n = n - ((n >> 1) & 0x55555555)
  n = (n & 0x33333333) + ((n >> 2) & 0x33333333)
  return ((n + (n >> 4) & 0xF0F0F0F) * 0x1010101) >> 24
}
```
(`+` binds tighter than `&` in JS, so the last line masks the sum.) -/
def bitCount32 (n : Int) : Int :=
  let n1 := n - jsAnd (jsShr n 1) 1431655765
  let n2 := jsAnd n1 858993459 + jsAnd (jsShr n1 2) 858993459
  jsShr (jsAnd (n2 + jsShr n2 4) 252645135 * 16843009) 24

/-- Embedding of `hdist` (rededup.js): Hamming distance between two
64-bit values, each represented as an `Int32Array` of two 32-bit
words. -/
def hdist (a1 a2 : Int × Int) : Int :=
  bitCount32 (jsXor a1.1 a2.1) + bitCount32 (jsXor a1.2 a2.2)

/-! ## Reference population count

The specification-side definition: the number of 1 bits in the binary
representation of a natural number. -/

/-- Number of 1 bits of `n` (specification definition). -/
def popCount (n : Nat) : Nat :=
  if h : n = 0 then 0 else n % 2 + popCount (n / 2)
decreasing_by exact Nat.div_lt_self (Nat.pos_of_ne_zero h) (by omega)

@[simp] theorem popCount_zero : popCount 0 = 0 := by
  rw [popCount]; simp

theorem popCount_eq (n : Nat) : popCount n = n % 2 + popCount (n / 2) := by
  by_cases h : n = 0
  · subst h; simp
  · rw [popCount]; simp [h]

/-- `popCount` splits across any cut of the binary representation. -/
theorem popCount_split (c : Nat) : ∀ u : Nat,
    popCount u = popCount (u % 2 ^ c) + popCount (u / 2 ^ c) := by
  induction c with
  | zero => intro u; simp [Nat.mod_one]
  | succ c ih =>
    intro u
    have h1 : u % 2 ^ (c + 1) % 2 = u % 2 := by
      rw [Nat.mod_mod_of_dvd]
      exact dvd_pow_self 2 (Nat.succ_ne_zero c)
    have h2 : u % 2 ^ (c + 1) / 2 = u / 2 % 2 ^ c := by
      rw [pow_succ, mul_comm, Nat.mod_mul_right_div_self]
    have h3 : u / 2 ^ (c + 1) = u / 2 / 2 ^ c := by
      rw [pow_succ, mul_comm, Nat.div_div_eq_div_mul]
    rw [popCount_eq u, popCount_eq (u % 2 ^ (c + 1)), h1, h2, h3, ih (u / 2)]
    omega

@[simp] theorem popCount_one : popCount 1 = 1 := by
  rw [popCount_eq]; norm_num

@[simp] theorem popCount_two : popCount 2 = 1 := by
  rw [popCount_eq]; norm_num

@[simp] theorem popCount_three : popCount 3 = 2 := by
  rw [popCount_eq]; norm_num

/-- A value below `2^c` has at most `c` one bits. -/
theorem popCount_le_of_lt (c : Nat) : ∀ u : Nat, u < 2 ^ c → popCount u ≤ c := by
  induction c with
  | zero => intro u hu; interval_cases u <;> simp
  | succ c ih =>
    intro u hu
    rw [popCount_eq u]
    have : u / 2 < 2 ^ c := by omega
    have := ih (u / 2) this
    omega

/-! ## Correctness of the SWAR popcount pipeline, natural-number level

We track the three masking stages over `Nat`.  `csum c k f u` is the
weighted sum `Σ_{i<k} f(chunk i) * (2^c)^i` of `f` applied to the `k`
low `c`-bit chunks of `u`; `mrep c v k` is the mask with value `v` in
each of the `k` low `c`-bit chunks. -/

/-- Apply `f` to each of the `k` low `c`-bit chunks of `u` and
re-assemble at the chunk positions. -/
def csum (c k : Nat) (f : Nat → Nat) (u : Nat) : Nat :=
  match k with
  | 0 => 0
  | k + 1 => f (u % 2 ^ c) + 2 ^ c * csum c k f (u / 2 ^ c)

/-- The mask that repeats the `c`-bit value `v` in `k` chunks. -/
def mrep (c v : Nat) : Nat → Nat
  | 0 => 0
  | k + 1 => v + 2 ^ c * mrep c v k

/-- Bitwise AND distributes over concatenation at a chunk boundary. -/
theorem land_concat (k a b c d : Nat) (hb : b < 2 ^ k) (hd : d < 2 ^ k) :
    (2 ^ k * a + b) &&& (2 ^ k * c + d) = 2 ^ k * (a &&& c) + (b &&& d) := by
  apply Nat.eq_of_testBit_eq
  intro i
  rw [Nat.testBit_and, Nat.testBit_mul_pow_two_add _ hb,
    Nat.testBit_mul_pow_two_add _ hd,
    Nat.testBit_mul_pow_two_add _ (Nat.and_lt_two_pow _ hd)]
  by_cases h : i < k
  · simp [h, Nat.testBit_and]
  · simp [h, Nat.testBit_and]

/-- `n - ((n >> 1) & 0x5555…)` leaves the popcount of each 2-bit chunk
in that chunk. -/
theorem swarStage1 : ∀ (k u : Nat), u < 4 ^ k →
    u - (u / 2 &&& mrep 2 1 k) = csum 2 k popCount u := by
  intro k
  induction k with
  | zero => intro u hu; interval_cases u; simp [csum, mrep]
  | succ k ih =>
    intro u hu
    set q := u / 4 with hq
    set r := u % 4 with hr
    have hr4 : r < 4 := Nat.mod_lt _ (by omega)
    have hqk : q < 4 ^ k := by
      have : (4:Nat) ^ (k+1) = 4 ^ k * 4 := by ring
      omega
    have hsplit : u = 4 * q + r := by omega
    have hhalf : u / 2 = 4 * (q / 2) + (2 * (q % 2) + r / 2) := by omega
    have hmask : mrep 2 1 (k + 1) = 4 * mrep 2 1 k + 1 := by
      show (1 + 2 ^ 2 * mrep 2 1 k) = _; ring
    have hlow : 2 * (q % 2) + r / 2 < 2 ^ 2 := by omega
    have hone : (1:Nat) < 2 ^ 2 := by omega
    have hland : u / 2 &&& mrep 2 1 (k + 1)
        = 4 * (q / 2 &&& mrep 2 1 k) + (r / 2) := by
      rw [hhalf, hmask, show 4 * mrep 2 1 k + 1 = 2 ^ 2 * mrep 2 1 k + 1 by ring,
        show 4 * (q / 2) + (2 * (q % 2) + r / 2)
          = 2 ^ 2 * (q / 2) + (2 * (q % 2) + r / 2) by ring,
        land_concat 2 _ _ _ _ hlow hone, Nat.and_one_is_mod]
      omega
    have hM : (q / 2 &&& mrep 2 1 k) ≤ q :=
      le_trans Nat.and_le_left (Nat.div_le_self _ _)
    have hcs : csum 2 (k + 1) popCount u
        = popCount r + 4 * csum 2 k popCount q := by
      show popCount (u % 2 ^ 2) + 2 ^ 2 * csum 2 k popCount (u / 2 ^ 2) = _
      norm_num [← hr, ← hq]
    have hpopr : r - r / 2 = popCount r := by
      interval_cases r <;> simp
    have := ih q hqk
    rw [hland, hcs]
    omega

/-- Masking with `0x3333…` and adding combines adjacent 2-bit popcount
chunks into 4-bit popcount chunks. -/
theorem swarStage2 : ∀ (k u : Nat), u < 16 ^ k →
    (csum 2 (2 * k) popCount u &&& mrep 4 3 k)
      + (csum 2 (2 * k) popCount u / 4 &&& mrep 4 3 k)
      = csum 4 k popCount u := by
  intro k
  induction k with
  | zero => intro u hu; simp [csum, mrep]
  | succ k ih =>
    intro u hu
    set q := u / 16 with hq
    have hqk : q < 16 ^ k := by
      have : (16:Nat) ^ (k+1) = 16 ^ k * 16 := by ring
      omega
    set p0 := popCount (u % 4) with hp0
    set p1 := popCount (u / 4 % 4) with hp1
    have hp0le : p0 ≤ 2 := by
      refine popCount_le_of_lt 2 _ ?_
      have : u % 4 < 4 := Nat.mod_lt _ (by omega)
      omega
    have hp1le : p1 ≤ 2 := by
      refine popCount_le_of_lt 2 _ ?_
      have : u / 4 % 4 < 4 := Nat.mod_lt _ (by omega)
      omega
    set X := csum 2 (2 * k) popCount q with hX
    have hXval : csum 2 (2 * (k + 1)) popCount u = p0 + 4 * p1 + 16 * X := by
      have e1 : 2 * (k + 1) = (2 * k) + 1 + 1 := by ring
      rw [e1]
      show popCount (u % 2 ^ 2) + 2 ^ 2 * csum 2 (2 * k + 1) popCount (u / 2 ^ 2) = _
      have e2 : csum 2 (2 * k + 1) popCount (u / 2 ^ 2)
          = popCount (u / 2 ^ 2 % 2 ^ 2)
            + 2 ^ 2 * csum 2 (2 * k) popCount (u / 2 ^ 2 / 2 ^ 2) := rfl
      have e3 : u / 2 ^ 2 / 2 ^ 2 = q := by omega
      rw [e2, e3]
      norm_num [← hp0, ← hp1, ← hX]
      ring
    have hmask : mrep 4 3 (k + 1) = 2 ^ 4 * mrep 4 3 k + 3 := by
      show (3 + 2 ^ 4 * mrep 4 3 k) = _; ring
    have h3 : (3:Nat) < 2 ^ 4 := by omega
    -- first summand
    have hdec1 : p0 + 4 * p1 + 16 * X = 2 ^ 4 * X + (p0 + 4 * p1) := by ring
    have hlow1 : p0 + 4 * p1 < 2 ^ 4 := by omega
    have hland1 : (p0 + 4 * p1 + 16 * X) &&& mrep 4 3 (k + 1)
        = 2 ^ 4 * (X &&& mrep 4 3 k) + p0 := by
      rw [hdec1, hmask, land_concat 4 _ _ _ _ hlow1 h3]
      have : (p0 + 4 * p1) &&& 3 = (p0 + 4 * p1) % 4 := by
        have h4 : (3:Nat) = 2 ^ 2 - 1 := by norm_num
        rw [h4, Nat.and_pow_two_sub_one_eq_mod]
      omega
    -- second summand
    have hdiv : (p0 + 4 * p1 + 16 * X) / 4 = 2 ^ 4 * (X / 4) + (4 * (X % 4) + p1) := by
      omega
    have hlow2 : 4 * (X % 4) + p1 < 2 ^ 4 := by omega
    have hland2 : (p0 + 4 * p1 + 16 * X) / 4 &&& mrep 4 3 (k + 1)
        = 2 ^ 4 * (X / 4 &&& mrep 4 3 k) + p1 := by
      rw [hdiv, hmask, land_concat 4 _ _ _ _ hlow2 h3]
      have : (4 * (X % 4) + p1) &&& 3 = (4 * (X % 4) + p1) % 4 := by
        have h4 : (3:Nat) = 2 ^ 2 - 1 := by norm_num
        rw [h4, Nat.and_pow_two_sub_one_eq_mod]
      omega
    have hrhs : csum 4 (k + 1) popCount u = (p0 + p1) + 16 * csum 4 k popCount q := by
      show popCount (u % 2 ^ 4) + 2 ^ 4 * csum 4 k popCount (u / 2 ^ 4) = _
      have e3 : u / 2 ^ 4 = q := by omega
      have e4 : popCount (u % 2 ^ 4) = p0 + p1 := by
        rw [popCount_split 2 (u % 2 ^ 4)]
        have m1 : u % 2 ^ 4 % 2 ^ 2 = u % 4 := by omega
        have m2 : u % 2 ^ 4 / 2 ^ 2 = u / 4 % 4 := by omega
        rw [m1, m2]
      rw [e3, e4]; ring
    have hih := ih q hqk
    rw [← hX] at hih
    rw [hXval, hland1, hland2, hrhs]
    omega

/-- The low 4 bits of a nibble-popcount sum hold a value at most 4. -/
theorem csum4_mod_le (k q : Nat) : csum 4 k popCount q % 16 ≤ 4 := by
  cases k with
  | zero => simp [csum]
  | succ k =>
    show (popCount (q % 2 ^ 4) + 2 ^ 4 * csum 4 k popCount (q / 2 ^ 4)) % 16 ≤ 4
    have hp : popCount (q % 2 ^ 4) ≤ 4 := by
      refine popCount_le_of_lt 4 _ ?_
      exact Nat.mod_lt _ (by norm_num)
    omega

/-- Adding the shifted nibble-popcounts and masking with `0x0F0F…`
yields per-byte popcounts. -/
theorem swarStage3 : ∀ (k u : Nat), u < 256 ^ k →
    ((csum 4 (2 * k) popCount u + csum 4 (2 * k) popCount u / 16) &&& mrep 8 15 k)
      = csum 8 k popCount u := by
  intro k
  induction k with
  | zero => intro u hu; simp [csum, mrep]
  | succ k ih =>
    intro u hu
    set q := u / 256 with hq
    have hqk : q < 256 ^ k := by
      have : (256:Nat) ^ (k+1) = 256 ^ k * 256 := by ring
      omega
    set P0 := popCount (u % 16) with hP0
    set P1 := popCount (u / 16 % 16) with hP1
    have hP0le : P0 ≤ 4 := by
      refine popCount_le_of_lt 4 _ ?_
      have : u % 16 < 16 := Nat.mod_lt _ (by omega)
      omega
    have hP1le : P1 ≤ 4 := by
      refine popCount_le_of_lt 4 _ ?_
      have : u / 16 % 16 < 16 := Nat.mod_lt _ (by omega)
      omega
    set Y := csum 4 (2 * k) popCount q with hY
    have hYval : csum 4 (2 * (k + 1)) popCount u = P0 + 16 * P1 + 256 * Y := by
      have e1 : 2 * (k + 1) = (2 * k) + 1 + 1 := by ring
      rw [e1]
      show popCount (u % 2 ^ 4) + 2 ^ 4 * csum 4 (2 * k + 1) popCount (u / 2 ^ 4) = _
      have e2 : csum 4 (2 * k + 1) popCount (u / 2 ^ 4)
          = popCount (u / 2 ^ 4 % 2 ^ 4)
            + 2 ^ 4 * csum 4 (2 * k) popCount (u / 2 ^ 4 / 2 ^ 4) := rfl
      have e3 : u / 2 ^ 4 / 2 ^ 4 = q := by omega
      rw [e2, e3]
      norm_num [← hP0, ← hP1, ← hY]
      ring
    have hYmod : Y % 16 ≤ 4 := by rw [hY]; exact csum4_mod_le _ _
    have hmask : mrep 8 15 (k + 1) = 2 ^ 8 * mrep 8 15 k + 15 := by
      show (15 + 2 ^ 8 * mrep 8 15 k) = _; ring
    have h15 : (15:Nat) < 2 ^ 8 := by omega
    -- decompose the sum at the byte boundary
    set S := P0 + 16 * P1 + 256 * Y with hS
    have hSdiv : S / 16 = P1 + 16 * Y := by omega
    have hdec : S + S / 16
        = 2 ^ 8 * (Y + Y / 16) + (P0 + P1 + 16 * P1 + 16 * (Y % 16)) := by
      omega
    have hlow : P0 + P1 + 16 * P1 + 16 * (Y % 16) < 2 ^ 8 := by omega
    have hland : (S + S / 16) &&& mrep 8 15 (k + 1)
        = 2 ^ 8 * ((Y + Y / 16) &&& mrep 8 15 k) + (P0 + P1) := by
      rw [hdec, hmask, land_concat 8 _ _ _ _ hlow h15]
      have : (P0 + P1 + 16 * P1 + 16 * (Y % 16)) &&& 15
          = (P0 + P1 + 16 * P1 + 16 * (Y % 16)) % 16 := by
        have h4 : (15:Nat) = 2 ^ 4 - 1 := by norm_num
        rw [h4, Nat.and_pow_two_sub_one_eq_mod]
      omega
    have hrhs : csum 8 (k + 1) popCount u = (P0 + P1) + 256 * csum 8 k popCount q := by
      show popCount (u % 2 ^ 8) + 2 ^ 8 * csum 8 k popCount (u / 2 ^ 8) = _
      have e3 : u / 2 ^ 8 = q := by omega
      have e4 : popCount (u % 2 ^ 8) = P0 + P1 := by
        rw [popCount_split 4 (u % 2 ^ 8)]
        have m1 : u % 2 ^ 8 % 2 ^ 4 = u % 16 := by omega
        have m2 : u % 2 ^ 8 / 2 ^ 4 = u / 16 % 16 := by omega
        rw [m1, m2]
      rw [e3, e4]; ring
    have hih := ih q hqk
    rw [← hY] at hih
    rw [hYval, hland, hrhs, hih]
    ring

/-- Natural-number statement of the whole `bitCount32` pipeline. -/
theorem swarNat (u : Nat) (hu : u < 4294967296) :
    ∀ n1 n2 n3 : Nat,
      n1 = u - (u / 2 &&& 1431655765) →
      n2 = (n1 &&& 858993459) + (n1 / 4 &&& 858993459) →
      n3 = (n2 + n2 / 16) &&& 252645135 →
      n3 * 16843009 % 4294967296 / 16777216 = popCount u := by
  intro n1 n2 n3 h1 h2 h3
  have hm55 : (1431655765 : Nat) = mrep 2 1 16 := by decide
  have hm33 : (858993459 : Nat) = mrep 4 3 8 := by decide
  have hm0F : (252645135 : Nat) = mrep 8 15 4 := by decide
  have s1 := swarStage1 16 u (by norm_num; omega)
  have s2 := swarStage2 8 u (by norm_num; omega)
  have s3 := swarStage3 4 u (by norm_num; omega)
  norm_num at s2 s3
  rw [← hm55] at s1
  rw [← hm33] at s2
  rw [← hm0F] at s3
  rw [← h1] at s1
  rw [← s1, ← h2] at s2
  rw [← s2, ← h3] at s3
  -- byte decomposition of n3
  set b0 := popCount (u % 256) with hb0
  set b1 := popCount (u / 256 % 256) with hb1
  set b2 := popCount (u / 65536 % 256) with hb2
  set b3 := popCount (u / 16777216 % 256) with hb3
  have hn3 : n3 = b0 + 256 * b1 + 65536 * b2 + 16777216 * b3 := by
    rw [s3]
    show popCount (u % 256) + 256 * (popCount (u / 256 % 256)
      + 256 * (popCount (u / 256 / 256 % 256)
        + 256 * (popCount (u / 256 / 256 / 256 % 256) + 256 * 0))) = _
    have f1 : u / 256 / 256 = u / 65536 := by omega
    have f2 : u / 65536 / 256 = u / 16777216 := by omega
    rw [f1, f2, ← hb0, ← hb1, ← hb2, ← hb3]
    ring
  have hble0 : b0 ≤ 8 := by
    refine popCount_le_of_lt 8 _ ?_
    have : u % 256 < 256 := Nat.mod_lt _ (by omega)
    omega
  have hble1 : b1 ≤ 8 := by
    refine popCount_le_of_lt 8 _ ?_
    have : u / 256 % 256 < 256 := Nat.mod_lt _ (by omega)
    omega
  have hble2 : b2 ≤ 8 := by
    refine popCount_le_of_lt 8 _ ?_
    have : u / 65536 % 256 < 256 := Nat.mod_lt _ (by omega)
    omega
  have hble3 : b3 ≤ 8 := by
    refine popCount_le_of_lt 8 _ ?_
    have : u / 16777216 % 256 < 256 := Nat.mod_lt _ (by omega)
    omega
  have hpop : popCount u = b0 + b1 + b2 + b3 := by
    rw [popCount_split 8 u]
    rw [popCount_split 8 (u / 2 ^ 8)]
    rw [popCount_split 8 (u / 2 ^ 8 / 2 ^ 8)]
    have gp : (2:Nat) ^ 8 = 256 := by norm_num
    rw [gp]
    have f1 : u / 256 / 256 = u / 65536 := by omega
    have f2 : u / 65536 / 256 = u / 16777216 := by omega
    have f3 : u / 16777216 = u / 16777216 % 256 := by omega
    rw [f1, f2, f3, ← hb0, ← hb1, ← hb2, ← hb3]
    ring
  rw [hn3, hpop]
  have hdecomp : (b0 + 256 * b1 + 65536 * b2 + 16777216 * b3) * 16843009
      = ((b0 + 256 * (b0 + b1) + 65536 * (b0 + b1 + b2))
          + 16777216 * (b0 + b1 + b2 + b3))
        + 4294967296 * ((b1 + b2 + b3) + 256 * (b2 + b3) + 65536 * b3) := by
    ring
  rw [hdecomp, Nat.add_mul_mod_self_left]
  have hlow : (b0 + 256 * (b0 + b1) + 65536 * (b0 + b1 + b2))
      + 16777216 * (b0 + b1 + b2 + b3) < 4294967296 := by omega
  rw [Nat.mod_eq_of_lt hlow]
  have hA : b0 + 256 * (b0 + b1) + 65536 * (b0 + b1 + b2) < 16777216 := by omega
  omega

/-! ## Bridging the JS int32 semantics to the natural-number pipeline -/

theorem toUInt32_coe (u : Nat) (h : u < 4294967296) : toUInt32 (u : Int) = u := by
  unfold toUInt32; omega

theorem toUInt32_ofUInt32 (u : Nat) (h : u < 4294967296) :
    toUInt32 (ofUInt32 u) = u := by
  unfold ofUInt32 toUInt32
  split <;> omega

theorem jsAnd_congr_left (a b c : Int) (h : toUInt32 a = toUInt32 b) :
    jsAnd a c = jsAnd b c := by
  unfold jsAnd; rw [h]

theorem jsShr_congr (a b : Int) (k : Nat) (h : toUInt32 a = toUInt32 b) :
    jsShr a k = jsShr b k := by
  unfold jsShr toInt32; rw [h]

/-- With a nonnegative int32 operand, `>>` is plain division. -/
theorem jsShr_coe_small (z k : Nat) (hz : z < 2147483648) :
    jsShr (z : Int) k = ((z / 2 ^ k : Nat) : Int) := by
  unfold jsShr toInt32
  rw [toUInt32_coe z (by omega)]
  unfold ofUInt32
  rw [if_pos hz, Int.fdiv_eq_ediv _ (by positivity)]
  rw [Int.natCast_div]
  push_cast
  rfl

/-- `&` with a small nonnegative constant, on a nonnegative operand. -/
theorem jsAnd_coe (z : Nat) (mi : Int) (m : Nat) (hz : z < 4294967296)
    (hm : toUInt32 mi = m) (hm2 : m < 2147483648) :
    jsAnd (z : Int) mi = ((z &&& m : Nat) : Int) := by
  unfold jsAnd
  rw [toUInt32_coe z hz, hm]
  unfold ofUInt32
  rw [if_pos (by have := Nat.and_le_right (n := z) (m := m); omega)]

/-- The unsigned view of `ofUInt32 u >> 1`: an arithmetic shift copies
the sign bit into bit 31. -/
theorem toUInt32_jsShr1 (u : Nat) (hu : u < 4294967296) :
    toUInt32 (jsShr (ofUInt32 u) 1)
      = 2147483648 * (if 2147483648 ≤ u then 1 else 0) + u / 2 := by
  unfold jsShr toInt32
  rw [toUInt32_ofUInt32 u hu]
  unfold ofUInt32 toUInt32
  rw [Int.fdiv_eq_ediv _ (by norm_num)]
  split_ifs <;> omega

/-- The unsigned view of `ofUInt32 u >> 2`. -/
theorem toUInt32_jsShr2 (u : Nat) (hu : u < 4294967296) :
    toUInt32 (jsShr (ofUInt32 u) 2)
      = 1073741824 * (if 2147483648 ≤ u then 3 else 0) + u / 4 := by
  unfold jsShr toInt32
  rw [toUInt32_ofUInt32 u hu]
  unfold ofUInt32 toUInt32
  rw [Int.fdiv_eq_ediv _ (by norm_num)]
  split_ifs <;> omega

/-- `(n >> 1) & 0x55555555` in terms of the unsigned value: the mask
clears the bit the arithmetic shift smeared in. -/
theorem jsAnd_shr1_55 (u : Nat) (hu : u < 4294967296) :
    jsAnd (jsShr (ofUInt32 u) 1) 1431655765
      = ((u / 2 &&& 1431655765 : Nat) : Int) := by
  unfold jsAnd
  have hm55 : toUInt32 (1431655765 : Int) = (1431655765 : Nat) := by
    unfold toUInt32; omega
  rw [toUInt32_jsShr1 u hu, hm55]
  have h2 : u / 2 < 2 ^ 31 := by omega
  have hm : (1431655765 : Nat) < 2 ^ 31 := by norm_num
  have hc := land_concat 31 (if 2147483648 ≤ u then 1 else 0) (u / 2) 0 1431655765 h2 hm
  have he : 2147483648 * (if 2147483648 ≤ u then 1 else 0) + u / 2
      = 2 ^ 31 * (if 2147483648 ≤ u then 1 else 0) + u / 2 := by norm_num
  have he2 : (1431655765 : Nat) = 2 ^ 31 * 0 + 1431655765 := by norm_num
  rw [he, he2, hc]
  simp only [Nat.and_zero, Nat.mul_zero, Nat.zero_add]
  unfold ofUInt32
  rw [if_pos (by have := Nat.and_le_right (n := u / 2) (m := 1431655765); omega)]

/-- `(n >> 2) & 0x33333333` in terms of the unsigned value. -/
theorem jsAnd_shr2_33 (u : Nat) (hu : u < 4294967296) :
    jsAnd (jsShr (ofUInt32 u) 2) 858993459
      = ((u / 4 &&& 858993459 : Nat) : Int) := by
  unfold jsAnd
  have hm33 : toUInt32 (858993459 : Int) = (858993459 : Nat) := by
    unfold toUInt32; omega
  rw [toUInt32_jsShr2 u hu, hm33]
  have h2 : u / 4 < 2 ^ 30 := by omega
  have hm : (858993459 : Nat) < 2 ^ 30 := by norm_num
  have hc := land_concat 30 (if 2147483648 ≤ u then 3 else 0) (u / 4) 0 858993459 h2 hm
  have he : 1073741824 * (if 2147483648 ≤ u then 3 else 0) + u / 4
      = 2 ^ 30 * (if 2147483648 ≤ u then 3 else 0) + u / 4 := by norm_num
  have he2 : (858993459 : Nat) = 2 ^ 30 * 0 + 858993459 := by norm_num
  rw [he, he2, hc]
  simp only [Nat.and_zero, Nat.mul_zero, Nat.zero_add]
  unfold ofUInt32
  rw [if_pos (by have := Nat.and_le_right (n := u / 4) (m := 858993459); omega)]

theorem toUInt32_sub (u M : Nat) (hu : u < 4294967296) (hM : M ≤ u) :
    toUInt32 (ofUInt32 u - (M : Int)) = u - M := by
  unfold ofUInt32 toUInt32
  split <;> omega

/-- Correctness of the embedded `bitCount32`: on any int32 input it
returns the population count of the input's unsigned 32-bit value. -/
theorem bitCount32_eq_popCount (u : Nat) (hu : u < 4294967296) :
    bitCount32 (ofUInt32 u) = (popCount u : Int) := by
  have hMle : (u / 2 &&& 1431655765) ≤ u :=
    le_trans Nat.and_le_left (Nat.div_le_self _ _)
  set N1 : Nat := u - (u / 2 &&& 1431655765) with hN1
  have hN1lt : N1 < 4294967296 := by omega
  set A : Nat := N1 &&& 858993459 with hA
  set B : Nat := N1 / 4 &&& 858993459 with hB
  have hAle : A ≤ 858993459 := Nat.and_le_right
  have hBle : B ≤ 858993459 := Nat.and_le_right
  set N2 : Nat := A + B with hN2
  have hN2lt : N2 < 2147483648 := by omega
  set N3 : Nat := (N2 + N2 / 16) &&& 252645135 with hN3
  have hN3le : N3 ≤ 252645135 := Nat.and_le_right
  have key := swarNat u hu N1 N2 N3 hN1 (by rw [hN2, hA, hB]) hN3
  -- now walk the Int pipeline
  show (let n1 := ofUInt32 u - jsAnd (jsShr (ofUInt32 u) 1) 1431655765;
        let n2 := jsAnd n1 858993459 + jsAnd (jsShr n1 2) 858993459;
        jsShr (jsAnd (n2 + jsShr n2 4) 252645135 * 16843009) 24)
      = (popCount u : Int)
  simp only
  rw [jsAnd_shr1_55 u hu]
  have hn1 : toUInt32 (ofUInt32 u - ((u / 2 &&& 1431655765 : Nat) : Int))
      = toUInt32 (N1 : Int) := by
    rw [toUInt32_sub u _ hu hMle, toUInt32_coe N1 hN1lt, hN1]
  rw [jsAnd_congr_left _ _ _ hn1, jsShr_congr _ _ _ hn1]
  rw [jsAnd_coe N1 858993459 858993459 hN1lt (by unfold toUInt32; omega)
    (by norm_num)]
  have hshr2 : jsShr ((N1 : Nat) : Int) 2 = jsShr (ofUInt32 N1) 2 := by
    refine jsShr_congr _ _ _ ?_
    rw [toUInt32_coe N1 hN1lt, toUInt32_ofUInt32 N1 hN1lt]
  rw [hshr2, jsAnd_shr2_33 N1 hN1lt]
  rw [← hA, ← hB]
  have hsum : ((A : Nat) : Int) + ((B : Nat) : Int) = ((N2 : Nat) : Int) := by
    rw [hN2]; push_cast; ring
  rw [hsum]
  rw [jsShr_coe_small N2 4 hN2lt]
  have hsum2 : ((N2 : Nat) : Int) + ((N2 / 2 ^ 4 : Nat) : Int)
      = ((N2 + N2 / 16 : Nat) : Int) := by push_cast; norm_num
  rw [hsum2]
  rw [jsAnd_coe (N2 + N2 / 16) 252645135 252645135 (by omega)
    (by unfold toUInt32; omega) (by norm_num)]
  rw [← hN3]
  have hprod : ((N3 : Nat) : Int) * 16843009 = ((N3 * 16843009 : Nat) : Int) := by
    push_cast; ring
  rw [hprod]
  -- the final arithmetic shift: the product reduced mod 2^32 is small
  set P : Nat := N3 * 16843009 with hP
  have hpople : popCount u ≤ 32 := popCount_le_of_lt 32 u (by norm_num; omega)
  have hPN : P % 4294967296 < 2147483648 := by
    have hsplit : P % 4294967296
        = 16777216 * (P % 4294967296 / 16777216) + P % 4294967296 % 16777216 := by
      omega
    rw [key] at hsplit
    omega
  unfold jsShr toInt32 toUInt32
  have hcast : ((P : Int) % 4294967296).toNat = P % 4294967296 := by omega
  rw [hcast]
  unfold ofUInt32
  rw [if_pos hPN, Int.fdiv_eq_ediv _ (by norm_num)]
  have hdiv : ((P % 4294967296 : Nat) : Int) / ((2:Int) ^ 24)
      = ((P % 4294967296 / 16777216 : Nat) : Int) := by
    have h16 : ((2:Int) ^ 24) = ((16777216 : Nat) : Int) := by norm_num
    rw [h16, ← Int.natCast_div]
  rw [hdiv, ← key]

theorem jsXor_ofUInt32 (a b : Nat) (ha : a < 4294967296) (hb : b < 4294967296) :
    jsXor (ofUInt32 a) (ofUInt32 b) = ofUInt32 (a ^^^ b) := by
  unfold jsXor
  rw [toUInt32_ofUInt32 a ha, toUInt32_ofUInt32 b hb]

theorem xor_lt_32 (a b : Nat) (ha : a < 4294967296) (hb : b < 4294967296) :
    a ^^^ b < 4294967296 := by
  have h32 : (4294967296 : Nat) = 2 ^ 32 := by norm_num
  rw [h32] at ha hb ⊢
  exact Nat.xor_lt_two_pow ha hb

theorem popCount_xor_le_32 (a b : Nat) (ha : a < 4294967296)
    (hb : b < 4294967296) : popCount (a ^^^ b) ≤ 32 := by
  refine popCount_le_of_lt 32 _ ?_
  have h := xor_lt_32 a b ha hb
  norm_num
  omega

/-- C5: `hdist` on two 64-bit values (as pairs of 32-bit words) is the
sum of the popcounts of the per-word XORs; it is symmetric, between 0
and 64, and zero on equal inputs. -/
theorem hdist_hamming_metric (a0 a1 b0 b1 : Nat)
    (ha0 : a0 < 4294967296) (ha1 : a1 < 4294967296)
    (hb0 : b0 < 4294967296) (hb1 : b1 < 4294967296) :
    hdist (ofUInt32 a0, ofUInt32 a1) (ofUInt32 b0, ofUInt32 b1)
        = (popCount (a0 ^^^ b0) : Int) + (popCount (a1 ^^^ b1) : Int)
      ∧ hdist (ofUInt32 a0, ofUInt32 a1) (ofUInt32 b0, ofUInt32 b1)
        = hdist (ofUInt32 b0, ofUInt32 b1) (ofUInt32 a0, ofUInt32 a1)
      ∧ 0 ≤ hdist (ofUInt32 a0, ofUInt32 a1) (ofUInt32 b0, ofUInt32 b1)
      ∧ hdist (ofUInt32 a0, ofUInt32 a1) (ofUInt32 b0, ofUInt32 b1) ≤ 64
      ∧ hdist (ofUInt32 a0, ofUInt32 a1) (ofUInt32 a0, ofUInt32 a1) = 0 := by
  have main : ∀ x0 x1 y0 y1 : Nat, x0 < 4294967296 → x1 < 4294967296 →
      y0 < 4294967296 → y1 < 4294967296 →
      hdist (ofUInt32 x0, ofUInt32 x1) (ofUInt32 y0, ofUInt32 y1)
        = (popCount (x0 ^^^ y0) : Int) + (popCount (x1 ^^^ y1) : Int) := by
    intro x0 x1 y0 y1 hx0 hx1 hy0 hy1
    unfold hdist
    simp only
    rw [jsXor_ofUInt32 x0 y0 hx0 hy0, jsXor_ofUInt32 x1 y1 hx1 hy1,
      bitCount32_eq_popCount _ (xor_lt_32 x0 y0 hx0 hy0),
      bitCount32_eq_popCount _ (xor_lt_32 x1 y1 hx1 hy1)]
  have h1 := main a0 a1 b0 b1 ha0 ha1 hb0 hb1
  have h2 := main b0 b1 a0 a1 hb0 hb1 ha0 ha1
  have h3 := main a0 a1 a0 a1 ha0 ha1 ha0 ha1
  refine ⟨h1, ?_, ?_, ?_, ?_⟩
  · rw [h1, h2, Nat.xor_comm a0 b0, Nat.xor_comm a1 b1]
  · rw [h1]; positivity
  · rw [h1]
    have p0 := popCount_xor_le_32 a0 b0 ha0 hb0
    have p1 := popCount_xor_le_32 a1 b1 ha1 hb1
    omega
  · rw [h3]
    simp [Nat.xor_self]

/-- Witness for C5 at concrete words. -/
theorem hdist_hamming_metric_witness :
    hdist (ofUInt32 3, ofUInt32 0) (ofUInt32 1, ofUInt32 2147483653)
        = (popCount (3 ^^^ 1) : Int) + (popCount (0 ^^^ 2147483653) : Int)
      ∧ hdist (ofUInt32 3, ofUInt32 0) (ofUInt32 1, ofUInt32 2147483653)
        = hdist (ofUInt32 1, ofUInt32 2147483653) (ofUInt32 3, ofUInt32 0)
      ∧ 0 ≤ hdist (ofUInt32 3, ofUInt32 0) (ofUInt32 1, ofUInt32 2147483653)
      ∧ hdist (ofUInt32 3, ofUInt32 0) (ofUInt32 1, ofUInt32 2147483653) ≤ 64
      ∧ hdist (ofUInt32 3, ofUInt32 0) (ofUInt32 3, ofUInt32 0) = 0 :=
  hdist_hamming_metric 3 0 1 2147483653 (by norm_num) (by norm_num)
    (by norm_num) (by norm_num)

/-! ## The disjoint-set forest (`DSNode` in rededup.js)

A `DSNode` has a nullable `parent` pointer and a `rank`.  We model the
forest as a single state mapping node identifiers (natural numbers; the
clustering engine uses the item's original index) to their `parent` and
`rank` fields.  The JS `find` is a while loop; we embed it with an
explicit fuel parameter, which is irrelevant once large enough (the
rank invariant bounds every parent chain). -/

structure DS where
  parent : Nat → Option Nat
  rank : Nat → Nat

/-- The state with every node a fresh singleton (`new DSNode()`). -/
def DS.init : DS := ⟨fun _ => none, fun _ => 0⟩

def DS.setParent (s : DS) (i : Nat) (p : Option Nat) : DS :=
  { s with parent := fun j => if j = i then p else s.parent j }

def DS.setRank (s : DS) (i : Nat) (r : Nat) : DS :=
  { s with rank := fun j => if j = i then r else s.rank j }

/-- Embedding of `DSNode.find`:
```
find() {
    let node = this;
    while (node.parent) {
        const parent = node.parent;
        node.parent = parent.parent || parent;
        node = parent;
    }
    return node;
}
```
Each iteration repoints the current node at its grandparent (or at its
parent when the parent is a root) and moves to the parent. -/
def DS.find : Nat → DS → Nat → DS × Nat
  | 0, s, i => (s, i)
  | fuel + 1, s, i =>
    match s.parent i with
    | none => (s, i)
    | some p => DS.find fuel (s.setParent i (some ((s.parent p).getD p))) p

theorem DS.find_of_root (fuel : Nat) (s : DS) (i : Nat)
    (h : s.parent i = none) : DS.find (fuel + 1) s i = (s, i) := by
  simp only [DS.find, h]

/-- Embedding of `DSNode.union`:
```
union(other) {
    let node = this.find();
    other = other.find();
    if (node === other) { return node; }
    if (node.rank < other.rank) { const tmp = node; node = other; other = tmp; }
    other.parent = node;
    if (node.rank === other.rank) { node.rank += 1; }
    return node;
}
``` -/
def DS.union (fuel : Nat) (s : DS) (a b : Nat) : DS × Nat :=
  let fa := DS.find fuel s a
  let fb := DS.find fuel fa.1 b
  let s2 := fb.1
  let x := fa.2
  let y := fb.2
  if x = y then (s2, x)
  else
    let xy := if s2.rank x < s2.rank y then (y, x) else (x, y)
    let s3 := s2.setParent xy.2 (some xy.1)
    let s4 := if s3.rank xy.1 = s3.rank xy.2
      then s3.setRank xy.1 (s3.rank xy.1 + 1) else s3
    (s4, xy.1)

/-- `Reaches s i r`: following parent pointers from `i` terminates at
the root `r`. -/
inductive Reaches (s : DS) : Nat → Nat → Prop
  | root (i : Nat) : s.parent i = none → Reaches s i i
  | step (i p r : Nat) : s.parent i = some p → Reaches s p r → Reaches s i r

/-- The set of live roots among the first `n` nodes. -/
def DS.numRoots (n : Nat) (s : DS) : Nat :=
  ((Finset.range n).filter (fun i => s.parent i = none)).card

/-- Well-formedness of the forest over nodes `0..n-1`: parent edges stay
in range and strictly increase rank (the union-by-rank invariant, which
single-step path compression preserves), nodes out of range are
untouched singletons, and ranks are bounded through a root-counting
potential. -/
structure DSWF (n : Nat) (s : DS) : Prop where
  dom : ∀ i p, s.parent i = some p → i < n ∧ p < n ∧ s.rank i < s.rank p
  outside : ∀ i, n ≤ i → s.parent i = none ∧ s.rank i = 0
  pot : ∀ i, i < n → s.rank i + DS.numRoots n s ≤ n + 1

theorem DSWF.rank_le {n : Nat} {s : DS} (h : DSWF n s) (i : Nat) :
    s.rank i ≤ n + 1 := by
  by_cases hi : i < n
  · have := h.pot i hi; omega
  · have := (h.outside i (by omega)).2; omega

theorem DSWF.init_forest (n : Nat) : DSWF n DS.init := by
  refine ⟨?_, ?_, ?_⟩
  · intro i p h; simp [DS.init] at h
  · intro i _; exact ⟨rfl, rfl⟩
  · intro i _
    have h1 : DS.numRoots n DS.init ≤ n := by
      unfold DS.numRoots
      calc ((Finset.range n).filter _).card ≤ (Finset.range n).card :=
            Finset.card_filter_le _ _
        _ = n := Finset.card_range n
    have h2 : DS.init.rank i = 0 := rfl
    omega

/-- Roots are unique: the parent chase is deterministic. -/
theorem Reaches.unique {s : DS} {i r r' : Nat}
    (h : Reaches s i r) (h' : Reaches s i r') : r = r' := by
  induction h with
  | root i hi => cases h' with
    | root => rfl
    | step _ p _ hp => rw [hi] at hp; cases hp
  | step i p r hi _ ih => cases h' with
    | root _ hnone => rw [hi] at hnone; cases hnone
    | step _ p' _ hp hr =>
      rw [hi] at hp
      cases hp
      exact ih hr

theorem Reaches.parent_none {s : DS} {i r : Nat} (h : Reaches s i r) :
    s.parent r = none := by
  induction h with
  | root _ hi => exact hi
  | step _ _ _ _ _ ih => exact ih

theorem Reaches.lt {n : Nat} {s : DS} (hwf : DSWF n s) {i r : Nat}
    (hi : i < n) (h : Reaches s i r) : r < n := by
  induction h with
  | root => exact hi
  | step j p r hp _ ih => exact ih (hwf.dom j p hp).2.1

/-- Totality of the parent chase under well-formedness. -/
theorem reaches_total {n : Nat} {s : DS} (hwf : DSWF n s) :
    ∀ i, ∃ r, Reaches s i r := by
  have main : ∀ gas i, n + 2 - s.rank i ≤ gas → ∃ r, Reaches s i r := by
    intro gas
    induction gas with
    | zero =>
      intro i hgas
      have := hwf.rank_le i
      omega
    | succ gas ih =>
      intro i hgas
      cases hp : s.parent i with
      | none => exact ⟨i, Reaches.root i hp⟩
      | some p =>
        have hdom := hwf.dom i p hp
        have hplt := hwf.rank_le p
        obtain ⟨r, hr⟩ := ih p (by omega)
        exact ⟨r, Reaches.step i p r hp hr⟩
  intro i
  have := hwf.rank_le i
  exact main (n + 2) i (by omega)

/-- `Reaches` only looks at parent pointers. -/
theorem Reaches.congr {s t : DS} (h : s.parent = t.parent) {i r : Nat}
    (hr : Reaches s i r) : Reaches t i r := by
  induction hr with
  | root i hi => exact Reaches.root i (h ▸ hi)
  | step i p r hi _ ih => exact Reaches.step i p r (h ▸ hi) ih

theorem numRoots_congr {n : Nat} {s t : DS}
    (h : ∀ x, x < n → (s.parent x = none ↔ t.parent x = none)) :
    DS.numRoots n s = DS.numRoots n t := by
  unfold DS.numRoots
  congr 1
  apply Finset.filter_congr
  intro x hx
  simp only [Finset.mem_range] at hx
  simp [h x hx]

/-- Repointing a non-root node at an ancestor with larger rank keeps the
forest well-formed and does not change any reachability fact. -/
theorem setParent_ancestor {n : Nat} {s : DS} (hwf : DSWF n s)
    {i p g rg : Nat} (hip : s.parent i = some p) (hgn : g < n)
    (hg : Reaches s g rg) (hi : Reaches s i rg)
    (hrank : s.rank i < s.rank g) :
    DSWF n (s.setParent i (some g))
      ∧ (∀ x y, Reaches (s.setParent i (some g)) x y ↔ Reaches s x y) := by
  have hin : i < n := (hwf.dom i p hip).1
  have hrankeq : (s.setParent i (some g)).rank = s.rank := rfl
  have hwf' : DSWF n (s.setParent i (some g)) := by
    refine ⟨?_, ?_, ?_⟩
    · intro j q hq
      by_cases hji : j = i
      · subst hji
        simp only [DS.setParent, if_pos rfl] at hq
        cases hq
        exact ⟨hin, hgn, hrank⟩
      · simp only [DS.setParent, if_neg hji] at hq
        exact hwf.dom j q hq
    · intro j hj
      have hji : j ≠ i := by omega
      simp only [DS.setParent, if_neg hji]
      exact hwf.outside j hj
    · intro j hj
      have hroots : DS.numRoots n (s.setParent i (some g)) = DS.numRoots n s := by
        apply numRoots_congr
        intro x _
        by_cases hxi : x = i
        · subst hxi
          simp [DS.setParent, hip]
        · simp [DS.setParent, hxi]
      rw [hroots]
      exact hwf.pot j hj
  have hback : ∀ x y, Reaches s x y → Reaches (s.setParent i (some g)) x y := by
    have main : ∀ gas x y, n + 2 - s.rank x ≤ gas → Reaches s x y →
        Reaches (s.setParent i (some g)) x y := by
      intro gas
      induction gas with
      | zero =>
        intro x y hgas _
        have := hwf.rank_le x
        omega
      | succ gas ih =>
        intro x y hgas hxy
        cases hxy with
        | root x hx =>
          have hxi : x ≠ i := by
            intro hc; subst hc; rw [hip] at hx; cases hx
          exact Reaches.root x (by simp [DS.setParent, hxi, hx])
        | step x q y hq hqy =>
          by_cases hxi : x = i
          · subst hxi
            rw [hip] at hq
            cases hq
            have hyrg : y = rg := by
              cases hi with
              | root _ hnone => rw [hip] at hnone; cases hnone
              | step _ p' _ hp' hr' =>
                rw [hip] at hp'
                cases hp'
                exact Reaches.unique hqy hr'
            subst hyrg
            refine Reaches.step x g y (by simp [DS.setParent]) ?_
            exact ih g y (by omega) hg
          · have hdom := hwf.dom x q hq
            refine Reaches.step x q y (by simp [DS.setParent, hxi, hq]) ?_
            exact ih q y (by omega) hqy
    intro x y hxy
    have := hwf.rank_le x
    exact main (n + 2) x y (by omega) hxy
  have hfwd : ∀ x y, Reaches (s.setParent i (some g)) x y → Reaches s x y := by
    have main : ∀ gas x y, n + 2 - s.rank x ≤ gas →
        Reaches (s.setParent i (some g)) x y → Reaches s x y := by
      intro gas
      induction gas with
      | zero =>
        intro x y hgas _
        have := hwf.rank_le x
        omega
      | succ gas ih =>
        intro x y hgas hxy
        cases hxy with
        | root x hx =>
          have hxi : x ≠ i := by
            intro hc; subst hc; simp [DS.setParent] at hx
          simp only [DS.setParent, if_neg hxi] at hx
          exact Reaches.root x hx
        | step x q y hq hqy =>
          by_cases hxi : x = i
          · subst hxi
            simp only [DS.setParent, if_pos rfl] at hq
            cases hq
            have hgy : Reaches s g y := ih g y (by omega) hqy
            have : y = rg := Reaches.unique hgy hg
            subst this
            exact hi
          · simp only [DS.setParent, if_neg hxi] at hq
            have hdom := hwf.dom x q hq
            exact Reaches.step x q y hq (ih q y (by omega) hqy)
    intro x y hxy
    have := hwf.rank_le x
    exact main (n + 2) x y (by omega) hxy
  exact ⟨hwf', fun x y => ⟨hfwd x y, hback x y⟩⟩

/-- Specification of `DSNode.find`: with adequate fuel it returns the
root of its argument, preserves well-formedness, ranks, the set of
roots, and every reachability fact (path compression only shortens
chains). -/
theorem find_spec {n : Nat} : ∀ (fuel : Nat) (s : DS), DSWF n s →
    ∀ i r, Reaches s i r → n + 2 - s.rank i ≤ fuel →
    DSWF n (DS.find fuel s i).1
    ∧ (DS.find fuel s i).2 = r
    ∧ (DS.find fuel s i).1.rank = s.rank
    ∧ (∀ x y, Reaches (DS.find fuel s i).1 x y ↔ Reaches s x y)
    ∧ (∀ x, (DS.find fuel s i).1.parent x = none ↔ s.parent x = none) := by
  intro fuel
  induction fuel with
  | zero =>
    intro s hwf i r _ hfuel
    have := hwf.rank_le i
    omega
  | succ fuel ih =>
    intro s hwf i r hr hfuel
    cases hp : s.parent i with
    | none =>
      have heq : DS.find (fuel + 1) s i = (s, i) := by
        simp [DS.find, hp]
      have hri : r = i := by
        cases hr with
        | root => rfl
        | step _ p _ hp' _ => rw [hp] at hp'; cases hp'
      rw [heq, hri]
      exact ⟨hwf, rfl, rfl, fun _ _ => Iff.rfl, fun _ => Iff.rfl⟩
    | some p =>
      have hdom := hwf.dom i p hp
      have hpr : Reaches s p r := by
        cases hr with
        | root _ hnone => rw [hp] at hnone; cases hnone
        | step _ p' _ hp' hr' => rw [hp] at hp'; cases hp'; exact hr'
      -- the grandparent (or the parent, when the parent is a root)
      have hga : ∃ g, (s.parent p).getD p = g ∧ g < n ∧ s.rank i < s.rank g
          ∧ Reaches s g r := by
        cases hpp : s.parent p with
        | none =>
          refine ⟨p, by simp [hpp], hdom.2.1, hdom.2.2, hpr⟩
        | some gp =>
          have hdom2 := hwf.dom p gp hpp
          have hgpr : Reaches s gp r := by
            cases hpr with
            | root _ hnone => rw [hpp] at hnone; cases hnone
            | step _ q _ hq hr' => rw [hpp] at hq; cases hq; exact hr'
          exact ⟨gp, by simp [hpp], hdom2.2.1, by omega, hgpr⟩
      obtain ⟨g, hgeq, hgn, hgrank, hgr⟩ := hga
      have hsp := setParent_ancestor hwf hp hgn hgr hr hgrank
      obtain ⟨hwf1, hiff1⟩ := hsp
      have heq : DS.find (fuel + 1) s i
          = DS.find fuel (s.setParent i (some g)) p := by
        simp [DS.find, hp, hgeq]
      have hrank1 : (s.setParent i (some g)).rank = s.rank := rfl
      have hpr1 : Reaches (s.setParent i (some g)) p r := (hiff1 p r).mpr hpr
      have hfuel1 : n + 2 - (s.setParent i (some g)).rank p ≤ fuel := by
        rw [hrank1]
        omega
      have hih := ih (s.setParent i (some g)) hwf1 p r hpr1 hfuel1
      obtain ⟨ha, hb, hc, hd, he⟩ := hih
      rw [heq]
      refine ⟨ha, hb, by rw [hc, hrank1], ?_, ?_⟩
      · intro x y
        exact (hd x y).trans (hiff1 x y)
      · intro x
        refine (he x).trans ?_
        by_cases hxi : x = i
        · subst hxi
          simp [DS.setParent, hp]
        · simp [DS.setParent, hxi]

/-- Specification of `DSNode.union` with adequate fuel.  Writing `w`
for the winning root (the higher-rank root, the first argument's root
on ties) and `l` for the losing root: the result is well-formed, the
returned representative is `w` (or the common root when the arguments
are already equivalent), every node reaching `ra` or `rb` now reaches
`w` while all other classes are untouched, exactly the root `l`
stops being a root, and when the two roots coincide the union performs
nothing beyond its two `find` calls. -/
theorem union_spec {n : Nat} (s : DS) (hwf : DSWF n s) (a b ra rb : Nat)
    (han : a < n) (hbn : b < n) (hra : Reaches s a ra) (hrb : Reaches s b rb)
    (fuel : Nat) (hfuel : n + 2 ≤ fuel) :
    DSWF n (DS.union fuel s a b).1
    ∧ (DS.union fuel s a b).2
        = (if ra = rb then ra else if s.rank ra < s.rank rb then rb else ra)
    ∧ (∀ x rx, Reaches s x rx →
        Reaches (DS.union fuel s a b).1 x
          (if ra ≠ rb ∧ (rx = ra ∨ rx = rb)
            then (if s.rank ra < s.rank rb then rb else ra) else rx))
    ∧ (∀ x, (DS.union fuel s a b).1.parent x = none
        ↔ (s.parent x = none
            ∧ (ra = rb ∨ x ≠ (if s.rank ra < s.rank rb then ra else rb))))
    ∧ (ra = rb → DS.union fuel s a b
        = ((DS.find fuel (DS.find fuel s a).1 b).1, (DS.find fuel s a).2)) := by
  have hfa := find_spec fuel s hwf a ra hra (by have := hwf.rank_le a; omega)
  obtain ⟨hwf1, hva, hrk1, hiff1, hroots1⟩ := hfa
  set s1 := (DS.find fuel s a).1 with hs1
  have hrb1 : Reaches s1 b rb := (hiff1 b rb).mpr hrb
  have hfb := find_spec fuel s1 hwf1 b rb hrb1
    (by rw [hrk1]; have := hwf.rank_le b; omega)
  obtain ⟨hwf2, hvb, hrk2, hiff2, hroots2⟩ := hfb
  set s2 := (DS.find fuel s1 b).1 with hs2
  have hrk2' : s2.rank = s.rank := by rw [hrk2, hrk1]
  have hiff2' : ∀ x y, Reaches s2 x y ↔ Reaches s x y := by
    intro x y
    exact (hiff2 x y).trans (hiff1 x y)
  have hroots2' : ∀ x, s2.parent x = none ↔ s.parent x = none := by
    intro x
    exact (hroots2 x).trans (hroots1 x)
  have hran : ra < n := Reaches.lt hwf han hra
  have hrbn : rb < n := Reaches.lt hwf hbn hrb
  have hrootra : s2.parent ra = none := (hroots2' ra).mpr hra.parent_none
  have hrootrb : s2.parent rb = none := (hroots2' rb).mpr hrb.parent_none
  have hunion : DS.union fuel s a b
      = (if (DS.find fuel s a).2 = (DS.find fuel s1 b).2
          then (s2, (DS.find fuel s a).2)
          else
            let xy := if s2.rank (DS.find fuel s a).2
                < s2.rank (DS.find fuel s1 b).2
              then ((DS.find fuel s1 b).2, (DS.find fuel s a).2)
              else ((DS.find fuel s a).2, (DS.find fuel s1 b).2)
            let s3 := s2.setParent xy.2 (some xy.1)
            let s4 := if s3.rank xy.1 = s3.rank xy.2
              then s3.setRank xy.1 (s3.rank xy.1 + 1) else s3
            (s4, xy.1)) := by
    rfl
  rw [hunion, hva, hvb]
  by_cases hrarb : ra = rb
  · rw [if_pos hrarb]
    refine ⟨hwf2, by rw [if_pos hrarb], ?_, ?_, ?_⟩
    · intro x rx hrx
      have : ¬(ra ≠ rb ∧ (rx = ra ∨ rx = rb)) := by
        intro hc; exact hc.1 hrarb
      rw [if_neg this]
      exact (hiff2' x rx).mpr hrx
    · intro x
      rw [hroots2' x]
      constructor
      · intro hx; exact ⟨hx, Or.inl hrarb⟩
      · intro hx; exact hx.1
    · intro _; rfl
  · rw [if_neg hrarb]
    simp only
    rw [hrk2']
    -- winner and loser
    set w := if s.rank ra < s.rank rb then rb else ra with hw
    set l := if s.rank ra < s.rank rb then ra else rb with hl
    have hxy : (if s.rank ra < s.rank rb then (rb, ra) else (ra, rb)) = (w, l) := by
      rw [hw, hl]
      by_cases hc : s.rank ra < s.rank rb <;> simp [hc]
    rw [hxy]
    have hwln : w < n ∧ l < n := by
      rw [hw, hl]
      by_cases hc : s.rank ra < s.rank rb <;> simp [hc] <;> omega
    have hwl : w ≠ l := by
      rw [hw, hl]
      by_cases hc : s.rank ra < s.rank rb <;> simp [hc] <;> omega
    have hrootw : s2.parent w = none := by
      rw [hw]; by_cases hc : s.rank ra < s.rank rb <;> simp [hc]
      · exact hrootrb
      · exact hrootra
    have hrootl : s2.parent l = none := by
      rw [hl]; by_cases hc : s.rank ra < s.rank rb <;> simp [hc]
      · exact hrootra
      · exact hrootrb
    have hrankwl : s2.rank l ≤ s2.rank w := by
      rw [hw, hl, hrk2']
      by_cases hc : s.rank ra < s.rank rb <;> simp [hc] <;> omega
    set s3 := s2.setParent l (some w) with hs3
    set s4 := (if s3.rank w = s3.rank l
      then s3.setRank w (s3.rank w + 1) else s3) with hs4
    have hrank3 : s3.rank = s2.rank := rfl
    have hpar4 : s4.parent = s3.parent := by
      rw [hs4]
      by_cases hc : s3.rank w = s3.rank l <;> simp [hc, DS.setRank]
    have hpar3 : ∀ x, s3.parent x = if x = l then some w else s2.parent x := by
      intro x; rfl
    have h3x : ∀ y, s3.rank y = s2.rank y := fun y => congrFun hrank3 y
    have hrank4 : ∀ x, s4.rank x
        = if s2.rank w = s2.rank l ∧ x = w
          then s2.rank w + 1 else s2.rank x := by
      intro x
      rw [hs4]
      by_cases hc : s3.rank w = s3.rank l
      · rw [if_pos hc]
        have hc2 : s2.rank w = s2.rank l := by rw [← h3x w, ← h3x l]; exact hc
        show (if x = w then s3.rank w + 1 else s3.rank x) = _
        by_cases hx : x = w
        · rw [if_pos hx, if_pos ⟨hc2, hx⟩, h3x]
        · rw [if_neg hx, if_neg (fun hcc => hx hcc.2), h3x]
      · rw [if_neg hc]
        have hc2 : ¬ s2.rank w = s2.rank l := by
          rw [← h3x w, ← h3x l]; exact hc
        rw [if_neg (fun hcc => hc2 hcc.1), h3x]
    have hranklw4 : s4.rank l < s4.rank w := by
      rw [hrank4 l, hrank4 w]
      have hlw : l ≠ w := fun hc => hwl hc.symm
      by_cases hc : s2.rank w = s2.rank l
      · rw [if_neg (fun hcc => hlw hcc.2), if_pos ⟨hc, rfl⟩]
        omega
      · rw [if_neg (fun hcc => hlw hcc.2), if_neg (fun hcc => hc hcc.1)]
        omega
    -- well-formedness of the result
    have hwf4 : DSWF n s4 := by
      refine ⟨?_, ?_, ?_⟩
      · intro j q hq
        rw [hpar4, hpar3] at hq
        by_cases hj : j = l
        · rw [if_pos hj] at hq
          cases hq
          refine ⟨hj ▸ hwln.2, hwln.1, ?_⟩
          rw [hj]
          exact hranklw4
        · rw [if_neg hj] at hq
          have hd := hwf2.dom j q hq
          refine ⟨hd.1, hd.2.1, ?_⟩
          have hjw : j ≠ w := by
            intro hjw
            rw [hjw, hrootw] at hq
            cases hq
          rw [hrank4 j, hrank4 q, if_neg (fun hcc => hjw hcc.2)]
          by_cases hqw : s2.rank w = s2.rank l ∧ q = w
          · rw [if_pos hqw]
            obtain ⟨hqw1, hqw2⟩ := hqw
            have := hd.2.2
            rw [hqw2] at this
            omega
          · rw [if_neg hqw]
            exact hd.2.2
      · intro j hj
        have ho := hwf2.outside j hj
        constructor
        · rw [hpar4, hpar3]
          have : j ≠ l := by have := hwln.2; omega
          rw [if_neg this]
          exact ho.1
        · rw [hrank4]
          have : j ≠ w := by have := hwln.1; omega
          have hc : ¬(s2.rank w = s2.rank l ∧ j = w) := fun hcc => this hcc.2
          rw [if_neg hc]
          exact ho.2
      · intro j hj
        -- the loser stops being a root; every other root survives
        have hcard : DS.numRoots n s4 + 1 = DS.numRoots n s2 := by
          unfold DS.numRoots
          have hsetEq : (Finset.range n).filter (fun i => s4.parent i = none)
              = ((Finset.range n).filter (fun i => s2.parent i = none)).erase l := by
            ext x
            simp only [Finset.mem_filter, Finset.mem_erase, Finset.mem_range]
            rw [hpar4, hpar3]
            by_cases hx : x = l
            · simp [hx]
            · simp only [if_neg hx]
              constructor
              · intro hc; exact ⟨hx, hc.1, hc.2⟩
              · intro hc; exact ⟨hc.2.1, hc.2.2⟩
          rw [hsetEq]
          have hlmem : l ∈ (Finset.range n).filter (fun i => s2.parent i = none) := by
            simp only [Finset.mem_filter, Finset.mem_range]
            exact ⟨hwln.2, hrootl⟩
          rw [Finset.card_erase_of_mem hlmem]
          have : 0 < ((Finset.range n).filter (fun i => s2.parent i = none)).card :=
            Finset.card_pos.mpr ⟨l, hlmem⟩
          omega
        have hpot2w := hwf2.pot w hwln.1
        have hpot2j := hwf2.pot j hj
        rw [hrank4]
        by_cases hc : s2.rank w = s2.rank l ∧ j = w
        · rw [if_pos hc]
          omega
        · rw [if_neg hc]
          omega
    -- reachability mapping
    have hmap : ∀ x rx, Reaches s2 x rx →
        Reaches s4 x (if rx = ra ∨ rx = rb then w else rx) := by
      have main : ∀ gas x rx, n + 2 - s4.rank x ≤ gas → Reaches s2 x rx →
          Reaches s4 x (if rx = ra ∨ rx = rb then w else rx) := by
        intro gas
        induction gas with
        | zero =>
          intro x rx hgas _
          have := hwf4.rank_le x
          omega
        | succ gas ih =>
          intro x rx hgas hrx
          cases hrx with
          | root x hx =>
            by_cases hxl : x = l
            · have hxw : Reaches s4 x w := by
                refine Reaches.step x w w ?_ ?_
                · rw [hpar4, hpar3, if_pos hxl]
                · refine Reaches.root w ?_
                  rw [hpar4, hpar3, if_neg (fun hc => hwl hc)]
                  exact hrootw
              have : x = ra ∨ x = rb := by
                rw [hxl, hl]
                by_cases hc : s.rank ra < s.rank rb <;> simp [hc]
              rw [if_pos this]
              exact hxw
            · have hx4 : s4.parent x = none := by
                rw [hpar4, hpar3, if_neg hxl]
                exact hx
              by_cases hxw : x = w
              · have : x = ra ∨ x = rb := by
                  rw [hxw, hw]
                  by_cases hc : s.rank ra < s.rank rb <;> simp [hc]
                rw [if_pos this, ← hxw]
                exact Reaches.root x hx4
              · have hne : ¬(x = ra ∨ x = rb) := by
                  intro hc
                  have hor : x = w ∨ x = l := by
                    rw [hw, hl]
                    by_cases hcc : s.rank ra < s.rank rb
                    · rw [if_pos hcc, if_pos hcc]
                      tauto
                    · rw [if_neg hcc, if_neg hcc]
                      tauto
                  rcases hor with h | h
                  · exact hxw h
                  · exact hxl h
                rw [if_neg hne]
                exact Reaches.root x hx4
          | step x q rx hq hqr =>
            have hxl : x ≠ l := by
              intro hc
              rw [hc, hrootl] at hq
              cases hq
            have hq4 : s4.parent x = some q := by
              rw [hpar4, hpar3, if_neg hxl]
              exact hq
            have hdom4 := hwf4.dom x q hq4
            refine Reaches.step x q _ hq4 ?_
            exact ih q rx (by omega) hqr
      intro x rx hrx
      have := hwf4.rank_le x
      exact main (n + 2) x rx (by omega) hrx
    refine ⟨hwf4, by rw [if_neg hrarb], ?_, ?_, ?_⟩
    · intro x rx hrx
      have h2 : Reaches s2 x rx := (hiff2' x rx).mpr hrx
      have := hmap x rx h2
      by_cases hc : rx = ra ∨ rx = rb
      · rw [if_pos ⟨hrarb, hc⟩]
        rw [if_pos hc] at this
        exact this
      · have : ¬(ra ≠ rb ∧ (rx = ra ∨ rx = rb)) := fun hcc => hc hcc.2
        rw [if_neg this]
        have h4 := hmap x rx h2
        rw [if_neg hc] at h4
        exact h4
    · intro x
      rw [hpar4, hpar3]
      by_cases hx : x = l
      · rw [if_pos hx]
        constructor
        · intro hc; cases hc
        · intro hc
          rcases hc.2 with hc2 | hc2
          · exact absurd hc2 hrarb
          · exact absurd hx hc2
      · rw [if_neg hx]
        rw [hroots2' x]
        constructor
        · intro hc; exact ⟨hc, Or.inr hx⟩
        · intro hc; exact hc.1
    · intro hc; exact absurd hc hrarb

/-- Run a sequence of `union(a, b)` calls (discarding the returned
representatives), as the clustering engine does. -/
def runUnions (fuel : Nat) (s : DS) (ops : List (Nat × Nat)) : DS :=
  ops.foldl (fun t p => (DS.union fuel t p.1 p.2).1) s

/-- `a` and `b` are connected by some transitive chain of the union
operations in `ops`. -/
inductive Connected (ops : List (Nat × Nat)) : Nat → Nat → Prop
  | refl (a : Nat) : Connected ops a a
  | symm {a b : Nat} : Connected ops a b → Connected ops b a
  | trans {a b c : Nat} : Connected ops a b → Connected ops b c → Connected ops a c
  | base {a b : Nat} : (a, b) ∈ ops → Connected ops a b

/-- Two nodes have the same representative. -/
def SameRoot (s : DS) (a b : Nat) : Prop := ∃ r, Reaches s a r ∧ Reaches s b r

theorem Connected.mono {l l' : List (Nat × Nat)} (h : ∀ p ∈ l, p ∈ l')
    {x y : Nat} (hc : Connected l x y) : Connected l' x y := by
  induction hc with
  | refl a => exact Connected.refl a
  | symm _ ih => exact ih.symm
  | trans _ _ ih1 ih2 => exact ih1.trans ih2
  | base hm => exact Connected.base (h _ hm)

theorem connected_nil {x y : Nat} (h : Connected [] x y) : x = y := by
  induction h with
  | refl => rfl
  | symm _ ih => omega
  | trans _ _ ih1 ih2 => omega
  | base hm => cases hm

theorem connected_append {l : List (Nat × Nat)} {a b x y : Nat} :
    Connected (l ++ [(a, b)]) x y
      ↔ Connected l x y ∨ (Connected l x a ∧ Connected l b y)
        ∨ (Connected l x b ∧ Connected l a y) := by
  constructor
  · intro h
    induction h with
    | refl c => exact Or.inl (Connected.refl c)
    | symm _ ih =>
      rcases ih with h1 | ⟨h1, h2⟩ | ⟨h1, h2⟩
      · exact Or.inl h1.symm
      · exact Or.inr (Or.inr ⟨h2.symm, h1.symm⟩)
      · exact Or.inr (Or.inl ⟨h2.symm, h1.symm⟩)
    | trans _ _ ih1 ih2 =>
      rcases ih1 with h1 | ⟨h1, h2⟩ | ⟨h1, h2⟩ <;>
        rcases ih2 with h3 | ⟨h3, h4⟩ | ⟨h3, h4⟩
      · exact Or.inl (h1.trans h3)
      · exact Or.inr (Or.inl ⟨h1.trans h3, h4⟩)
      · exact Or.inr (Or.inr ⟨h1.trans h3, h4⟩)
      · exact Or.inr (Or.inl ⟨h1, h2.trans h3⟩)
      · exact Or.inr (Or.inl ⟨h1, h4⟩)
      · exact Or.inl (h1.trans h4)
      · exact Or.inr (Or.inr ⟨h1, h2.trans h3⟩)
      · exact Or.inl (h1.trans h4)
      · exact Or.inr (Or.inr ⟨h1, h4⟩)
    | base hm =>
      rw [List.mem_append] at hm
      rcases hm with hm | hm
      · exact Or.inl (Connected.base hm)
      · simp only [List.mem_singleton, Prod.mk.injEq] at hm
        exact Or.inr (Or.inl ⟨hm.1 ▸ Connected.refl _, hm.2 ▸ Connected.refl _⟩)
  · intro h
    have hsub : ∀ p ∈ l, p ∈ l ++ [(a, b)] := by
      intro p hp; exact List.mem_append_left _ hp
    have hab : Connected (l ++ [(a, b)]) a b :=
      Connected.base (List.mem_append_right _ (List.mem_singleton.mpr rfl))
    rcases h with h1 | ⟨h1, h2⟩ | ⟨h1, h2⟩
    · exact h1.mono hsub
    · exact ((h1.mono hsub).trans hab).trans (h2.mono hsub)
    · exact ((h1.mono hsub).trans hab.symm).trans (h2.mono hsub)

theorem sameRoot_iff_roots {s : DS} {x y rx ry : Nat}
    (hx : Reaches s x rx) (hy : Reaches s y ry) :
    SameRoot s x y ↔ rx = ry := by
  constructor
  · rintro ⟨r, hr1, hr2⟩
    rw [Reaches.unique hx hr1, Reaches.unique hy hr2]
  · intro h
    exact ⟨rx, hx, h ▸ hy⟩

/-- Executing a list of unions preserves well-formedness and makes the
same-representative relation exactly the connectivity closure of the
executed pairs. -/
theorem runUnions_spec {n fuel : Nat} (hfuel : n + 2 ≤ fuel) :
    ∀ (ops : List (Nat × Nat)) (s : DS) (processed : List (Nat × Nat)),
    DSWF n s →
    (∀ p ∈ ops, p.1 < n ∧ p.2 < n) →
    (∀ x y, x < n → y < n → (SameRoot s x y ↔ Connected processed x y)) →
    DSWF n (runUnions fuel s ops)
    ∧ (∀ x y, x < n → y < n →
        (SameRoot (runUnions fuel s ops) x y ↔ Connected (processed ++ ops) x y)) := by
  intro ops
  induction ops with
  | nil =>
    intro s processed hwf _ hinv
    refine ⟨hwf, ?_⟩
    simpa using hinv
  | cons ab ops ih =>
    intro s processed hwf hops hinv
    obtain ⟨a, b⟩ := ab
    have han : a < n := (hops (a, b) (List.mem_cons_self _ _)).1
    have hbn : b < n := (hops (a, b) (List.mem_cons_self _ _)).2
    obtain ⟨ra, hra⟩ := reaches_total hwf a
    obtain ⟨rb, hrb⟩ := reaches_total hwf b
    have hu := union_spec s hwf a b ra rb han hbn hra hrb fuel hfuel
    obtain ⟨hwf', _, hmap, _, _⟩ := hu
    set s' := (DS.union fuel s a b).1 with hs'
    have hstep : runUnions fuel s ((a, b) :: ops) = runUnions fuel s' ops := rfl
    have hran : ra < n := Reaches.lt hwf han hra
    have hrbn : rb < n := Reaches.lt hwf hbn hrb
    -- the new equivalence after one union
    have hinv' : ∀ x y, x < n → y < n →
        (SameRoot s' x y ↔ Connected (processed ++ [(a, b)]) x y) := by
      intro x y hx hy
      obtain ⟨rx, hrx⟩ := reaches_total hwf x
      obtain ⟨ry, hry⟩ := reaches_total hwf y
      have hmx := hmap x rx hrx
      have hmy := hmap y ry hry
      rw [sameRoot_iff_roots hmx hmy, connected_append]
      have hxy' : Connected processed x y ↔ (rx = ry) := by
        rw [← (hinv x y hx hy), sameRoot_iff_roots hrx hry]
      have hxa : Connected processed x a ↔ (rx = ra) := by
        rw [← (hinv x a hx han), sameRoot_iff_roots hrx hra]
      have hxb : Connected processed x b ↔ (rx = rb) := by
        rw [← (hinv x b hx hbn), sameRoot_iff_roots hrx hrb]
      have hay : Connected processed a y ↔ (ra = ry) := by
        rw [← (hinv a y han hy), sameRoot_iff_roots hra hry]
      have hby : Connected processed b y ↔ (rb = ry) := by
        rw [← (hinv b y hbn hy), sameRoot_iff_roots hrb hry]
      rw [hxy', hxa, hxb, hay, hby]
      split_ifs <;> omega
    have hrec := ih s' (processed ++ [(a, b)]) hwf'
      (fun p hp => hops p (List.mem_cons_of_mem _ hp)) hinv'
    rw [hstep]
    refine ⟨hrec.1, ?_⟩
    intro x y hx hy
    rw [hrec.2 x y hx hy]
    have heq : processed ++ [(a, b)] ++ ops = processed ++ (a, b) :: ops := by
      simp
    rw [heq]

/-- C4: after any sequence of `union` operations on `n` fresh
disjoint-set nodes, (1) `find(a) == find(b)` holds iff `a` and `b` were
connected by some transitive chain of unions; (2) `find` is idempotent:
running `find` on the returned representative returns it unchanged;
(3) a `union` of two nodes already in the same class performs nothing
beyond its two `find` calls and returns their common representative. -/
theorem dsnode_union_find_correct (n : Nat) (ops : List (Nat × Nat)) (a b : Nat)
    (hops : ∀ p ∈ ops, p.1 < n ∧ p.2 < n) (ha : a < n) (hb : b < n) :
    ((DS.find (n + 2) (runUnions (n + 2) DS.init ops) a).2
        = (DS.find (n + 2)
            (DS.find (n + 2) (runUnions (n + 2) DS.init ops) a).1 b).2
      ↔ Connected ops a b)
    ∧ (∀ x, DS.find (n + 2)
          (DS.find (n + 2) (runUnions (n + 2) DS.init ops) x).1
          (DS.find (n + 2) (runUnions (n + 2) DS.init ops) x).2
        = DS.find (n + 2) (runUnions (n + 2) DS.init ops) x)
    ∧ ((DS.find (n + 2) (runUnions (n + 2) DS.init ops) a).2
        = (DS.find (n + 2)
            (DS.find (n + 2) (runUnions (n + 2) DS.init ops) a).1 b).2 →
        DS.union (n + 2) (runUnions (n + 2) DS.init ops) a b
          = ((DS.find (n + 2)
              (DS.find (n + 2) (runUnions (n + 2) DS.init ops) a).1 b).1,
            (DS.find (n + 2) (runUnions (n + 2) DS.init ops) a).2)) := by
  have hinit : ∀ x y, x < n → y < n →
      (SameRoot DS.init x y ↔ Connected ([] : List (Nat × Nat)) x y) := by
    intro x y _ _
    constructor
    · rintro ⟨r, hr1, hr2⟩
      have hx : r = x := by
        cases hr1 with
        | root => rfl
        | step _ p _ hp _ => simp [DS.init] at hp
      have hy : r = y := by
        cases hr2 with
        | root => rfl
        | step _ p _ hp _ => simp [DS.init] at hp
      rw [← hx, ← hy]
      exact Connected.refl r
    · intro h
      have hxy := connected_nil h
      exact ⟨x, Reaches.root x rfl, hxy ▸ Reaches.root x rfl⟩
  have hrun := @runUnions_spec n (n + 2) (by omega) ops DS.init []
    (DSWF.init_forest n) hops hinit
  obtain ⟨hwf, hiff⟩ := hrun
  simp only [List.nil_append] at hiff
  set s := runUnions (n + 2) DS.init ops with hs
  obtain ⟨ra, hra⟩ := reaches_total hwf a
  obtain ⟨rb, hrb⟩ := reaches_total hwf b
  have hfa := find_spec (n + 2) s hwf a ra hra (by have := hwf.rank_le a; omega)
  obtain ⟨hwf1, hva, hrk1, hiff1, hroots1⟩ := hfa
  set s1 := (DS.find (n + 2) s a).1 with hs1
  have hrb1 : Reaches s1 b rb := (hiff1 b rb).mpr hrb
  have hfb := find_spec (n + 2) s1 hwf1 b rb hrb1
    (by rw [hrk1]; have := hwf.rank_le b; omega)
  obtain ⟨hwf2, hvb, hrk2, hiff2, hroots2⟩ := hfb
  have hval : ((DS.find (n + 2) s a).2 = (DS.find (n + 2) s1 b).2) ↔ ra = rb := by
    rw [hva, hvb]
  refine ⟨?_, ?_, ?_⟩
  · rw [hval, ← sameRoot_iff_roots hra hrb]
    exact hiff a b ha hb
  · intro x
    obtain ⟨rx, hrx⟩ := reaches_total hwf x
    have hfx := find_spec (n + 2) s hwf x rx hrx (by have := hwf.rank_le x; omega)
    obtain ⟨hwfx, hvx, _, _, hrootsx⟩ := hfx
    have hrootrx : (DS.find (n + 2) s x).1.parent rx = none :=
      (hrootsx rx).mpr hrx.parent_none
    rw [hvx]
    have hfind : DS.find (n + 2) (DS.find (n + 2) s x).1 rx
        = ((DS.find (n + 2) s x).1, rx) :=
      DS.find_of_root (n + 1) _ rx hrootrx
    rw [hfind, ← hvx]
  · intro heq
    rw [hval] at heq
    have hu := union_spec s hwf a b ra rb ha hb hra hrb (n + 2) (by omega)
    have := hu.2.2.2.2 heq
    rw [this, hva]

/-- Witness for C4 at a concrete run: three nodes, one union. -/
theorem dsnode_union_find_correct_witness :
    ((DS.find 5 (runUnions 5 DS.init [(0, 1)]) 0).2
        = (DS.find 5 (DS.find 5 (runUnions 5 DS.init [(0, 1)]) 0).1 1).2
      ↔ Connected [(0, 1)] 0 1) :=
  (dsnode_union_find_correct 3 [(0, 1)] 0 1 (by decide) (by omega) (by omega)).1

/-! ## The BK-tree (`BKNode` in rededup.js)

Keys are 64-bit image hashes, stored as a pair of unsigned 32-bit
words (the contents of the JS `Int32Array`, whose signed view `hdist`
reinterprets via `ofUInt32`).  Values are disjoint-set node identifiers.
The sparse 65-slot `children` array is modelled as an association list
from distance slots to child nodes.  The JS `add` is a while loop and
`findAll` a recursive generator, both of which terminate on every
(finite) tree; we embed them with an explicit fuel parameter, which is
irrelevant once at least the tree depth. -/

/-- The Hamming distance as a natural number, as the engine consumes
it (a JS number used for array indexing and comparisons). -/
def hdistN (a b : Nat × Nat) : Nat :=
  (hdist (ofUInt32 a.1, ofUInt32 a.2) (ofUInt32 b.1, ofUInt32 b.2)).toNat

inductive BKNode where
  | node (key : Nat × Nat) (value : Nat) (children : List (Nat × BKNode))

def BKNode.key : BKNode → Nat × Nat
  | .node k _ _ => k

def BKNode.value : BKNode → Nat
  | .node _ v _ => v

def BKNode.children : BKNode → List (Nat × BKNode)
  | .node _ _ cs => cs

/-- Slot lookup in the sparse children array. -/
def childAt (cs : List (Nat × BKNode)) (d : Nat) : Option BKNode :=
  (cs.find? (fun c => c.1 = d)).map Prod.snd

/-- Replace the child at an existing slot. -/
def setChildAt (cs : List (Nat × BKNode)) (d : Nat) (c : BKNode) :
    List (Nat × BKNode) :=
  cs.map (fun e => if e.1 = d then (d, c) else e)

/-- Embedding of `BKNode.add`:
```
add(key, value) {
    let bkNode = this;
    while (true) {
        const dist = hdist(bkNode.key, key);
        if (dist === 0) { return; }
        const child = bkNode.children[dist];
        if (!child) { bkNode.children[dist] = new BKNode(key, value); return; }
        bkNode = child;
    }
}
``` -/
def BKNode.add : Nat → BKNode → (Nat × Nat) → Nat → BKNode
  | 0, t, _, _ => t
  | fuel + 1, .node k v cs, key, val =>
    let dist := hdistN k key
    if dist = 0 then .node k v cs
    else
      match childAt cs dist with
      | some c => .node k v (setChildAt cs dist (BKNode.add fuel c key val))
      | none => .node k v (cs ++ [(dist, .node key val [])])

/-- Embedding of `BKNode.findAll`:
```
*findAll(key, maxDist) {
    const dist = hdist(this.key, key);
    if (dist <= maxDist) { yield this.value; }
    const i0 = Math.abs(dist - maxDist);
    const i1 = Math.min(dist + maxDist, 64);
    for (let i = i0; i <= i1; i += 1) {
        const child = this.children[i];
        if (child) { yield* child.findAll(key, maxDist); }
    }
}
``` -/
def BKNode.findAll : Nat → BKNode → (Nat × Nat) → Nat → List Nat
  | 0, _, _, _ => []
  | fuel + 1, .node k v cs, key, maxDist =>
    let dist := hdistN k key
    let head := if dist ≤ maxDist then [v] else []
    let i0 := ((dist : Int) - (maxDist : Int)).natAbs
    let i1 := min (dist + maxDist) 64
    head ++ (List.range' i0 (i1 + 1 - i0)).flatMap (fun i =>
      match childAt cs i with
      | some c => BKNode.findAll fuel c key maxDist
      | none => [])

/-- All (key, value) entries stored in a tree. -/
def BKNode.entries : Nat → BKNode → List ((Nat × Nat) × Nat)
  | 0, _ => []
  | fuel + 1, .node k v cs =>
    (k, v) :: cs.flatMap (fun c => BKNode.entries fuel c.2)

/-- Soundness half of the radius query: every yielded value belongs to
a stored entry whose key is within `maxDist` of the query key (each
yield is guarded by its own distance check). -/
theorem findAll_sound : ∀ (fuel : Nat) (t : BKNode) (key : Nat × Nat)
    (maxDist v : Nat), v ∈ BKNode.findAll fuel t key maxDist →
    ∃ e ∈ BKNode.entries fuel t, e.2 = v ∧ hdistN e.1 key ≤ maxDist := by
  intro fuel
  induction fuel with
  | zero => intro t key maxDist v hv; cases hv
  | succ fuel ih =>
    intro t key maxDist v hv
    obtain ⟨k, val, cs⟩ := t
    simp only [BKNode.findAll, List.mem_append] at hv
    rcases hv with hv | hv
    · by_cases hd : hdistN k key ≤ maxDist
      · rw [if_pos hd] at hv
        simp only [List.mem_singleton] at hv
        exact ⟨(k, val), by simp [BKNode.entries], by simp [hv], hd⟩
      · rw [if_neg hd] at hv
        cases hv
    · rw [List.mem_flatMap] at hv
      obtain ⟨i, _, hvc⟩ := hv
      cases hc : childAt cs i with
      | none => rw [hc] at hvc; cases hvc
      | some c =>
        rw [hc] at hvc
        obtain ⟨e, he, hev, hed⟩ := ih c key maxDist v hvc
        refine ⟨e, ?_, hev, hed⟩
        have hcmem : ∃ p ∈ cs, p.2 = c := by
          unfold childAt at hc
          cases hfind : cs.find? (fun c => c.1 = i) with
          | none => rw [hfind] at hc; cases hc
          | some p =>
            rw [hfind] at hc
            refine ⟨p, List.mem_of_find?_eq_some hfind, ?_⟩
            have hc2 : some p.2 = some c := hc
            cases hc2
            rfl
        obtain ⟨p, hp, hpc⟩ := hcmem
        simp only [BKNode.entries, List.mem_cons, List.mem_flatMap]
        exact Or.inr ⟨p, hp, hpc ▸ he⟩

/-- C1 (failing input): build a BK-tree by `add`-ing key B = 0x…03 under
root A = 0 and query it with key C = 0x…01 at radius 4.  B is stored at
child slot `hdist(A,B) = 2`; the query computes `d = hdist(A,C) = 1` and
scans only slots `|d − maxDist| = 3 .. min(d + maxDist, 64) = 5`, so it
never descends into slot 2 and the key B — at Hamming distance 1 ≤ 4
from the query — is missed: `findAll` yields only A's value, violating
its own documented contract of yielding the values of all keys within
`maxDist`. -/
theorem bktree_findAll_misses_close_key :
    BKNode.findAll 65 (BKNode.add 65 (BKNode.node (0, 0) 0 []) (3, 0) 1)
        (1, 0) 4 = [0]
    ∧ ((3, 0), 1) ∈ BKNode.entries 65
        (BKNode.add 65 (BKNode.node (0, 0) 0 []) (3, 0) 1)
    ∧ hdistN (3, 0) (1, 0) = 1
    ∧ 1 ≤ 4 := by
  decide

/-! ## Duplicate records and the clustering engine

`LinkInfo` objects carry an optional normalized URL, an optional
domain, and an optional 64-bit thumbnail hash.  URLs and domains are
modelled as natural-number codes (the JS strings only ever meet `Map`
lookups, i.e. equality tests; a JS `undefined` or empty-string domain
both select the `''` partition, modelled by `none`).  DOM elements
(`thing`) are identified by their original index (`thing[indexSymbol]`),
which is how the core logic distinguishes them.  The exact-match tables
are keyed by the hash value itself: `bufToString` is injective on
8-byte buffers.  DOM/tagline manipulation is presentation-layer and out
of scope. -/

structure LinkInfo where
  url : Option Nat
  domain : Option Nat
  thumbnailHash : Option (Nat × Nat)

structure Settings where
  deduplicateThumbs : Bool
  partitionByDomain : Bool
  maxHammingDistance : Nat

/-- A `DupRecord`: primary link (by index, which is also the `index`
field), ordered duplicate list, visibility flag. -/
structure DupRecord where
  index : Nat
  duplicates : List Nat
  showDuplicates : Bool

/-- Embedding of `DupRecord.mergeDupLists` specialised to the index
order: a two-way merge of `duplicates` with `otherThing ::
otherDuplicates`, yielding the second stream's element on ties. -/
def merge2way : List Nat → List Nat → List Nat
  | [], ys => ys
  | x :: xs, [] => x :: xs
  | x :: xs, y :: ys =>
    if x < y then x :: merge2way xs (y :: ys) else y :: merge2way (x :: xs) ys
termination_by xs ys => xs.length + ys.length

def DupRecord.mergeDupLists (duplicates : List Nat) (otherThing : Nat)
    (otherDuplicates : List Nat) : List Nat :=
  merge2way duplicates (otherThing :: otherDuplicates)

structure Stats where
  numWithDups : Int
  totalDups : Int

/-- Embedding of `DupRecord.merge` (stats update then ordered merge of
the duplicate lists; DOM updates omitted):
```
merge(other, pageType, stats) {
    if (!this.duplicates.length) { stats.numWithDups += 1; }
    if (other.duplicates.length) { stats.numWithDups -= 1; }
    stats.totalDups += 1;
    const duplicates = ... DupRecord.mergeDupLists(
        this.duplicates, other.thing, other.duplicates) ...
    this.duplicates = duplicates;
    ...
}
``` -/
def DupRecord.merge (r other : DupRecord) (stats : Stats) : DupRecord × Stats :=
  let stats1 := if r.duplicates.length = 0
    then { stats with numWithDups := stats.numWithDups + 1 } else stats
  let stats2 := if other.duplicates.length ≠ 0
    then { stats1 with numWithDups := stats1.numWithDups - 1 } else stats1
  let stats3 := { stats2 with totalDups := stats2.totalDups + 1 }
  ({ r with duplicates :=
      DupRecord.mergeDupLists r.duplicates other.index other.duplicates },
    stats3)

/-- A per-partition thumbnail table: the exact-match map plus the
optional `bkMap` BK-tree attached to it. -/
structure TMap where
  exact : (Nat × Nat) → Option Nat
  bkMap : Option BKNode

def TMap.empty : TMap := ⟨fun _ => none, none⟩

/-- The full state of a `DuplicateFinder` run: the disjoint-set forest,
the records attached to representatives, the URL table, the thumbnail
tables (keyed per-domain when partitioning, all under `none`
otherwise), and the stats object threaded through `main`. -/
structure EngineState where
  ds : DS
  recs : Nat → Option DupRecord
  urlMap : Nat → Option Nat
  tmaps : Option Nat → TMap
  stats : Stats

def EngineState.init : EngineState :=
  ⟨DS.init, fun _ => none, fun _ => none, fun _ => TMap.empty, ⟨0, 0⟩⟩

/-- Embedding of `mergeDuplicates` (rededup.js):
```
function mergeDuplicates(node1, node2, pageType, stats) {
    node1 = node1.find();
    node2 = node2.find();
    if (node1 === node2) { return; }
    const newNode = node1.union(node2);
    let dupRecord = node1.dupRecord;
    let otherRecord = node2.dupRecord;
    if (otherRecord.index < dupRecord.index) { swap }
    dupRecord.merge(otherRecord, pageType, stats);
    delete node1.dupRecord;
    delete node2.dupRecord;
    newNode.dupRecord = dupRecord;
}
```
If one of the found roots carries no record the JS code would throw on
the `.index` access; that situation is unreachable from `processLink`
(see the engine invariant) and the embedding returns the state
unchanged apart from the two finds. -/
def mergeDuplicates (fuel : Nat) (st : EngineState) (node1 node2 : Nat) :
    EngineState :=
  let f1 := DS.find fuel st.ds node1
  let f2 := DS.find fuel f1.1 node2
  let r1 := f1.2
  let r2 := f2.2
  let st1 := { st with ds := f2.1 }
  if r1 = r2 then st1
  else
    let u := DS.union fuel st1.ds r1 r2
    let newNode := u.2
    let st2 := { st1 with ds := u.1 }
    match st2.recs r1, st2.recs r2 with
    | some dupRecord, some otherRecord =>
      let dr := if otherRecord.index < dupRecord.index
        then (otherRecord, dupRecord) else (dupRecord, otherRecord)
      let m := DupRecord.merge dr.1 dr.2 st2.stats
      { st2 with
        recs := fun j => if j = newNode then some m.1
          else if j = r1 ∨ j = r2 then none else st2.recs j,
        stats := m.2 }
    | _, _ => st2

/-- `getThumbMap` key resolution: the per-domain map when partitioning
(an absent domain keys the `''` partition), the single global map
otherwise. -/
def thumbKey (cfg : Settings) (domain : Option Nat) : Option Nat :=
  if cfg.partitionByDomain then domain else none

def EngineState.setTMap (st : EngineState) (key : Option Nat) (tm : TMap) :
    EngineState :=
  { st with tmaps := fun k => if k = key then tm else st.tmaps k }

/-- Embedding of `DuplicateFinder.updateThumbMap`:
```
updateThumbMap(linkInfo, node, stats) {
    const thumbMap = this.getThumbMap(linkInfo.domain);
    const hashStr = bufToString(linkInfo.thumbnailHash);
    if (thumbMap.has(hashStr)) {
        mergeDuplicates(thumbMap.get(hashStr), node, this.pageType, stats);
        return;
    }
    thumbMap.set(hashStr, node);
    if (this.useBk) {
        const bkMapKey = new Int32Array(linkInfo.thumbnailHash);
        if (!thumbMap.bkMap) {
            thumbMap.bkMap = new BKNode(bkMapKey, node);
            return;
        }
        for (let otherNode of thumbMap.bkMap.findAll(
                 bkMapKey, this.maxHammingDistance)) {
            mergeDuplicates(node, otherNode, this.pageType, stats);
        }
        thumbMap.bkMap.add(bkMapKey, node);
    }
}
```
The generator is consumed while `mergeDuplicates` mutates the forest;
since the merges never touch the tree structure, collecting the yields
eagerly is equivalent. -/
def updateThumbMap (cfg : Settings) (fuel : Nat) (st : EngineState)
    (domain : Option Nat) (h : Nat × Nat) (node : Nat) : EngineState :=
  let key := thumbKey cfg domain
  let tm := st.tmaps key
  match tm.exact h with
  | some other => mergeDuplicates fuel st other node
  | none =>
    let tm1 := { tm with
      exact := fun h' => if h' = h then some node else tm.exact h' }
    let st1 := st.setTMap key tm1
    if cfg.maxHammingDistance > 0 then
      match tm1.bkMap with
      | none => st1.setTMap key { tm1 with bkMap := some (BKNode.node h node []) }
      | some bk =>
        let found := BKNode.findAll fuel bk h cfg.maxHammingDistance
        let st2 := found.foldl (fun s other => mergeDuplicates fuel s node other) st1
        st2.setTMap key
          { st2.tmaps key with bkMap := some (BKNode.add fuel bk h node) }
    else st1

/-- Embedding of `DuplicateFinder.processLink`.  The link's DOM element
is identified by its original index `idx` (`thing[indexSymbol]`). -/
def processLink (cfg : Settings) (fuel : Nat) (st : EngineState) (idx : Nat)
    (linkInfo : Option LinkInfo) : EngineState :=
  match linkInfo with
  | none => st
  | some it =>
    -- const node = new DSNode(); node.dupRecord = new DupRecord(thing);
    let st0 := { st with
      recs := fun j => if j = idx then some ⟨idx, [], false⟩ else st.recs j }
    -- merge by URL
    let st1 := match it.url with
      | some u =>
        match st0.urlMap u with
        | some other => mergeDuplicates fuel st0 other idx
        | none => { st0 with
            urlMap := fun u' => if u' = u then some idx else st0.urlMap u' }
      | none => st0
    -- merge by thumbnail
    if cfg.deduplicateThumbs then
      match it.thumbnailHash with
      | some h => updateThumbMap cfg fuel st1 it.domain h idx
      | none => st1
    else st1

/-- Embedding of the `main` loop: index the links in page order, then
process them sequentially against a fresh `DuplicateFinder` with stats
`{numWithDups: 0, totalDups: 0}`. -/
def processBatch (cfg : Settings) (items : List (Option LinkInfo)) :
    EngineState :=
  (items.enum).foldl
    (fun st p => processLink cfg (items.length + 2) st p.1 p.2)
    EngineState.init

/-! ### Properties of the ordered two-way merge -/

theorem merge2way_length : ∀ xs ys : List Nat,
    (merge2way xs ys).length = xs.length + ys.length := by
  have main : ∀ n xs ys, xs.length + ys.length ≤ n →
      (merge2way xs ys).length = xs.length + ys.length := by
    intro n
    induction n with
    | zero =>
      intro xs ys h
      have hx : xs = [] := by cases xs <;> simp_all
      have hy : ys = [] := by cases ys <;> simp_all
      subst hx; subst hy
      rw [merge2way]
      simp
    | succ n ih =>
      intro xs ys h
      match xs, ys with
      | [], ys => rw [merge2way]; simp
      | x :: xs, [] => rw [merge2way]; simp
      | x :: xs, y :: ys =>
        rw [merge2way]
        by_cases hxy : x < y
        · rw [if_pos hxy]
          simp only [List.length_cons]
          have := ih xs (y :: ys) (by simp at h ⊢; omega)
          simp only [List.length_cons] at this
          omega
        · rw [if_neg hxy]
          simp only [List.length_cons]
          have := ih (x :: xs) ys (by simp at h ⊢; omega)
          simp only [List.length_cons] at this
          omega
  intro xs ys
  exact main (xs.length + ys.length) xs ys le_rfl

theorem merge2way_mem : ∀ (xs ys : List Nat) (m : Nat),
    m ∈ merge2way xs ys ↔ m ∈ xs ∨ m ∈ ys := by
  have main : ∀ n xs ys m, xs.length + ys.length ≤ n →
      (m ∈ merge2way xs ys ↔ m ∈ xs ∨ m ∈ ys) := by
    intro n
    induction n with
    | zero =>
      intro xs ys m h
      have hx : xs = [] := by cases xs <;> simp_all
      have hy : ys = [] := by cases ys <;> simp_all
      subst hx; subst hy
      simp [merge2way]
    | succ n ih =>
      intro xs ys m h
      match xs, ys with
      | [], ys => rw [merge2way]; simp
      | x :: xs, [] => rw [merge2way]; simp
      | x :: xs, y :: ys =>
        rw [merge2way]
        by_cases hxy : x < y
        · rw [if_pos hxy]
          simp only [List.mem_cons]
          rw [ih xs (y :: ys) m (by simp at h ⊢; omega)]
          simp only [List.mem_cons]
          tauto
        · rw [if_neg hxy]
          simp only [List.mem_cons]
          rw [ih (x :: xs) ys m (by simp at h ⊢; omega)]
          simp only [List.mem_cons]
          tauto
  intro xs ys m
  exact main (xs.length + ys.length) xs ys m le_rfl

theorem merge2way_sorted : ∀ xs ys : List Nat,
    List.Pairwise (· < ·) xs → List.Pairwise (· < ·) ys →
    (∀ m, m ∈ xs → m ∉ ys) →
    List.Pairwise (· < ·) (merge2way xs ys) := by
  have main : ∀ n xs ys, xs.length + ys.length ≤ n →
      List.Pairwise (· < ·) xs → List.Pairwise (· < ·) ys →
      (∀ m, m ∈ xs → m ∉ ys) →
      List.Pairwise (· < ·) (merge2way xs ys) := by
    intro n
    induction n with
    | zero =>
      intro xs ys h _ _ _
      have hx : xs = [] := by cases xs <;> simp_all
      have hy : ys = [] := by cases ys <;> simp_all
      subst hx; subst hy
      rw [merge2way]
      exact List.Pairwise.nil
    | succ n ih =>
      intro xs ys h hxs hys hdisj
      match xs, ys with
      | [], ys => rw [merge2way]; exact hys
      | x :: xs, [] => rw [merge2way]; exact hxs
      | x :: xs, y :: ys =>
        rw [merge2way]
        obtain ⟨hxlt, hxs'⟩ := List.pairwise_cons.mp hxs
        obtain ⟨hylt, hys'⟩ := List.pairwise_cons.mp hys
        by_cases hxy : x < y
        · rw [if_pos hxy]
          refine List.pairwise_cons.mpr ⟨?_, ?_⟩
          · intro m hm
            rw [merge2way_mem] at hm
            rcases hm with hm | hm
            · exact hxlt m hm
            · rcases List.mem_cons.mp hm with hm | hm
              · omega
              · have := hylt m hm; omega
          · exact ih xs (y :: ys) (by simp at h ⊢; omega) hxs' hys
              (fun m hm => hdisj m (List.mem_cons_of_mem x hm))
        · rw [if_neg hxy]
          have hxney : x ≠ y := fun hc =>
            hdisj x (List.mem_cons_self x xs) (hc ▸ List.mem_cons_self y ys)
          have hyx : y < x := by omega
          refine List.pairwise_cons.mpr ⟨?_, ?_⟩
          · intro m hm
            rw [merge2way_mem] at hm
            rcases hm with hm | hm
            · rcases List.mem_cons.mp hm with hm | hm
              · omega
              · have := hxlt m hm; omega
            · exact hylt m hm
          · refine ih (x :: xs) ys (by simp at h ⊢; omega) hxs hys' ?_
            intro m hm hmy
            exact hdisj m hm (List.mem_cons_of_mem y hmy)
  intro xs ys hxs hys hdisj
  exact main (xs.length + ys.length) xs ys le_rfl hxs hys hdisj

/-! ### Values stored in a BK-tree, fuel-free -/

/-- `t.HasVal v`: the value `v` is stored at some node of `t`. -/
inductive BKNode.HasVal : BKNode → Nat → Prop
  | head (k : Nat × Nat) (v : Nat) (cs : List (Nat × BKNode)) :
      BKNode.HasVal (.node k v cs) v
  | child (k : Nat × Nat) (v' : Nat) (cs : List (Nat × BKNode))
      (d : Nat) (c : BKNode) (v : Nat) :
      (d, c) ∈ cs → BKNode.HasVal c v → BKNode.HasVal (.node k v' cs) v

/-- Every value yielded by `findAll` is stored in the tree. -/
theorem findAll_hasVal : ∀ (fuel : Nat) (t : BKNode) (key : Nat × Nat)
    (maxDist v : Nat), v ∈ BKNode.findAll fuel t key maxDist → t.HasVal v := by
  intro fuel
  induction fuel with
  | zero => intro t key maxDist v hv; cases hv
  | succ fuel ih =>
    intro t key maxDist v hv
    obtain ⟨k, val, cs⟩ := t
    simp only [BKNode.findAll, List.mem_append] at hv
    rcases hv with hv | hv
    · by_cases hd : hdistN k key ≤ maxDist
      · rw [if_pos hd] at hv
        simp only [List.mem_singleton] at hv
        exact hv ▸ BKNode.HasVal.head k val cs
      · rw [if_neg hd] at hv
        cases hv
    · rw [List.mem_flatMap] at hv
      obtain ⟨i, _, hvc⟩ := hv
      cases hc : childAt cs i with
      | none => rw [hc] at hvc; cases hvc
      | some c =>
        rw [hc] at hvc
        have hcv := ih c key maxDist v hvc
        unfold childAt at hc
        cases hfind : cs.find? (fun c => c.1 = i) with
        | none => rw [hfind] at hc; cases hc
        | some p =>
          rw [hfind] at hc
          have hc2 : some p.2 = some c := hc
          cases hc2
          have hp := List.mem_of_find?_eq_some hfind
          have hp1 : p.1 = i := by
            have := List.find?_some hfind
            simpa using this
          exact BKNode.HasVal.child k val cs i p.2 v (by rw [← hp1]; exact hp) hcv

/-- `add` introduces no stored value other than the one added. -/
theorem add_hasVal : ∀ (fuel : Nat) (t : BKNode) (h : Nat × Nat) (nv v : Nat),
    (BKNode.add fuel t h nv).HasVal v → t.HasVal v ∨ v = nv := by
  intro fuel
  induction fuel with
  | zero => intro t h nv v hv; exact Or.inl hv
  | succ fuel ih =>
    intro t h nv v hv
    obtain ⟨k, val, cs⟩ := t
    rw [BKNode.add] at hv
    by_cases hd : hdistN k h = 0
    · rw [if_pos hd] at hv
      exact Or.inl hv
    · rw [if_neg hd] at hv
      cases hc : childAt cs (hdistN k h) with
      | some c =>
        rw [hc] at hv
        cases hv with
        | head => exact Or.inl (BKNode.HasVal.head _ _ _)
        | child _ _ _ d c' v hmem hcv =>
          unfold setChildAt at hmem
          rw [List.mem_map] at hmem
          obtain ⟨e, he, heq⟩ := hmem
          by_cases hed : e.1 = hdistN k h
          · rw [if_pos hed] at heq
            have hd' : d = hdistN k h := by
              cases heq; rfl
            have hc' : c' = BKNode.add fuel c h nv := by
              cases heq; rfl
            rw [hc'] at hcv
            rcases ih c h nv v hcv with hcv' | hcv'
            · -- v was already in the replaced child c at slot hdist
              refine Or.inl (BKNode.HasVal.child k val cs (hdistN k h) c v ?_ hcv')
              unfold childAt at hc
              cases hfind : cs.find? (fun c => c.1 = hdistN k h) with
              | none => rw [hfind] at hc; cases hc
              | some p =>
                rw [hfind] at hc
                have hc2 : some p.2 = some c := hc
                cases hc2
                have hp := List.mem_of_find?_eq_some hfind
                have hp1 : p.1 = hdistN k h := by
                  have := List.find?_some hfind
                  simpa using this
                rw [← hp1]
                exact hp
            · exact Or.inr hcv'
          · rw [if_neg hed] at heq
            exact Or.inl (BKNode.HasVal.child k val cs d c' v (heq ▸ he) hcv)
      | none =>
        rw [hc] at hv
        cases hv with
        | head => exact Or.inl (BKNode.HasVal.head _ _ _)
        | child _ _ _ d c' v hmem hcv =>
          rw [List.mem_append] at hmem
          rcases hmem with hmem | hmem
          · exact Or.inl (BKNode.HasVal.child k val cs d c' v hmem hcv)
          · simp only [List.mem_singleton, Prod.mk.injEq] at hmem
            rw [hmem.2] at hcv
            cases hcv with
            | head => exact Or.inr rfl
            | child _ _ _ _ _ _ hm _ => cases hm

/-! ### Specification-side stats counts -/

/-- Whether the (surviving) record at `i` has at least one duplicate. -/
def recHasDups (st : EngineState) (i : Nat) : Bool :=
  match st.recs i with
  | some r => !r.duplicates.isEmpty
  | none => false

/-- Duplicate-list length of the record at `i` (0 when absent). -/
def recDupLen (st : EngineState) (i : Nat) : Nat :=
  match st.recs i with
  | some r => r.duplicates.length
  | none => 0

/-- Number of surviving groups with at least one duplicate. -/
def specNumWithDups (k : Nat) (st : EngineState) : Nat :=
  ((Finset.range k).filter (fun i => recHasDups st i = true)).card

/-- Sum of duplicate-list lengths over all surviving groups. -/
def specTotalDups (k : Nat) (st : EngineState) : Nat :=
  ∑ i ∈ Finset.range k, recDupLen st i

/-- A sum over `range k` only depends on two changed points through
their values there. -/
theorem sum_eq_off_two {k a b : Nat} (f g : Nat → Nat) (hab : a ≠ b)
    (ha : a < k) (hb : b < k)
    (h : ∀ i, i ≠ a → i ≠ b → f i = g i) :
    (∑ i ∈ Finset.range k, f i) + g a + g b
      = (∑ i ∈ Finset.range k, g i) + f a + f b := by
  have hamem : a ∈ Finset.range k := Finset.mem_range.mpr ha
  have hbmem : b ∈ (Finset.range k).erase a :=
    Finset.mem_erase.mpr ⟨Ne.symm hab, Finset.mem_range.mpr hb⟩
  have split : ∀ u : Nat → Nat, ∑ i ∈ Finset.range k, u i
      = u a + u b + ∑ i ∈ ((Finset.range k).erase a).erase b, u i := by
    intro u
    rw [← Finset.add_sum_erase _ u hamem, ← Finset.add_sum_erase _ u hbmem]
    ring
  rw [split f, split g]
  have hsame : ∑ i ∈ ((Finset.range k).erase a).erase b, f i
      = ∑ i ∈ ((Finset.range k).erase a).erase b, g i := by
    apply Finset.sum_congr rfl
    intro i hi
    have hia : i ≠ a := (Finset.mem_erase.mp (Finset.mem_of_mem_erase hi)).1
    have hib : i ≠ b := (Finset.mem_erase.mp hi).1
    exact h i hia hib
  rw [hsame]
  ring

theorem card_filter_eq_sum (k : Nat) (p : Nat → Bool) :
    ((Finset.range k).filter (fun i => p i = true)).card
      = ∑ i ∈ Finset.range k, (if p i = true then 1 else 0) := by
  rw [Finset.card_filter]

/-! ### Characterising `mergeDuplicates` -/

/-- `union` called on two roots: the two inner `find`s return
immediately. -/
theorem DS.union_of_roots (fuel : Nat) (s : DS) (x y : Nat)
    (hx : s.parent x = none) (hy : s.parent y = none) :
    DS.union (fuel + 1) s x y
      = if x = y then (s, x)
        else
          (fun xy : Nat × Nat =>
            (fun s3 : DS =>
              ((if s3.rank xy.1 = s3.rank xy.2
                then s3.setRank xy.1 (s3.rank xy.1 + 1) else s3), xy.1))
            (s.setParent xy.2 (some xy.1)))
          (if s.rank x < s.rank y then (y, x) else (x, y)) := by
  unfold DS.union
  simp only [DS.find_of_root fuel s x hx]
  simp only [DS.find_of_root fuel s y hy]

/-- Zeta-expanded form of `DS.union` (for rewriting without unfolding
the inner `union` application inside `mergeDuplicates`). -/
theorem DS.union_eq (fuel : Nat) (s : DS) (a b : Nat) :
    DS.union fuel s a b
      = (if (DS.find fuel s a).2 = (DS.find fuel (DS.find fuel s a).1 b).2
          then ((DS.find fuel (DS.find fuel s a).1 b).1, (DS.find fuel s a).2)
          else
            (fun s2 : DS => (fun xy : Nat × Nat =>
              (fun s3 : DS =>
                ((if s3.rank xy.1 = s3.rank xy.2
                  then s3.setRank xy.1 (s3.rank xy.1 + 1) else s3), xy.1))
              (s2.setParent xy.2 (some xy.1)))
              (if s2.rank (DS.find fuel s a).2
                  < s2.rank (DS.find fuel (DS.find fuel s a).1 b).2
                then ((DS.find fuel (DS.find fuel s a).1 b).2,
                  (DS.find fuel s a).2)
                else ((DS.find fuel s a).2,
                  (DS.find fuel (DS.find fuel s a).1 b).2)))
            (DS.find fuel (DS.find fuel s a).1 b).1) := by
  unfold DS.union
  rfl

/-- `mergeDuplicates` never touches the URL or thumbnail tables. -/
theorem mergeDuplicates_frame (fuel : Nat) (st : EngineState) (a b : Nat) :
    (mergeDuplicates fuel st a b).urlMap = st.urlMap
    ∧ (mergeDuplicates fuel st a b).tmaps = st.tmaps := by
  unfold mergeDuplicates
  simp only
  split
  · exact ⟨rfl, rfl⟩
  · split
    · exact ⟨rfl, rfl⟩
    · exact ⟨rfl, rfl⟩

/-- The forest after `mergeDuplicates(a, b)` is exactly the forest
after `a.union(b)` (the merge calls `union` on the roots its two
`find`s produced, and `find` on a root is immediate). -/
theorem mergeDuplicates_ds_eq {n : Nat} (fuel : Nat) (st : EngineState)
    (a b ra rb : Nat) (hwf : DSWF n st.ds)
    (hra : Reaches st.ds a ra) (hrb : Reaches st.ds b rb)
    (hfuel : n + 2 ≤ fuel) :
    (mergeDuplicates fuel st a b).ds = (DS.union fuel st.ds a b).1 := by
  have hfa := find_spec fuel st.ds hwf a ra hra
    (by have := hwf.rank_le a; omega)
  obtain ⟨hwf1, hva, hrk1, hiff1, hroots1⟩ := hfa
  have hrb1 : Reaches (DS.find fuel st.ds a).1 b rb := (hiff1 b rb).mpr hrb
  have hfb := find_spec fuel (DS.find fuel st.ds a).1 hwf1 b rb hrb1
    (by rw [hrk1]; have := hwf.rank_le b; omega)
  obtain ⟨hwf2, hvb, hrk2, hiff2, hroots2⟩ := hfb
  obtain ⟨f', rfl⟩ : ∃ f', fuel = f' + 1 := ⟨fuel - 1, by omega⟩
  show ((mergeDuplicates (f' + 1) st a b).ds = _)
  unfold mergeDuplicates
  simp only
  by_cases h : (DS.find (f' + 1) st.ds a).2
      = (DS.find (f' + 1) (DS.find (f' + 1) st.ds a).1 b).2
  · rw [if_pos h, DS.union_eq, if_pos h]
  · rw [if_neg h, DS.union_eq (f' + 1) st.ds a b, if_neg h]
    have hrootra : (DS.find (f' + 1) (DS.find (f' + 1) st.ds a).1 b).1.parent
        (DS.find (f' + 1) st.ds a).2 = none := by
      rw [hva]
      exact (hroots2 ra).mpr ((hroots1 ra).mpr hra.parent_none)
    have hrootrb : (DS.find (f' + 1) (DS.find (f' + 1) st.ds a).1 b).1.parent
        (DS.find (f' + 1) (DS.find (f' + 1) st.ds a).1 b).2 = none := by
      rw [hvb]
      exact (hroots2 rb).mpr ((hroots1 rb).mpr hrb.parent_none)
    cases hr1 : st.recs (DS.find (f' + 1) st.ds a).2 <;>
      cases hr2 : st.recs (DS.find (f' + 1) (DS.find (f' + 1) st.ds a).1 b).2 <;>
      simp only [hr1, hr2] <;>
      rw [DS.union_of_roots f' _ _ _ hrootra hrootrb, if_neg h]

/-- `mergeDuplicates` when the two arguments already share a
representative: only path compression happens; the records, the maps
and the stats are untouched. -/
theorem mergeDuplicates_noop_eq {n : Nat} (fuel : Nat) (st : EngineState)
    (a b r : Nat) (hwf : DSWF n st.ds)
    (hra : Reaches st.ds a r) (hrb : Reaches st.ds b r)
    (hfuel : n + 2 ≤ fuel) :
    (mergeDuplicates fuel st a b).recs = st.recs
    ∧ (mergeDuplicates fuel st a b).stats = st.stats
    ∧ (mergeDuplicates fuel st a b).ds
        = (DS.find fuel (DS.find fuel st.ds a).1 b).1 := by
  have hfa := find_spec fuel st.ds hwf a r hra
    (by have := hwf.rank_le a; omega)
  obtain ⟨hwf1, hva, hrk1, hiff1, hroots1⟩ := hfa
  have hrb1 : Reaches (DS.find fuel st.ds a).1 b r := (hiff1 b r).mpr hrb
  have hfb := find_spec fuel (DS.find fuel st.ds a).1 hwf1 b r hrb1
    (by rw [hrk1]; have := hwf.rank_le b; omega)
  obtain ⟨hwf2, hvb, hrk2, hiff2, hroots2⟩ := hfb
  have h : (DS.find fuel st.ds a).2
      = (DS.find fuel (DS.find fuel st.ds a).1 b).2 := by rw [hva, hvb]
  unfold mergeDuplicates
  simp only
  rw [if_pos h]
  exact ⟨rfl, rfl, rfl⟩

/-- `mergeDuplicates` on two nodes with distinct representatives that
both carry records: the resulting records and stats are the record
merge prescribed by `DupRecord.merge`, installed at the union's new
representative, with both old roots cleared. -/
theorem mergeDuplicates_merge_eq {n : Nat} (fuel : Nat) (st : EngineState)
    (a b ra rb : Nat) (hwf : DSWF n st.ds)
    (hra : Reaches st.ds a ra) (hrb : Reaches st.ds b rb)
    (hfuel : n + 2 ≤ fuel) (hne : ra ≠ rb)
    (r1rec r2rec : DupRecord)
    (h1 : st.recs ra = some r1rec) (h2 : st.recs rb = some r2rec) :
    (mergeDuplicates fuel st a b).recs
        = (fun j => if j = (DS.union fuel st.ds a b).2
            then some (DupRecord.merge
              (if r2rec.index < r1rec.index then r2rec else r1rec)
              (if r2rec.index < r1rec.index then r1rec else r2rec) st.stats).1
            else if j = ra ∨ j = rb then none else st.recs j)
    ∧ (mergeDuplicates fuel st a b).stats
        = (DupRecord.merge (if r2rec.index < r1rec.index then r2rec else r1rec)
            (if r2rec.index < r1rec.index then r1rec else r2rec) st.stats).2 := by
  have hfa := find_spec fuel st.ds hwf a ra hra
    (by have := hwf.rank_le a; omega)
  obtain ⟨hwf1, hva, hrk1, hiff1, hroots1⟩ := hfa
  have hrb1 : Reaches (DS.find fuel st.ds a).1 b rb := (hiff1 b rb).mpr hrb
  have hfb := find_spec fuel (DS.find fuel st.ds a).1 hwf1 b rb hrb1
    (by rw [hrk1]; have := hwf.rank_le b; omega)
  obtain ⟨hwf2, hvb, hrk2, hiff2, hroots2⟩ := hfb
  have h : ¬((DS.find fuel st.ds a).2
      = (DS.find fuel (DS.find fuel st.ds a).1 b).2) := by
    rw [hva, hvb]; exact hne
  -- the value returned by the union inside mergeDuplicates agrees with
  -- the value of `union` run from the original state
  have hvalu : (DS.union fuel
        (DS.find fuel (DS.find fuel st.ds a).1 b).1
        (DS.find fuel st.ds a).2
        (DS.find fuel (DS.find fuel st.ds a).1 b).2).2
      = (DS.union fuel st.ds a b).2 := by
    obtain ⟨f', rfl⟩ : ∃ f', fuel = f' + 1 := ⟨fuel - 1, by omega⟩
    have hrootra : (DS.find (f' + 1) (DS.find (f' + 1) st.ds a).1 b).1.parent
        (DS.find (f' + 1) st.ds a).2 = none := by
      rw [hva]
      exact (hroots2 ra).mpr ((hroots1 ra).mpr hra.parent_none)
    have hrootrb : (DS.find (f' + 1) (DS.find (f' + 1) st.ds a).1 b).1.parent
        (DS.find (f' + 1) (DS.find (f' + 1) st.ds a).1 b).2 = none := by
      rw [hvb]
      exact (hroots2 rb).mpr ((hroots1 rb).mpr hrb.parent_none)
    rw [DS.union_of_roots f' _ _ _ hrootra hrootrb, if_neg h]
    show _ = (DS.union (f' + 1) st.ds a b).2
    rw [DS.union_eq (f' + 1) st.ds a b, if_neg h]
  unfold mergeDuplicates
  simp only
  rw [if_neg h]
  have hrecs1 : st.recs (DS.find fuel st.ds a).2 = some r1rec := by
    rw [hva]; exact h1
  have hrecs2 : st.recs (DS.find fuel (DS.find fuel st.ds a).1 b).2
      = some r2rec := by
    rw [hvb]; exact h2
  rw [show ({ st with ds := (DS.find fuel (DS.find fuel st.ds a).1 b).1 }
      : EngineState).recs = st.recs from rfl] at *
  rw [hrecs1, hrecs2]
  simp only
  constructor
  · funext j
    rw [hvalu, hva, hvb]
    by_cases hj : j = (DS.union fuel st.ds a b).2
    · rw [if_pos hj, if_pos hj]
      by_cases hc : r2rec.index < r1rec.index
      · rw [if_pos hc]
        simp [hc]
      · rw [if_neg hc]
        simp [hc]
    · rw [if_neg hj, if_neg hj]
  · by_cases hc : r2rec.index < r1rec.index
    · rw [if_pos hc]
      simp [hc]
    · rw [if_neg hc]
      simp [hc]


/- ===== Perceptual hashing (phash.js) ===================================
JS floating-point values as they matter to the hash code: only order
comparisons and the sign of zero are observed (`x > 0`, `x < y`,
`Object.is(x, +0)`), so a value is modelled as an exact rational plus a
flag marking the value negative zero. -/

structure JSNum where
  val : Rat
  negZero : Bool
deriving DecidableEq

/-- `isPositive` from phash.js: `x > 0 || Object.is(x, +0)`. -/
def isPositive (x : JSNum) : Bool :=
  decide (0 < x.val) || (decide (x.val = 0) && !x.negZero)

/-- Pure form of `bitAppenderGen`: MSB-first packing of a bit stream into
bytes; `cur` is `currentByte`, `cnt` is `bitCount`; only full bytes are
emitted. -/
def bitAppenderRun : List Bool → Nat → Nat → List Nat
  | [], _, _ => []
  | b :: bs, cur, cnt =>
    let cur2 := 2 * cur + (if b then 1 else 0)
    if cnt + 1 = 8 then cur2 :: bitAppenderRun bs 0 0
    else bitAppenderRun bs cur2 (cnt + 1)

def bitAppenderBytes (bs : List Bool) : List Nat :=
  bitAppenderRun bs 0 0

/-- Bit stream of `getDctHash` (phash.js lines 276-283): for i = 1..10,
j = 0..i, skipping (i, j) = (10, 5), emit `isPositive(D[i-j][j])`. -/
def getDctHashBits (D : Nat → Nat → JSNum) : List Bool :=
  (List.range' 1 10).flatMap fun i =>
    (List.range (i + 1)).filterMap fun j =>
      if i = 10 ∧ j = 5 then none else some (isPositive (D (i - j) j))

/-- The index trace of the same loop: the (row, column) pairs read. -/
def dctIndices : List (Nat × Nat) :=
  (List.range' 1 10).flatMap fun i =>
    (List.range (i + 1)).filterMap fun j =>
      if i = 10 ∧ j = 5 then none else some (i - j, j)

/-- L-system of the Moore curve (`mooreCurveL`); n = 0 is outside the
source precondition (the JS generator would recurse forever). -/
def mooreCurveL : Nat → List Char
  | 0 => []
  | 1 => "LFL+F+LFL".toList
  | n + 2 =>
    (mooreCurveL (n + 1)).flatMap fun c =>
      if c = 'L' then "-RF+LFL+FR-".toList
      else if c = 'R' then "+LF-RFR-FL+".toList
      else [c]

/-- The direction table `D` of `mooreCurve`. -/
def mcD : List (Int × Int) := [(0, -1), (1, 0), (0, 1), (-1, 0)]

/-- Interpreter loop of `mooreCurve`: `F` steps and yields a point,
`+`/`-` turn, other symbols are ignored. -/
def mcRun : List Char → Int → Int → Nat → List (Int × Int)
  | [], _, _, _ => []
  | c :: cs, x, y, d =>
    if c = 'F' then
      let dd := mcD.getD d (0, 0)
      (x + dd.1, y + dd.2) :: mcRun cs (x + dd.1) (y + dd.2) d
    else if c = '+' then mcRun cs x y ((d + 1) % 4)
    else if c = '-' then mcRun cs x y ((d + 3) % 4)
    else mcRun cs x y d

/-- `mooreCurve(p)`: starts at (2^(p-1)-1, 2^p-1) facing direction 0 and
yields the start point followed by every `F` step. -/
def mooreCurve (p : Nat) : List (Int × Int) :=
  ((2 : Int) ^ (p - 1) - 1, (2 : Int) ^ p - 1)
    :: mcRun (mooreCurveL p) ((2 : Int) ^ (p - 1) - 1) ((2 : Int) ^ p - 1) 0

/-- `getDiffHash._MC3`: the order-3 Moore curve flattened to indices
`p[0] + 8*p[1]` into the 8x8 grid. -/
def MC3 : List Nat :=
  (mooreCurve 3).map fun q => (q.1 + 8 * q.2).toNat

/-- The comparison loop of `getDiffHash`: `prev` starts at `G[MC3[63]]`,
each visited sample emits `prev < curr` and becomes the new `prev`. -/
def diffRun (G : Nat → Rat) : List Nat → Rat → List Bool
  | [], _ => []
  | p :: ps, prev => decide (prev < G p) :: diffRun G ps (G p)

def getDiffHashBits (G : Nat → Rat) : List Bool :=
  diffRun G MC3 (G (MC3.getD 63 0))

/-- Bit stream of `getWaveletHash`: sign bits of the upper 8x8 submatrix
of the transformed matrix, row by row. -/
def getWaveletHashBits (M : Nat → Nat → JSNum) : List Bool :=
  (List.range 8).flatMap fun i =>
    (List.range 8).map fun j => isPositive (M i j)

/- An image as observed by `getImageHash`. The pixel extraction
(`getImagePixels`) and the numeric transforms (`fdct32_11`, `dwt`, the
32x32 canvas downsampling) run on browser canvas data and doubles; the
image model carries their results directly: `diffG` the 8x8 grayscale
grid of `getDiffHash`, `dctD` the 11x11 DCT coefficient matrix, `wavM`
the wavelet-transformed matrix. -/

structure Img where
  complete : Bool
  naturalWidth : Nat
  diffG : Nat → Rat
  dctD : Nat → Nat → JSNum
  wavM : Nat → Nat → JSNum

/-- `getImageHash` from phash.js: guard on `img.complete`, then on
`img.naturalWidth === 0`, then dispatch on the hash-function name with a
throw on an unrecognized name. -/
def getImageHash (img : Img) (hashFunction : String) :
    Except String (List Nat) :=
  if img.complete = false then Except.error "Image not complete"
  else if img.naturalWidth = 0 then Except.error "Image broken"
  else if hashFunction = "diffHash" then
    Except.ok (bitAppenderBytes (getDiffHashBits img.diffG))
  else if hashFunction = "dctHash" then
    Except.ok (bitAppenderBytes (getDctHashBits img.dctD))
  else if hashFunction = "waveletHash" then
    Except.ok (bitAppenderBytes (getWaveletHashBits img.wavM))
  else Except.error "Invalid hash function"

theorem dct_bytes_length (D : Nat → Nat → JSNum) :
    (bitAppenderBytes (getDctHashBits D)).length = 8 := rfl

theorem diff_bytes_length (G : Nat → Rat) :
    (bitAppenderBytes (getDiffHashBits G)).length = 8 := rfl

theorem wavelet_bytes_length (M : Nat → Nat → JSNum) :
    (bitAppenderBytes (getWaveletHashBits M)).length = 8 := rfl


/-- C7: the DCT hash consists of exactly 64 bits, emitted as the sign
bits (`isPositive`, positive or +0) of the coefficients D[i-j][j] for
i = 1..10, j = 0..i, skipping (5, 5), never reading the DC coefficient
(0, 0); the indices read are pairwise distinct; the bits pack into 8
bytes. -/
theorem dct_hash_bit_layout :
    (∀ D : Nat → Nat → JSNum,
      getDctHashBits D = dctIndices.map fun p => isPositive (D p.1 p.2))
    ∧ dctIndices = [(1, 0), (0, 1), (2, 0), (1, 1), (0, 2), (3, 0), (2, 1), (1, 2), (0, 3), (4, 0), (3, 1), (2, 2), (1, 3), (0, 4), (5, 0), (4, 1), (3, 2), (2, 3), (1, 4), (0, 5), (6, 0), (5, 1), (4, 2), (3, 3), (2, 4), (1, 5), (0, 6), (7, 0), (6, 1), (5, 2), (4, 3), (3, 4), (2, 5), (1, 6), (0, 7), (8, 0), (7, 1), (6, 2), (5, 3), (4, 4), (3, 5), (2, 6), (1, 7), (0, 8), (9, 0), (8, 1), (7, 2), (6, 3), (5, 4), (4, 5), (3, 6), (2, 7), (1, 8), (0, 9), (10, 0), (9, 1), (8, 2), (7, 3), (6, 4), (4, 6), (3, 7), (2, 8), (1, 9), (0, 10)]
    ∧ (∀ x : JSNum,
        isPositive x = true ↔ 0 < x.val ∨ (x.val = 0 ∧ x.negZero = false))
    ∧ (0, 0) ∉ dctIndices
    ∧ (5, 5) ∉ dctIndices
    ∧ dctIndices.Nodup
    ∧ dctIndices.length = 64
    ∧ (∀ D : Nat → Nat → JSNum,
        (bitAppenderBytes (getDctHashBits D)).length = 8) := by
  refine ⟨fun D => rfl, by decide, ?_, by decide, by decide, by decide,
    by decide, fun D => dct_bytes_length D⟩
  intro x
  simp [isPositive, Bool.or_eq_true, decide_eq_true_iff, Bool.and_eq_true]

/-- C8: the order-3 Moore curve visits each of the 64 cells of the 8x8
grid exactly once (64 pairwise-distinct points, every cell present),
consecutive points are grid-adjacent including the wrap-around from the
last point back to the first, and bit i of the difference hash is 1 iff
the previously visited sample (with sample 63 preceding sample 0) is
strictly less than the i-th visited sample. -/
theorem moore_curve_diff_hash_traversal :
    mooreCurve 3 = [(3, 7), (3, 6), (2, 6), (2, 7), (1, 7), (0, 7), (0, 6), (1, 6), (1, 5), (0, 5), (0, 4), (1, 4), (2, 4), (2, 5), (3, 5), (3, 4), (3, 3), (3, 2), (2, 2), (2, 3), (1, 3), (0, 3), (0, 2), (1, 2), (1, 1), (0, 1), (0, 0), (1, 0), (2, 0), (2, 1), (3, 1), (3, 0), (4, 0), (4, 1), (5, 1), (5, 0), (6, 0), (7, 0), (7, 1), (6, 1), (6, 2), (7, 2), (7, 3), (6, 3), (5, 3), (5, 2), (4, 2), (4, 3), (4, 4), (4, 5), (5, 5), (5, 4), (6, 4), (7, 4), (7, 5), (6, 5), (6, 6), (7, 6), (7, 7), (6, 7), (5, 7), (5, 6), (4, 6), (4, 7)]
    ∧ (mooreCurve 3).length = 64
    ∧ (mooreCurve 3).Nodup
    ∧ (∀ x y : Fin 8, ((x : Int), (y : Int)) ∈ mooreCurve 3)
    ∧ (((mooreCurve 3).zip ((mooreCurve 3).rotate 1)).all
        fun pq =>
          decide ((pq.1.1 - pq.2.1).natAbs + (pq.1.2 - pq.2.2).natAbs = 1))
        = true
    ∧ MC3 = [59, 51, 50, 58, 57, 56, 48, 49, 41, 40, 32, 33, 34, 42, 43, 35, 27, 19, 18, 26, 25, 24, 16, 17, 9, 8, 0, 1, 2, 10, 11, 3, 4, 12, 13, 5, 6, 7, 15, 14, 22, 23, 31, 30, 29, 21, 20, 28, 36, 44, 45, 37, 38, 39, 47, 46, 54, 55, 63, 62, 61, 53, 52, 60]
    ∧ (∀ G : Nat → Rat,
        getDiffHashBits G
          = (List.range 64).map fun i =>
              decide (G (MC3.getD ((i + 63) % 64) 0)
                < G (MC3.getD i 0))) := by
  refine ⟨by decide, by decide, by decide, by decide, by decide,
    by decide, fun G => rfl⟩

/-- C9: getImageHash errors exactly when the image is not complete
("Image not complete"), has zero natural width ("Image broken"), or the
hash-function name is not one of diffHash, dctHash, waveletHash
("Invalid hash function", checked in that order); otherwise it returns
an 8-byte fingerprint computed deterministically from the image. -/
theorem getImageHash_error_contract (img : Img) (hf : String) :
    (getImageHash img hf = Except.error "Image not complete"
      ↔ img.complete = false)
    ∧ (getImageHash img hf = Except.error "Image broken"
      ↔ img.complete = true ∧ img.naturalWidth = 0)
    ∧ (getImageHash img hf = Except.error "Invalid hash function"
      ↔ img.complete = true ∧ img.naturalWidth ≠ 0
        ∧ hf ≠ "diffHash" ∧ hf ≠ "dctHash" ∧ hf ≠ "waveletHash")
    ∧ ((∃ bs, getImageHash img hf = Except.ok bs ∧ bs.length = 8)
      ↔ img.complete = true ∧ img.naturalWidth ≠ 0
        ∧ (hf = "diffHash" ∨ hf = "dctHash" ∨ hf = "waveletHash")) := by
  unfold getImageHash
  by_cases h1 : img.complete = false <;>
    by_cases h2 : img.naturalWidth = 0 <;>
      by_cases h3 : hf = "diffHash" <;>
        by_cases h4 : hf = "dctHash" <;>
          by_cases h5 : hf = "waveletHash" <;>
            simp_all [dct_bytes_length, diff_bytes_length,
              wavelet_bytes_length]

theorem getImageHash_error_contract_witness :
    getImageHash
        { complete := true, naturalWidth := 1,
          diffG := fun _ => 0, dctD := fun _ _ => ⟨0, false⟩,
          wavM := fun _ _ => ⟨0, false⟩ } "dctHash"
      = Except.error "Invalid hash function"
    ↔ (true = true ∧ (1 : Nat) ≠ 0
        ∧ "dctHash" ≠ "diffHash" ∧ "dctHash" ≠ "dctHash"
        ∧ "dctHash" ≠ "waveletHash") :=
  (getImageHash_error_contract
    { complete := true, naturalWidth := 1,
      diffG := fun _ => 0, dctD := fun _ _ => ⟨0, false⟩,
      wavM := fun _ _ => ⟨0, false⟩ } "dctHash").2.2.1


/- ===== C10: redundant merge ============================================ -/

/-- A state where a redundant merge still rewrites a parent pointer:
4 -> 3 -> 1 and 2 -> 1, so `mergeDuplicates(4, 2)` takes the same-root
early return but `find(4)` has already compressed 4 to point at 1. -/
def redundantMergeState : EngineState :=
  ⟨⟨fun i => if i = 4 then some 3 else if i = 3 then some 1
      else if i = 2 then some 1 else none,
    fun i => if i = 1 then 2 else if i = 3 then 1 else 0⟩,
   fun _ => none, fun _ => none, fun _ => TMap.empty, ⟨0, 0⟩⟩

/-- Counterexample to C10 as stated: on a redundant merge the records,
maps and stats are untouched, but the disjoint-set forest IS modified —
path compression inside the two `find` calls rewrites parent pointers
(here node 4 is repointed from 3 to the root 1) before the same-root
early return. -/
theorem mergeDuplicates_redundant_changes_parent :
    (DS.find 7 redundantMergeState.ds 4).2 = (DS.find 7 redundantMergeState.ds 2).2
    ∧ redundantMergeState.ds.parent 4 = some 3
    ∧ (mergeDuplicates 7 redundantMergeState 4 2).ds.parent 4 = some 1
    ∧ (mergeDuplicates 7 redundantMergeState 4 2).ds.parent 4
        ≠ redundantMergeState.ds.parent 4
    ∧ (mergeDuplicates 7 redundantMergeState 4 2).recs = redundantMergeState.recs
    ∧ (mergeDuplicates 7 redundantMergeState 4 2).stats = redundantMergeState.stats
    ∧ (mergeDuplicates 7 redundantMergeState 4 2).urlMap
        = redundantMergeState.urlMap
    ∧ (mergeDuplicates 7 redundantMergeState 4 2).tmaps
        = redundantMergeState.tmaps :=
  ⟨rfl, rfl, rfl, by decide, rfl, rfl, rfl, rfl⟩

/-- C10 (amended): a redundant merge (both nodes already share the
representative r) leaves every record, both maps and the stats
unchanged, and though `find` may compress paths, the forest keeps
exactly the same reachability relation and the same roots — the
partition of nodes into clusters is unchanged. -/
theorem mergeDuplicates_redundant_noop {n : Nat} (fuel : Nat)
    (st : EngineState) (a b r : Nat) (hwf : DSWF n st.ds)
    (hra : Reaches st.ds a r) (hrb : Reaches st.ds b r)
    (hfuel : n + 2 ≤ fuel) :
    (mergeDuplicates fuel st a b).recs = st.recs
    ∧ (mergeDuplicates fuel st a b).stats = st.stats
    ∧ (mergeDuplicates fuel st a b).urlMap = st.urlMap
    ∧ (mergeDuplicates fuel st a b).tmaps = st.tmaps
    ∧ (∀ x y, Reaches (mergeDuplicates fuel st a b).ds x y
        ↔ Reaches st.ds x y)
    ∧ (∀ x, (mergeDuplicates fuel st a b).ds.parent x = none
        ↔ st.ds.parent x = none) := by
  obtain ⟨hrecs, hstats, hds⟩ :=
    mergeDuplicates_noop_eq fuel st a b r hwf hra hrb hfuel
  obtain ⟨hurl, htm⟩ := mergeDuplicates_frame fuel st a b
  have hfa := find_spec fuel st.ds hwf a r hra
    (by have := hwf.rank_le a; omega)
  obtain ⟨hwf1, hva, hrk1, hiff1, hroots1⟩ := hfa
  have hrb1 : Reaches (DS.find fuel st.ds a).1 b r := (hiff1 b r).mpr hrb
  have hfb := find_spec fuel (DS.find fuel st.ds a).1 hwf1 b r hrb1
    (by rw [hrk1]; have := hwf.rank_le b; omega)
  obtain ⟨hwf2, hvb, hrk2, hiff2, hroots2⟩ := hfb
  refine ⟨hrecs, hstats, hurl, htm, ?_, ?_⟩
  · intro x y
    rw [hds]
    exact (hiff2 x y).trans (hiff1 x y)
  · intro x
    rw [hds]
    exact (hroots2 x).trans (hroots1 x)

theorem mergeDuplicates_redundant_noop_witness :
    (mergeDuplicates 2 EngineState.init 0 0).recs = EngineState.init.recs
    ∧ (mergeDuplicates 2 EngineState.init 0 0).stats = EngineState.init.stats
    ∧ (mergeDuplicates 2 EngineState.init 0 0).urlMap = EngineState.init.urlMap
    ∧ (mergeDuplicates 2 EngineState.init 0 0).tmaps = EngineState.init.tmaps
    ∧ (∀ x y, Reaches (mergeDuplicates 2 EngineState.init 0 0).ds x y
        ↔ Reaches EngineState.init.ds x y)
    ∧ (∀ x, (mergeDuplicates 2 EngineState.init 0 0).ds.parent x = none
        ↔ EngineState.init.ds.parent x = none) :=
  @mergeDuplicates_redundant_noop 0 2 EngineState.init 0 0 0
    (DSWF.init_forest 0) (Reaches.root 0 rfl) (Reaches.root 0 rfl) (by omega)


/- ===== The engine invariant ============================================ -/

/-- A node the engine may merge against: it was created (index below the
batch bound) and the root of its class carries a record. -/
def NodeGood (n : Nat) (st : EngineState) (i : Nat) : Prop :=
  i < n ∧ ∃ r rec, Reaches st.ds i r ∧ st.recs r = some rec

/-- The reachable-state invariant of the clustering engine after
processing links 0..n-1: the forest is well-formed, records sit exactly
at roots of created classes, every record lists its members in strictly
increasing index order with the primary first, every node referenced by
the URL map, an exact thumbnail map or a BK-tree belongs to a class
whose root has a record, and the running stats equal the
specification counts over the surviving records. -/
structure EngInv (n : Nat) (st : EngineState) : Prop where
  wf : DSWF n st.ds
  recsNone : ∀ i, n ≤ i → st.recs i = none
  recsRoot : ∀ i r, st.recs i = some r → st.ds.parent i = none
  mem : ∀ i r, st.recs i = some r →
    List.Pairwise (fun x y => x < y) (r.index :: r.duplicates)
    ∧ ∀ m ∈ r.index :: r.duplicates, Reaches st.ds m i
  urlGood : ∀ u i, st.urlMap u = some i → NodeGood n st i
  exGood : ∀ key h i, (st.tmaps key).exact h = some i → NodeGood n st i
  bkGood : ∀ key bk i, (st.tmaps key).bkMap = some bk → bk.HasVal i →
    NodeGood n st i
  stats1 : st.stats.numWithDups = (specNumWithDups n st : Int)
  stats2 : st.stats.totalDups = (specTotalDups n st : Int)

/-- Growing the node bound preserves forest well-formedness (the new
node is an untouched singleton). -/
theorem DSWF.succ_forest {n : Nat} {s : DS} (h : DSWF n s) : DSWF (n + 1) s := by
  refine ⟨?_, ?_, ?_⟩
  · intro i p hp
    have hd := h.dom i p hp
    exact ⟨by omega, by omega, hd.2.2⟩
  · intro i hi
    exact h.outside i (by omega)
  · intro i hi
    have hnr : DS.numRoots (n + 1) s ≤ DS.numRoots n s + 1 := by
      unfold DS.numRoots
      rw [Finset.range_succ, Finset.filter_insert]
      split
      · exact le_trans (Finset.card_insert_le _ _)
          (by have : (0:Nat) ≤ 0 := le_rfl; omega)
      · omega
    by_cases hi2 : i < n
    · have := h.pot i hi2
      omega
    · have hieq : i = n := by omega
      rw [hieq]
      have h0 : s.rank n = 0 := (h.outside n le_rfl).2
      have hb : DS.numRoots n s ≤ n := by
        unfold DS.numRoots
        calc ((Finset.range n).filter _).card
            ≤ (Finset.range n).card := Finset.card_filter_le _ _
          _ = n := Finset.card_range n
      omega

theorem specNumWithDups_succ (n : Nat) (st : EngineState)
    (h : st.recs n = none) :
    specNumWithDups (n + 1) st = specNumWithDups n st := by
  unfold specNumWithDups
  rw [Finset.range_succ, Finset.filter_insert]
  split
  · rename_i hcontra
    rw [recHasDups, h] at hcontra
    cases hcontra
  · rfl

theorem specTotalDups_succ (n : Nat) (st : EngineState)
    (h : st.recs n = none) :
    specTotalDups (n + 1) st = specTotalDups n st := by
  unfold specTotalDups
  rw [Finset.sum_range_succ]
  have h0 : recDupLen st n = 0 := by rw [recDupLen, h]
  omega

/-- The invariant is monotone in the node bound. -/
theorem EngInv.succ_engine {n : Nat} {st : EngineState} (inv : EngInv n st) :
    EngInv (n + 1) st := by
  have hrn : st.recs n = none := inv.recsNone n le_rfl
  refine ⟨inv.wf.succ_forest, ?_, inv.recsRoot, inv.mem, ?_, ?_, ?_, ?_, ?_⟩
  · intro i hi
    exact inv.recsNone i (by omega)
  · intro u i h
    have g := inv.urlGood u i h
    exact ⟨by have := g.1; omega, g.2⟩
  · intro key h i hh
    have g := inv.exGood key h i hh
    exact ⟨by have := g.1; omega, g.2⟩
  · intro key bk i hbk hv
    have g := inv.bkGood key bk i hbk hv
    exact ⟨by have := g.1; omega, g.2⟩
  · rw [inv.stats1, specNumWithDups_succ n st hrn]
  · rw [inv.stats2, specTotalDups_succ n st hrn]

theorem EngInv.init_engine : EngInv 0 EngineState.init := by
  refine ⟨DSWF.init_forest 0, ?_, ?_, ?_, ?_, ?_, ?_, ?_, ?_⟩
  · intro i _; rfl
  · intro i r h; cases h
  · intro i r h; cases h
  · intro u i h; cases h
  · intro key h i hh; cases hh
  · intro key bk i hbk _; cases hbk
  · show (0 : Int) = ((specNumWithDups 0 EngineState.init : Nat) : Int)
    simp [specNumWithDups]
  · show (0 : Int) = ((specTotalDups 0 EngineState.init : Nat) : Int)
    simp [specTotalDups]


/-- The stats and record fields produced by `DupRecord.merge`. -/
theorem DupRecord.merge_spec (r l : DupRecord) (stats : Stats) :
    (DupRecord.merge r l stats).2.numWithDups
      = stats.numWithDups + (if r.duplicates.length = 0 then 1 else 0)
        - (if l.duplicates.length ≠ 0 then 1 else 0)
    ∧ (DupRecord.merge r l stats).2.totalDups = stats.totalDups + 1
    ∧ (DupRecord.merge r l stats).1.index = r.index
    ∧ (DupRecord.merge r l stats).1.duplicates
        = DupRecord.mergeDupLists r.duplicates l.index l.duplicates := by
  refine ⟨?_, ?_, rfl, rfl⟩
  · unfold DupRecord.merge
    split_ifs <;> simp <;> omega
  · unfold DupRecord.merge
    split_ifs <;> simp

/-- Length of the merged duplicate list. -/
theorem mergeDupLists_length (xs : List Nat) (o : Nat) (ys : List Nat) :
    (DupRecord.mergeDupLists xs o ys).length = xs.length + ys.length + 1 := by
  rw [DupRecord.mergeDupLists, merge2way_length]
  simp
  omega

/-- Members of the merged duplicate list. -/
theorem mergeDupLists_mem (xs : List Nat) (o : Nat) (ys : List Nat) (m : Nat) :
    m ∈ DupRecord.mergeDupLists xs o ys ↔ m ∈ xs ∨ m = o ∨ m ∈ ys := by
  rw [DupRecord.mergeDupLists, merge2way_mem]
  simp

/-- Sortedness of a merged record: merging a strictly larger-index
record (whose members live in a different class) into a sorted record
keeps the primary-first strictly increasing order. -/
theorem merge_pairwise {s : DS} {rs ls : Nat} {r l : DupRecord}
    (hrp : List.Pairwise (fun x y => x < y) (r.index :: r.duplicates))
    (hlp : List.Pairwise (fun x y => x < y) (l.index :: l.duplicates))
    (hrm : ∀ m ∈ r.index :: r.duplicates, Reaches s m rs)
    (hlm : ∀ m ∈ l.index :: l.duplicates, Reaches s m ls)
    (hrl : rs ≠ ls)
    (hidx : r.index < l.index) :
    List.Pairwise (fun x y => x < y)
      (r.index :: DupRecord.mergeDupLists r.duplicates l.index l.duplicates) := by
  obtain ⟨hrhead, hrtail⟩ := List.pairwise_cons.mp hrp
  obtain ⟨hlhead, hltail⟩ := List.pairwise_cons.mp hlp
  have hdisj : ∀ m, m ∈ r.duplicates → m ∉ l.index :: l.duplicates := by
    intro m hm hml
    have h1 := hrm m (List.mem_cons_of_mem _ hm)
    have h2 := hlm m hml
    exact hrl (h1.unique h2)
  refine List.pairwise_cons.mpr ⟨?_, ?_⟩
  · intro m hm
    rw [mergeDupLists_mem] at hm
    rcases hm with hm | hm | hm
    · exact hrhead m hm
    · omega
    · have := hlhead m hm
      omega
  · exact merge2way_sorted r.duplicates (l.index :: l.duplicates) hrtail hlp hdisj

/-- `specNumWithDups` only looks at the records. -/
theorem specNumWithDups_congr (n : Nat) (st st2 : EngineState)
    (h : st2.recs = st.recs) : specNumWithDups n st2 = specNumWithDups n st := by
  unfold specNumWithDups
  congr 1
  apply Finset.filter_congr
  intro i _
  simp [recHasDups, h]

/-- `specTotalDups` only looks at the records. -/
theorem specTotalDups_congr (n : Nat) (st st2 : EngineState)
    (h : st2.recs = st.recs) : specTotalDups n st2 = specTotalDups n st := by
  unfold specTotalDups
  apply Finset.sum_congr rfl
  intro i _
  simp [recDupLen, h]


/-- `mergeDuplicates` preserves the engine invariant when both arguments
are nodes whose class roots carry records, and it keeps every such node
mergeable. -/
theorem mergeDuplicates_inv {n : Nat} (fuel : Nat) (st : EngineState)
    (a b : Nat) (inv : EngInv n st)
    (hga : NodeGood n st a) (hgb : NodeGood n st b)
    (hfuel : n + 2 ≤ fuel) :
    EngInv n (mergeDuplicates fuel st a b)
    ∧ ∀ x, NodeGood n st x → NodeGood n (mergeDuplicates fuel st a b) x := by
  obtain ⟨han, ra, r1rec, hra, h1⟩ := hga
  obtain ⟨hbn, rb, r2rec, hrb, h2⟩ := hgb
  obtain ⟨hurl, htm⟩ := mergeDuplicates_frame fuel st a b
  have hran : ra < n := by
    by_contra hc
    rw [inv.recsNone ra (by omega)] at h1
    cases h1
  have hrbn : rb < n := by
    by_contra hc
    rw [inv.recsNone rb (by omega)] at h2
    cases h2
  by_cases hne : ra = rb
  · -- same representative: only path compression
    subst hne
    obtain ⟨hrecs, hstats, hds⟩ :=
      mergeDuplicates_noop_eq fuel st a b ra inv.wf hra hrb hfuel
    have hfa := find_spec fuel st.ds inv.wf a ra hra
      (by have := inv.wf.rank_le a; omega)
    obtain ⟨hwf1, hva, hrk1, hiff1, hroots1⟩ := hfa
    have hrb1 : Reaches (DS.find fuel st.ds a).1 b ra := (hiff1 b ra).mpr hrb
    have hfb := find_spec fuel (DS.find fuel st.ds a).1 hwf1 b ra hrb1
      (by rw [hrk1]; have := inv.wf.rank_le b; omega)
    obtain ⟨hwf2, hvb, hrk2, hiff2, hroots2⟩ := hfb
    have hdsiff : ∀ x y, Reaches (mergeDuplicates fuel st a b).ds x y
        ↔ Reaches st.ds x y := by
      intro x y
      rw [hds]
      exact (hiff2 x y).trans (hiff1 x y)
    have hdsroot : ∀ x, (mergeDuplicates fuel st a b).ds.parent x = none
        ↔ st.ds.parent x = none := by
      intro x
      rw [hds]
      exact (hroots2 x).trans (hroots1 x)
    have hpres : ∀ x, NodeGood n st x
        → NodeGood n (mergeDuplicates fuel st a b) x := by
      rintro x ⟨hx, rx, recx, hxr, hrecx⟩
      exact ⟨hx, rx, recx, (hdsiff x rx).mpr hxr, by rw [hrecs]; exact hrecx⟩
    refine ⟨⟨?_, ?_, ?_, ?_, ?_, ?_, ?_, ?_, ?_⟩, hpres⟩
    · rw [hds]; exact hwf2
    · intro i hi; rw [hrecs]; exact inv.recsNone i hi
    · intro i r h
      rw [hrecs] at h
      exact (hdsroot i).mpr (inv.recsRoot i r h)
    · intro i r h
      rw [hrecs] at h
      obtain ⟨hp, hm⟩ := inv.mem i r h
      exact ⟨hp, fun m hm2 => (hdsiff m i).mpr (hm m hm2)⟩
    · intro u i h
      rw [hurl] at h
      exact hpres i (inv.urlGood u i h)
    · intro key h i hh
      rw [htm] at hh
      exact hpres i (inv.exGood key h i hh)
    · intro key bk i hbk hv
      rw [htm] at hbk
      exact hpres i (inv.bkGood key bk i hbk hv)
    · rw [hstats, inv.stats1, specNumWithDups_congr n st _ hrecs]
    · rw [hstats, inv.stats2, specTotalDups_congr n st _ hrecs]
  · -- distinct representatives: a real merge
    obtain ⟨hrecs, hstats⟩ := mergeDuplicates_merge_eq fuel st a b ra rb
      inv.wf hra hrb hfuel hne r1rec r2rec h1 h2
    have hds := mergeDuplicates_ds_eq fuel st a b ra rb inv.wf hra hrb hfuel
    obtain ⟨hwfU, hvalU, hmapU, hrootU, _⟩ :=
      union_spec st.ds inv.wf a b ra rb han hbn hra hrb fuel hfuel
    rw [if_neg hne] at hvalU
    set w := if st.ds.rank ra < st.ds.rank rb then rb else ra with hw
    set lo := if st.ds.rank ra < st.ds.rank rb then ra else rb with hlo
    have hwlor : (w = rb ∧ lo = ra) ∨ (w = ra ∧ lo = rb) := by
      rw [hw, hlo]
      split_ifs <;> simp
    have hwra : w = ra ∨ w = rb := by
      rcases hwlor with ⟨h3, _⟩ | ⟨h3, _⟩
      · exact Or.inr h3
      · exact Or.inl h3
    have hlor : lo = ra ∨ lo = rb := by
      rcases hwlor with ⟨_, h4⟩ | ⟨_, h4⟩
      · exact Or.inl h4
      · exact Or.inr h4
    have hwlo_ne : w ≠ lo := by
      rcases hwlor with ⟨h3, h4⟩ | ⟨h3, h4⟩ <;> rw [h3, h4]
      · exact fun hc => hne hc.symm
      · exact hne
    have hvw : (DS.union fuel st.ds a b).2 = w := hvalU
    rw [hvw] at hrecs
    have hrootra : st.ds.parent ra = none := hra.parent_none
    have hrootrb : st.ds.parent rb = none := hrb.parent_none
    have hroot2 : ∀ x, (mergeDuplicates fuel st a b).ds.parent x = none
        ↔ (st.ds.parent x = none ∧ x ≠ lo) := by
      intro x
      rw [hds, hrootU x]
      simp [hne]
    have hmap2 : ∀ x rx, Reaches st.ds x rx →
        Reaches (mergeDuplicates fuel st a b).ds x
          (if rx = ra ∨ rx = rb then w else rx) := by
      intro x rx hxr
      have hm := hmapU x rx hxr
      rw [hds]
      by_cases hcase : rx = ra ∨ rx = rb
      · rw [if_pos hcase]
        rw [if_pos ⟨hne, hcase⟩] at hm
        exact hm
      · rw [if_neg hcase]
        rw [if_neg (fun hc => hcase hc.2)] at hm
        exact hm
    set sur := if r2rec.index < r1rec.index then r2rec else r1rec with hsur
    set los := if r2rec.index < r1rec.index then r1rec else r2rec with hlos
    have hsurlos : (sur = r2rec ∧ los = r1rec) ∨ (sur = r1rec ∧ los = r2rec) := by
      rw [hsur, hlos]
      split_ifs <;> simp
    have hidxne : r1rec.index ≠ r2rec.index := by
      intro hc
      have hm1 := (inv.mem ra r1rec h1).2 r1rec.index (List.mem_cons_self _ _)
      have hm2 := (inv.mem rb r2rec h2).2 r2rec.index (List.mem_cons_self _ _)
      rw [hc] at hm1
      exact hne (hm1.unique hm2)
    have hsurlt : sur.index < los.index := by
      rw [hsur, hlos]
      split_ifs with hp
      · exact hp
      · omega
    obtain ⟨hmnum, hmtot, hmidx, hmdup⟩ := DupRecord.merge_spec sur los st.stats
    have hreclen : (DupRecord.merge sur los st.stats).1.duplicates.length
        = sur.duplicates.length + los.duplicates.length + 1 := by
      rw [hmdup, mergeDupLists_length]
    have hrecne : (DupRecord.merge sur los st.stats).1.duplicates ≠ [] := by
      intro hc
      rw [hc] at hreclen
      simp at hreclen
    have hrecsw : (mergeDuplicates fuel st a b).recs w
        = some (DupRecord.merge sur los st.stats).1 := by
      rw [hrecs]
      simp
    have hrecslo : (mergeDuplicates fuel st a b).recs lo = none := by
      rw [hrecs]
      simp only
      rw [if_neg (fun hc => hwlo_ne hc.symm), if_pos hlor]
    have hrecsother : ∀ j, j ≠ ra → j ≠ rb →
        (mergeDuplicates fuel st a b).recs j = st.recs j := by
      intro j hja hjb
      have hjw : j ≠ w := by rcases hwra with h3 | h3 <;> rw [h3] <;> assumption
      have hjor : ¬(j = ra ∨ j = rb) := by
        rintro (hc | hc)
        · exact hja hc
        · exact hjb hc
      rw [hrecs]
      simp only
      rw [if_neg hjw, if_neg hjor]
    have hpres : ∀ x, NodeGood n st x
        → NodeGood n (mergeDuplicates fuel st a b) x := by
      rintro x ⟨hx, rx, recx, hxr, hrecx⟩
      by_cases hcase : rx = ra ∨ rx = rb
      · refine ⟨hx, w, (DupRecord.merge sur los st.stats).1, ?_, hrecsw⟩
        have := hmap2 x rx hxr
        rw [if_pos hcase] at this
        exact this
      · refine ⟨hx, rx, recx, ?_, ?_⟩
        · have := hmap2 x rx hxr
          rw [if_neg hcase] at this
          exact this
        · rw [hrecsother rx (fun h => hcase (Or.inl h)) (fun h => hcase (Or.inr h))]
          exact hrecx
    have hwn : w < n := by rcases hwra with h3 | h3 <;> rw [h3] <;> assumption
    refine ⟨⟨?_, ?_, ?_, ?_, ?_, ?_, ?_, ?_, ?_⟩, hpres⟩
    · rw [hds]; exact hwfU
    · intro i hi
      have hia : i ≠ ra := by omega
      have hib : i ≠ rb := by omega
      rw [hrecsother i hia hib]
      exact inv.recsNone i hi
    · intro i r h
      by_cases hiw : i = w
      · subst hiw
        refine (hroot2 w).mpr ⟨?_, hwlo_ne⟩
        rcases hwra with h3 | h3 <;> rw [h3] <;> assumption
      · by_cases hior : i = ra ∨ i = rb
        · have hilo : i = lo := by
            rcases hwlor with ⟨h3, h4⟩ | ⟨h3, h4⟩ <;> rcases hior with h5 | h5 <;> omega
          rw [hilo, hrecslo] at h
          cases h
        · rw [hrecsother i (fun hc => hior (Or.inl hc))
            (fun hc => hior (Or.inr hc))] at h
          refine (hroot2 i).mpr ⟨inv.recsRoot i r h, ?_⟩
          rcases hlor with h4 | h4 <;> rw [h4] <;> tauto
    · intro i r h
      obtain ⟨hp1, hm1⟩ := inv.mem ra r1rec h1
      obtain ⟨hp2, hm2⟩ := inv.mem rb r2rec h2
      by_cases hiw : i = w
      · subst hiw
        rw [hrecsw] at h
        injection h with h
        subst h
        have hreach : ∀ mm, (mm ∈ sur.index :: sur.duplicates
            ∨ mm ∈ los.index :: los.duplicates) →
            Reaches (mergeDuplicates fuel st a b).ds mm w := by
          intro mm hcase2
          have hst : Reaches st.ds mm ra ∨ Reaches st.ds mm rb := by
            rcases hsurlos with ⟨h3, h4⟩ | ⟨h3, h4⟩ <;>
              rw [h3, h4] at hcase2 <;> rcases hcase2 with hc | hc
            · exact Or.inr (hm2 mm hc)
            · exact Or.inl (hm1 mm hc)
            · exact Or.inl (hm1 mm hc)
            · exact Or.inr (hm2 mm hc)
          rcases hst with hr | hr
          · have := hmap2 mm ra hr
            rw [if_pos (Or.inl rfl)] at this
            exact this
          · have := hmap2 mm rb hr
            rw [if_pos (Or.inr rfl)] at this
            exact this
        constructor
        · rw [hmidx, hmdup]
          rcases hsurlos with ⟨h3, h4⟩ | ⟨h3, h4⟩
          · rw [h3, h4]
            rw [h3, h4] at hsurlt
            exact merge_pairwise hp2 hp1 hm2 hm1 (Ne.symm hne) hsurlt
          · rw [h3, h4]
            rw [h3, h4] at hsurlt
            exact merge_pairwise hp1 hp2 hm1 hm2 hne hsurlt
        · intro mm hmm
          rw [hmidx, hmdup] at hmm
          apply hreach
          rcases List.mem_cons.mp hmm with hmm2 | hmm2
          · rw [hmm2]
            exact Or.inl (List.mem_cons_self _ _)
          · rw [mergeDupLists_mem] at hmm2
            rcases hmm2 with hc | hc | hc
            · exact Or.inl (List.mem_cons_of_mem _ hc)
            · rw [hc]
              exact Or.inr (List.mem_cons_self _ _)
            · exact Or.inr (List.mem_cons_of_mem _ hc)
      · by_cases hior : i = ra ∨ i = rb
        · have hilo : i = lo := by
            rcases hwlor with ⟨h3, h4⟩ | ⟨h3, h4⟩ <;> rcases hior with h5 | h5 <;> omega
          rw [hilo, hrecslo] at h
          cases h
        · rw [hrecsother i (fun hc => hior (Or.inl hc))
            (fun hc => hior (Or.inr hc))] at h
          obtain ⟨hp, hmems⟩ := inv.mem i r h
          refine ⟨hp, ?_⟩
          intro mm hmm
          have := hmap2 mm i (hmems mm hmm)
          rw [if_neg hior] at this
          exact this
    · intro u i h
      rw [hurl] at h
      exact hpres i (inv.urlGood u i h)
    · intro key h i hh
      rw [htm] at hh
      exact hpres i (inv.exGood key h i hh)
    · intro key bk i hbk hv
      rw [htm] at hbk
      exact hpres i (inv.bkGood key bk i hbk hv)
    · -- numWithDups
      have hfw : recHasDups (mergeDuplicates fuel st a b) w = true := by
        unfold recHasDups
        rw [hrecsw]
        cases hd : (DupRecord.merge sur los st.stats).1.duplicates with
        | nil => exact absurd hd hrecne
        | cons x xs => simp [hd]
      have hflo : recHasDups (mergeDuplicates fuel st a b) lo = false := by
        unfold recHasDups
        rw [hrecslo]
      have hfother : ∀ j, j ≠ ra → j ≠ rb →
          recHasDups (mergeDuplicates fuel st a b) j = recHasDups st j := by
        intro j hja hjb
        unfold recHasDups
        rw [hrecsother j hja hjb]
      have hsum1 := sum_eq_off_two
        (fun i => if recHasDups (mergeDuplicates fuel st a b) i = true then 1 else 0)
        (fun i => if recHasDups st i = true then 1 else 0)
        hne hran hrbn
        (fun i hia hib => by simp only [hfother i hia hib])
      simp only at hsum1
      have hA : specNumWithDups n (mergeDuplicates fuel st a b)
          = ∑ i ∈ Finset.range n,
              (if recHasDups (mergeDuplicates fuel st a b) i = true then 1 else 0) := by
        unfold specNumWithDups
        exact card_filter_eq_sum n _
      have hB : specNumWithDups n st
          = ∑ i ∈ Finset.range n, (if recHasDups st i = true then 1 else 0) := by
        unfold specNumWithDups
        exact card_filter_eq_sum n _
      have hfra_frb :
          (if recHasDups (mergeDuplicates fuel st a b) ra = true then 1 else 0)
          + (if recHasDups (mergeDuplicates fuel st a b) rb = true then 1 else 0)
          = 1 := by
        rcases hwlor with ⟨hw3, hl3⟩ | ⟨hw3, hl3⟩ <;> rw [← hw3, ← hl3] <;>
          rw [hfw, hflo] <;> simp
      rw [hstats, hmnum, inv.stats1, hA]
      rw [← hA]
      have hgoal : specNumWithDups n (mergeDuplicates fuel st a b)
          + (if recHasDups st ra = true then 1 else 0)
          + (if recHasDups st rb = true then 1 else 0)
          = specNumWithDups n st + 1 := by
        rw [hA, hB]
        omega
      have hgra : recHasDups st ra = !r1rec.duplicates.isEmpty := by
        unfold recHasDups
        rw [h1]
      have hgrb : recHasDups st rb = !r2rec.duplicates.isEmpty := by
        unfold recHasDups
        rw [h2]
      have hsurd : (sur.duplicates.length = 0 ∧ los.duplicates = r2rec.duplicates
            ∧ r1rec.duplicates.length = 0)
          ∨ True := Or.inr trivial
      rcases hsurlos with ⟨h3, h4⟩ | ⟨h3, h4⟩ <;> rw [h3, h4] <;>
        rw [hgra, hgrb] at hgoal <;>
        cases hd1 : r1rec.duplicates <;> cases hd2 : r2rec.duplicates <;>
        rw [hd1, hd2] at hgoal <;> simp [hd1, hd2] at hgoal ⊢ <;> omega
    · -- totalDups
      have hdw : recDupLen (mergeDuplicates fuel st a b) w
          = sur.duplicates.length + los.duplicates.length + 1 := by
        unfold recDupLen
        rw [hrecsw]
        exact hreclen
      have hdlo : recDupLen (mergeDuplicates fuel st a b) lo = 0 := by
        unfold recDupLen
        rw [hrecslo]
      have hdother : ∀ j, j ≠ ra → j ≠ rb →
          recDupLen (mergeDuplicates fuel st a b) j = recDupLen st j := by
        intro j hja hjb
        unfold recDupLen
        rw [hrecsother j hja hjb]
      have hdra : recDupLen st ra = r1rec.duplicates.length := by
        unfold recDupLen
        rw [h1]
      have hdrb : recDupLen st rb = r2rec.duplicates.length := by
        unfold recDupLen
        rw [h2]
      have hsum2 := sum_eq_off_two
        (fun i => recDupLen (mergeDuplicates fuel st a b) i)
        (fun i => recDupLen st i)
        hne hran hrbn
        (fun i hia hib => hdother i hia hib)
      simp only at hsum2
      have hdra_drb : recDupLen (mergeDuplicates fuel st a b) ra
          + recDupLen (mergeDuplicates fuel st a b) rb
          = sur.duplicates.length + los.duplicates.length + 1 := by
        rcases hwlor with ⟨hw3, hl3⟩ | ⟨hw3, hl3⟩ <;> rw [← hw3, ← hl3] <;>
          rw [hdw, hdlo] <;> omega
      have hsurlen : sur.duplicates.length + los.duplicates.length
          = r1rec.duplicates.length + r2rec.duplicates.length := by
        rcases hsurlos with ⟨h3, h4⟩ | ⟨h3, h4⟩ <;> rw [h3, h4] <;> omega
      have hTf : specTotalDups n (mergeDuplicates fuel st a b)
          = ∑ i ∈ Finset.range n, recDupLen (mergeDuplicates fuel st a b) i := rfl
      have hTg : specTotalDups n st = ∑ i ∈ Finset.range n, recDupLen st i := rfl
      rw [hstats, hmtot, inv.stats2]
      have : specTotalDups n (mergeDuplicates fuel st a b)
          = specTotalDups n st + 1 := by
        rw [hTf, hTg]
        omega
      rw [this]
      push_cast
      ring



/-- Replacing one thumbnail table preserves the invariant as long as the
new table references only mergeable nodes. -/
theorem setTMap_inv {n : Nat} {st : EngineState} (inv : EngInv n st)
    (key : Option Nat) (tm : TMap)
    (hex : ∀ h i, tm.exact h = some i → NodeGood n st i)
    (hbk : ∀ bk i, tm.bkMap = some bk → bk.HasVal i → NodeGood n st i) :
    EngInv n (st.setTMap key tm) := by
  refine ⟨inv.wf, inv.recsNone, inv.recsRoot, inv.mem, ?_, ?_, ?_,
    inv.stats1, inv.stats2⟩
  · intro u i h2
    exact inv.urlGood u i h2
  · intro key2 h2 i hh
    simp only [EngineState.setTMap] at hh
    by_cases hk : key2 = key
    · rw [if_pos hk] at hh
      exact hex h2 i hh
    · rw [if_neg hk] at hh
      exact inv.exGood key2 h2 i hh
  · intro key2 bk i hbk2 hv
    simp only [EngineState.setTMap] at hbk2
    by_cases hk : key2 = key
    · rw [if_pos hk] at hbk2
      exact hbk bk i hbk2 hv
    · rw [if_neg hk] at hbk2
      exact inv.bkGood key2 bk i hbk2 hv

/-- The only value stored in a fresh one-node BK-tree is its own. -/
theorem hasVal_singleton {k : Nat × Nat} {v u : Nat}
    (h : BKNode.HasVal (BKNode.node k v []) u) : u = v := by
  cases h with
  | head => rfl
  | child _ _ _ _ _ _ hm _ => cases hm

/-- `updateThumbMap` preserves the engine invariant, given a mergeable
input node. -/
theorem updateThumbMap_inv {n : Nat} (cfg : Settings) (fuel : Nat)
    (st : EngineState) (domain : Option Nat) (h : Nat × Nat) (node : Nat)
    (inv : EngInv n st) (hnode : NodeGood n st node) (hfuel : n + 2 ≤ fuel) :
    EngInv n (updateThumbMap cfg fuel st domain h node) := by
  unfold updateThumbMap
  simp only
  cases hex : (st.tmaps (thumbKey cfg domain)).exact h with
  | some other =>
    exact (mergeDuplicates_inv fuel st other node inv
      (inv.exGood _ h other hex) hnode hfuel).1
  | none =>
    have hex1 : ∀ h2 i,
        (if h2 = h then some node else (st.tmaps (thumbKey cfg domain)).exact h2)
          = some i → NodeGood n st i := by
      intro h2 i hh
      by_cases hcase : h2 = h
      · rw [if_pos hcase] at hh
        injection hh with hh
        rw [← hh]
        exact hnode
      · rw [if_neg hcase] at hh
        exact inv.exGood _ h2 i hh
    by_cases hbkuse : cfg.maxHammingDistance > 0
    · rw [if_pos hbkuse]
      cases hbk2 : (st.tmaps (thumbKey cfg domain)).bkMap with
      | none =>
        have hinv1 : EngInv n (st.setTMap (thumbKey cfg domain)
            { exact := fun h2 => if h2 = h then some node
                else (st.tmaps (thumbKey cfg domain)).exact h2,
              bkMap := none }) := by
          refine setTMap_inv inv _ _ hex1 ?_
          intro bk i hbk hv
          exact Option.noConfusion hbk
        refine setTMap_inv hinv1 _ _ ?_ ?_
        · intro h2 i hh
          exact hex1 h2 i hh
        · intro bk i hbk hv
          injection hbk with hbk
          rw [← hbk] at hv
          rw [hasVal_singleton hv]
          exact hnode
      | some bk =>
        have hinv1 : EngInv n (st.setTMap (thumbKey cfg domain)
            { exact := fun h2 => if h2 = h then some node
                else (st.tmaps (thumbKey cfg domain)).exact h2,
              bkMap := some bk }) := by
          refine setTMap_inv inv _ _ hex1 ?_
          intro bk2 i hbk hv
          injection hbk with hbk
          rw [← hbk] at hv
          exact inv.bkGood _ bk i hbk2 hv
        have hfold : ∀ (lst : List Nat) (s : EngineState),
            EngInv n s → NodeGood n s node →
            (∀ x, NodeGood n st x → NodeGood n s x) →
            (∀ o ∈ lst, NodeGood n st o) →
            EngInv n (lst.foldl (fun s2 other => mergeDuplicates fuel s2 node other) s)
            ∧ (∀ x, NodeGood n st x →
                NodeGood n (lst.foldl (fun s2 other => mergeDuplicates fuel s2 node other) s) x)
            ∧ (lst.foldl (fun s2 other => mergeDuplicates fuel s2 node other) s).tmaps
                = s.tmaps := by
          intro lst
          induction lst with
          | nil =>
            intro s hs hn hp ho
            exact ⟨hs, hp, rfl⟩
          | cons o os ih =>
            intro s hs hn hp ho
            simp only [List.foldl_cons]
            have hgo : NodeGood n s o := hp o (ho o (List.mem_cons_self _ _))
            obtain ⟨hinv2, hpres2⟩ := mergeDuplicates_inv fuel s node o hs hn hgo hfuel
            obtain ⟨hdone1, hdone2, hdone3⟩ := ih _ hinv2 (hpres2 node hn)
              (fun x hx => hpres2 x (hp x hx))
              (fun o2 ho2 => ho o2 (List.mem_cons_of_mem _ ho2))
            refine ⟨hdone1, hdone2, ?_⟩
            rw [hdone3, (mergeDuplicates_frame fuel s node o).2]
        have hfound : ∀ o ∈ BKNode.findAll fuel bk h cfg.maxHammingDistance,
            NodeGood n st o := by
          intro o ho
          exact inv.bkGood _ bk o hbk2 (findAll_hasVal fuel bk h _ o ho)
        obtain ⟨hinv2, hpres2, htm2⟩ := hfold
          (BKNode.findAll fuel bk h cfg.maxHammingDistance) _
          hinv1 hnode (fun x hx => hx) hfound
        refine setTMap_inv hinv2 _ _ ?_ ?_
        · intro h2 i hh
          rw [htm2] at hh
          simp only [EngineState.setTMap, if_pos rfl] at hh
          exact hpres2 i (hex1 h2 i hh)
        · intro bk2 i hbk3 hv
          injection hbk3 with hbk3
          rw [← hbk3] at hv
          rcases add_hasVal fuel bk h node i hv with hv2 | hv2
          · exact hpres2 i (inv.bkGood _ bk i hbk2 hv2)
          · rw [hv2]
            exact hpres2 node hnode
    · rw [if_neg hbkuse]
      refine setTMap_inv inv _ _ hex1 ?_
      intro bk i hbk hv
      exact inv.bkGood _ bk i hbk hv


/-- Creating the fresh node and record for link `n` moves the invariant
from bound `n` to bound `n + 1` and makes node `n` mergeable. -/
theorem createRecord_inv {n : Nat} {st : EngineState} (inv : EngInv n st) :
    EngInv (n + 1)
      { st with recs := fun j => if j = n then some ⟨n, [], false⟩ else st.recs j }
    ∧ NodeGood (n + 1)
      { st with recs := fun j => if j = n then some ⟨n, [], false⟩ else st.recs j }
      n := by
  have hparn : st.ds.parent n = none := (inv.wf.outside n le_rfl).1
  set S : EngineState :=
    { st with recs := fun j => if j = n then some ⟨n, [], false⟩ else st.recs j }
    with hS
  have hSn : S.recs n = some ⟨n, [], false⟩ := by
    show (if n = n then some ⟨n, [], false⟩ else st.recs n) = _
    rw [if_pos rfl]
  have hSother : ∀ j, j ≠ n → S.recs j = st.recs j := by
    intro j hj
    show (if j = n then some ⟨n, [], false⟩ else st.recs j) = _
    rw [if_neg hj]
  have hpres : ∀ x, NodeGood n st x → NodeGood (n + 1) S x := by
    rintro x ⟨hx, rx, recx, hxr, hrecx⟩
    have hrxn : rx < n := by
      by_contra hc
      rw [inv.recsNone rx (by omega)] at hrecx
      cases hrecx
    refine ⟨by omega, rx, recx, hxr, ?_⟩
    rw [hSother rx (by omega)]
    exact hrecx
  have hgood : NodeGood (n + 1) S n :=
    ⟨by omega, n, ⟨n, [], false⟩, Reaches.root n hparn, hSn⟩
  have hhd : recHasDups S n = false := by
    unfold recHasDups
    rw [hSn]
    rfl
  have hdl : recDupLen S n = 0 := by
    unfold recDupLen
    rw [hSn]
    rfl
  have hhd2 : ∀ i, i < n → recHasDups S i = recHasDups st i := by
    intro i hi
    unfold recHasDups
    rw [hSother i (by omega)]
  have hdl2 : ∀ i, i < n → recDupLen S i = recDupLen st i := by
    intro i hi
    unfold recDupLen
    rw [hSother i (by omega)]
  refine ⟨⟨inv.wf.succ_forest, ?_, ?_, ?_, ?_, ?_, ?_, ?_, ?_⟩, hgood⟩
  · intro i hi
    rw [hSother i (by omega)]
    exact inv.recsNone i (by omega)
  · intro i r h
    by_cases hin : i = n
    · rw [hin]
      exact hparn
    · rw [hSother i hin] at h
      exact inv.recsRoot i r h
  · intro i r h
    by_cases hin : i = n
    · subst hin
      rw [hSn] at h
      injection h with h
      subst h
      constructor
      · simp
      · intro m hm
        simp only [List.mem_cons, List.not_mem_nil, or_false] at hm
        rw [hm]
        exact Reaches.root i hparn
    · rw [hSother i hin] at h
      obtain ⟨hp, hmems⟩ := inv.mem i r h
      exact ⟨hp, hmems⟩
  · intro u i h
    exact hpres i (inv.urlGood u i h)
  · intro key h i hh
    exact hpres i (inv.exGood key h i hh)
  · intro key bk i hbk hv
    exact hpres i (inv.bkGood key bk i hbk hv)
  · show st.stats.numWithDups = _
    rw [inv.stats1]
    have : specNumWithDups (n + 1) S = specNumWithDups n st := by
      unfold specNumWithDups
      rw [Finset.range_succ, Finset.filter_insert]
      split
      · rename_i hc
        rw [hhd] at hc
        cases hc
      · apply congrArg
        apply Finset.filter_congr
        intro i hi
        rw [hhd2 i (Finset.mem_range.mp hi)]
    rw [this]
  · show st.stats.totalDups = _
    rw [inv.stats2]
    have : specTotalDups (n + 1) S = specTotalDups n st := by
      unfold specTotalDups
      rw [Finset.sum_range_succ, hdl]
      have : ∀ i ∈ Finset.range n, recDupLen S i = recDupLen st i := by
        intro i hi
        exact hdl2 i (Finset.mem_range.mp hi)
      rw [Finset.sum_congr rfl this]
      simp
    rw [this]

/-- Registering a fresh URL preserves the invariant. -/
theorem setUrl_inv {n : Nat} {st : EngineState} (inv : EngInv n st)
    (u idx : Nat) (hidx : NodeGood n st idx) :
    EngInv n { st with
      urlMap := fun u2 => if u2 = u then some idx else st.urlMap u2 } := by
  refine ⟨inv.wf, inv.recsNone, inv.recsRoot, inv.mem, ?_, inv.exGood,
    inv.bkGood, inv.stats1, inv.stats2⟩
  intro u2 i h
  simp only at h
  by_cases hu : u2 = u
  · rw [if_pos hu] at h
    injection h with h
    rw [← h]
    exact hidx
  · rw [if_neg hu] at h
    exact inv.urlGood u2 i h

/-- One step of the main loop preserves the engine invariant. -/
theorem processLink_inv (cfg : Settings) {n : Nat} (fuel : Nat)
    (st : EngineState) (it : Option LinkInfo) (inv : EngInv n st)
    (hfuel : n + 3 ≤ fuel) :
    EngInv (n + 1) (processLink cfg fuel st n it) := by
  cases it with
  | none => exact inv.succ_engine
  | some info =>
    unfold processLink
    simp only
    obtain ⟨hinv0, hgood0⟩ := createRecord_inv inv
    set st0 : EngineState :=
      { st with recs := fun j => if j = n then some ⟨n, [], false⟩ else st.recs j }
      with hst0
    have hst1 : ∀ st1 : EngineState, EngInv (n + 1) st1 → NodeGood (n + 1) st1 n →
        EngInv (n + 1) (if cfg.deduplicateThumbs then
          (match info.thumbnailHash with
          | some h => updateThumbMap cfg fuel st1 info.domain h n
          | none => st1)
          else st1) := by
      intro st1 hinv1 hgood1
      by_cases hdt : cfg.deduplicateThumbs
      · rw [if_pos hdt]
        cases info.thumbnailHash with
        | some h =>
          exact updateThumbMap_inv cfg fuel st1 info.domain h n hinv1 hgood1 (by omega)
        | none => exact hinv1
      · rw [if_neg hdt]
        exact hinv1
    refine hst1 _ ?_ ?_
    · cases hu : info.url with
      | none => exact hinv0
      | some u =>
        simp only
        cases hm : st.urlMap u with
        | some other =>
          exact (mergeDuplicates_inv fuel st0 other n hinv0
            (hinv0.urlGood u other hm) hgood0 (by omega)).1
        | none =>
          exact setUrl_inv hinv0 u n hgood0
    · cases hu : info.url with
      | none => exact hgood0
      | some u =>
        simp only
        cases hm : st.urlMap u with
        | some other =>
          exact (mergeDuplicates_inv fuel st0 other n hinv0
            (hinv0.urlGood u other hm) hgood0 (by omega)).2 n hgood0
        | none => exact hgood0

/-- The invariant holds along the whole batch. -/
theorem processBatch_inv_aux (cfg : Settings) (fuel : Nat) :
    ∀ (rest : List (Option LinkInfo)) (m : Nat) (st : EngineState),
    EngInv m st → m + rest.length + 2 ≤ fuel →
    EngInv (m + rest.length)
      ((List.enumFrom m rest).foldl
        (fun s p => processLink cfg fuel s p.1 p.2) st) := by
  intro rest
  induction rest with
  | nil =>
    intro m st hinv _
    simpa using hinv
  | cons it rest ih =>
    intro m st hinv hf
    have h1 : List.enumFrom m (it :: rest) = (m, it) :: List.enumFrom (m + 1) rest :=
      rfl
    rw [h1]
    simp only [List.foldl_cons]
    have hstep := processLink_inv cfg fuel st it hinv (by simp at hf; omega)
    have hrec := ih (m + 1) _ hstep (by simp at hf ⊢; omega)
    have harith : m + (it :: rest).length = m + 1 + rest.length := by
      simp
      omega
    rw [harith]
    exact hrec

theorem processBatch_inv (cfg : Settings) (items : List (Option LinkInfo)) :
    EngInv items.length (processBatch cfg items) := by
  unfold processBatch
  have h0 : items.enum = List.enumFrom 0 items := rfl
  rw [h0]
  have := processBatch_inv_aux cfg (items.length + 2) items 0 EngineState.init
    EngInv.init_engine (by omega)
  simpa using this


/-- C2: after processing any batch of items in order, the running
`numWithDups` equals the number of surviving duplicate-group records
with at least one duplicate, and `totalDups` equals the sum of
duplicate-list lengths over all surviving records. -/
theorem stats_invariant (cfg : Settings) (items : List (Option LinkInfo)) :
    (processBatch cfg items).stats.numWithDups
        = (specNumWithDups items.length (processBatch cfg items) : Int)
    ∧ (processBatch cfg items).stats.totalDups
        = (specTotalDups items.length (processBatch cfg items) : Int) :=
  ⟨(processBatch_inv cfg items).stats1, (processBatch_inv cfg items).stats2⟩

/-- C3: after any batch, every surviving duplicate-group record lists
its members in strictly increasing original-index order with the
primary index smallest; and in every real merge the record whose
primary has the smaller original index survives, absorbing the other
record (whose primary, the larger index, joins the duplicate list). -/
theorem group_order_invariant (cfg : Settings)
    (items : List (Option LinkInfo)) :
    (∀ i r, (processBatch cfg items).recs i = some r →
        List.Pairwise (fun x y => x < y) (r.index :: r.duplicates))
    ∧ (∀ (n fuel : Nat) (st : EngineState) (a b ra rb : Nat)
        (r1rec r2rec : DupRecord),
        EngInv n st → Reaches st.ds a ra → Reaches st.ds b rb →
        n + 2 ≤ fuel → ra ≠ rb →
        st.recs ra = some r1rec → st.recs rb = some r2rec →
        (mergeDuplicates fuel st a b).recs (DS.union fuel st.ds a b).2
          = some (DupRecord.merge
              (if r2rec.index < r1rec.index then r2rec else r1rec)
              (if r2rec.index < r1rec.index then r1rec else r2rec) st.stats).1
        ∧ (DupRecord.merge
              (if r2rec.index < r1rec.index then r2rec else r1rec)
              (if r2rec.index < r1rec.index then r1rec else r2rec)
              st.stats).1.index
            = min r1rec.index r2rec.index
        ∧ max r1rec.index r2rec.index
            ∈ (DupRecord.merge
              (if r2rec.index < r1rec.index then r2rec else r1rec)
              (if r2rec.index < r1rec.index then r1rec else r2rec)
              st.stats).1.duplicates) := by
  constructor
  · intro i r h
    exact ((processBatch_inv cfg items).mem i r h).1
  · intro n fuel st a b ra rb r1rec r2rec inv hra hrb hfuel hne h1 h2
    obtain ⟨hrecs, _⟩ := mergeDuplicates_merge_eq fuel st a b ra rb
      inv.wf hra hrb hfuel hne r1rec r2rec h1 h2
    obtain ⟨_, _, hmidx, hmdup⟩ := DupRecord.merge_spec
      (if r2rec.index < r1rec.index then r2rec else r1rec)
      (if r2rec.index < r1rec.index then r1rec else r2rec) st.stats
    refine ⟨?_, ?_, ?_⟩
    · rw [hrecs]
      simp
    · rw [hmidx]
      split_ifs <;> omega
    · rw [hmdup, mergeDupLists_mem]
      right
      left
      split_ifs with hp <;> omega


/- ===== C6: exact-match-only configuration ============================== -/

/-- A parent chase that ends at or beyond the bound started there. -/
theorem reaches_high {n : Nat} {s : DS} (hwf : DSWF n s) {j r : Nat}
    (hr : Reaches s j r) (hrn : n ≤ r) : j = r := by
  induction hr with
  | root i _ => rfl
  | step i p r hp hpr ih =>
    have hd := hwf.dom i p hp
    omega

/-- Nodes at or beyond the bound form singleton classes. -/
theorem sameRoot_high {n : Nat} {s : DS} (hwf : DSWF n s) {i j : Nat}
    (hin : n ≤ i) (h : SameRoot s i j) : j = i := by
  obtain ⟨r, hr1, hr2⟩ := h
  have hri : i = r := Reaches.unique (Reaches.root i (hwf.outside i hin).1) hr1
  subst hri
  exact reaches_high hwf hr2 hin

/-- How one `mergeDuplicates` call changes the partition: two classes
are merged, everything else is untouched. -/
theorem mergeDuplicates_sameRoot {n : Nat} (fuel : Nat) (st : EngineState)
    (a b ra rb : Nat) (hwf : DSWF n st.ds)
    (hra : Reaches st.ds a ra) (hrb : Reaches st.ds b rb)
    (hfuel : n + 2 ≤ fuel) (han : a < n) (hbn : b < n) :
    ∀ x y, SameRoot (mergeDuplicates fuel st a b).ds x y ↔
      (SameRoot st.ds x y
        ∨ (SameRoot st.ds x a ∧ SameRoot st.ds y b)
        ∨ (SameRoot st.ds x b ∧ SameRoot st.ds y a)) := by
  have hds := mergeDuplicates_ds_eq fuel st a b ra rb hwf hra hrb hfuel
  obtain ⟨hwfU, hvalU, hmapU, hrootU, hsame⟩ :=
    union_spec st.ds hwf a b ra rb han hbn hra hrb fuel hfuel
  intro x y
  obtain ⟨rx, hrx⟩ := reaches_total hwf x
  obtain ⟨ry, hry⟩ := reaches_total hwf y
  have hx2 := hmapU x rx hrx
  have hy2 := hmapU y ry hry
  rw [show (mergeDuplicates fuel st a b).ds = (DS.union fuel st.ds a b).1 from hds]
  rw [sameRoot_iff_roots hx2 hy2, sameRoot_iff_roots hrx hry,
    sameRoot_iff_roots hrx hra, sameRoot_iff_roots hry hrb,
    sameRoot_iff_roots hrx hrb, sameRoot_iff_roots hry hra]
  split_ifs <;> omega

/-- The (fingerprint, partition key) an item contributes to the
thumbnail maps: present exactly when the link exists and carries a
thumbnail hash. -/
def itemKey (cfg : Settings) : Option LinkInfo → Option ((Nat × Nat) × Option Nat)
  | none => none
  | some it =>
    match it.thumbnailHash with
    | some h => some (h, thumbKey cfg it.domain)
    | none => none

/-- The reachable-state invariant of the exact-match-only configuration
(`maxHammingDistance = 0`, thumbnail deduplication on, no URLs): no
BK-tree is ever built, the exact maps hold exactly one representative
per seen (hash, partition) pair, and two created nodes share a root
precisely when their items carry identical fingerprints in the same
partition. `f` assigns each index its item key. -/
structure ExactInv (n : Nat) (st : EngineState)
    (f : Nat → Option ((Nat × Nat) × Option Nat)) : Prop where
  bkNone : ∀ key, (st.tmaps key).bkMap = none
  exDom : ∀ key h i, (st.tmaps key).exact h = some i → i < n ∧ f i = some (h, key)
  exCover : ∀ i h k, i < n → f i = some (h, k) →
    ∃ o, (st.tmaps k).exact h = some o ∧ SameRoot st.ds i o
  classes : ∀ i j, i < n → j < n →
    (SameRoot st.ds i j ↔ (i = j ∨ ∃ h k, f i = some (h, k) ∧ f j = some (h, k)))

theorem ExactInv.init_exact (f : Nat → Option ((Nat × Nat) × Option Nat)) :
    ExactInv 0 EngineState.init f := by
  refine ⟨fun _ => rfl, ?_, ?_, ?_⟩
  · intro key h i hh
    cases hh
  · intro i h k hi _
    omega
  · intro i j hi _
    omega


/-- One step of the main loop preserves the exact-match-only invariant. -/
theorem processLink_exact {n : Nat} (cfg : Settings) (fuel : Nat)
    (st : EngineState) (it : Option LinkInfo)
    (f : Nat → Option ((Nat × Nat) × Option Nat))
    (inv : EngInv n st) (einv : ExactInv n st f)
    (hmd : cfg.maxHammingDistance = 0)
    (hdt : cfg.deduplicateThumbs = true)
    (hurl : ∀ info, it = some info → info.url = none)
    (hf : f n = itemKey cfg it)
    (hfuel : n + 3 ≤ fuel) :
    ExactInv (n + 1) (processLink cfg fuel st n it) f := by
  have hpn : st.ds.parent n = none := (inv.wf.outside n le_rfl).1
  have hrn : Reaches st.ds n n := Reaches.root n hpn
  have hsingleton : ∀ j, SameRoot st.ds n j → j = n := by
    intro j hsj
    exact sameRoot_high inv.wf le_rfl hsj
  have hselfroot : ∀ i, SameRoot st.ds i i := by
    intro i
    obtain ⟨r, hr⟩ := reaches_total inv.wf i
    exact ⟨r, hr, hr⟩
  have hnone : f n = none → ExactInv (n + 1) st f := by
    intro hfn
    refine ⟨einv.bkNone, ?_, ?_, ?_⟩
    · intro key h i hh
      have hd := einv.exDom key h i hh
      exact ⟨by omega, hd.2⟩
    · intro i h k hi hfi
      by_cases hin : i = n
      · rw [hin, hfn] at hfi
        cases hfi
      · exact einv.exCover i h k (by omega) hfi
    · intro i j hi hj
      by_cases hin : i = n
      · subst hin
        constructor
        · intro hS
          exact Or.inl (hsingleton j hS).symm
        · rintro (heq | ⟨h2, k2, hfi, hfj⟩)
          · rw [← heq]
            exact hselfroot i
          · rw [hfn] at hfi
            cases hfi
      · by_cases hjn : j = n
        · subst hjn
          constructor
          · intro hS
            obtain ⟨r, hr1, hr2⟩ := hS
            exact absurd (hsingleton i ⟨r, hr2, hr1⟩) hin
          · rintro (heq | ⟨h2, k2, hfi, hfj⟩)
            · rw [heq]
              exact hselfroot j
            · rw [hfn] at hfj
              cases hfj
        · exact einv.classes i j (by omega) (by omega)
  have htransfer : ∀ (s2 : EngineState), s2.ds = st.ds → s2.tmaps = st.tmaps →
      ExactInv (n + 1) st f → ExactInv (n + 1) s2 f := by
    intro s2 hd ht he
    refine ⟨?_, ?_, ?_, ?_⟩
    · intro key
      rw [ht]
      exact he.bkNone key
    · intro key h i hh
      rw [ht] at hh
      exact he.exDom key h i hh
    · intro i h k hi hfi
      obtain ⟨o, ho1, ho2⟩ := he.exCover i h k hi hfi
      refine ⟨o, ?_, ?_⟩
      · rw [ht]
        exact ho1
      · rw [hd]
        exact ho2
    · intro i j hi hj
      rw [hd]
      exact he.classes i j hi hj
  cases it with
  | none =>
    exact hnone (by rw [hf]; rfl)
  | some info =>
    unfold processLink
    simp only
    have hu : info.url = none := hurl info rfl
    rw [hu, if_pos hdt]
    cases hth : info.thumbnailHash with
    | none =>
      exact htransfer _ rfl rfl (hnone (by rw [hf]; simp [itemKey, hth]))
    | some h =>
      have hfn : f n = some (h, thumbKey cfg info.domain) := by
        rw [hf]
        simp [itemKey, hth]
      show ExactInv (n + 1) (updateThumbMap cfg fuel
        { st with recs := fun j => if j = n then some ⟨n, [], false⟩ else st.recs j }
        info.domain h n) f
      obtain ⟨hinv0, hgood0⟩ := createRecord_inv inv
      unfold updateThumbMap
      simp only
      cases hex : (st.tmaps (thumbKey cfg info.domain)).exact h with
      | some other =>
        obtain ⟨hodom, hof⟩ := einv.exDom _ h other hex
        obtain ⟨ro, hro⟩ := reaches_total inv.wf other
        set st0 : EngineState :=
          { st with recs := fun j => if j = n then some ⟨n, [], false⟩ else st.recs j }
          with hst0
        have hSR := mergeDuplicates_sameRoot fuel st0 other n ro n
          hinv0.wf hro hrn (by omega) (by omega) (by omega)
        have htm2 : (mergeDuplicates fuel st0 other n).tmaps = st.tmaps :=
          (mergeDuplicates_frame fuel st0 other n).2
        refine ⟨?_, ?_, ?_, ?_⟩
        · intro key
          rw [htm2]
          exact einv.bkNone key
        · intro key h2 i hh
          rw [htm2] at hh
          have hd := einv.exDom key h2 i hh
          exact ⟨by omega, hd.2⟩
        · intro i h2 k2 hi hfi
          by_cases hin : i = n
          · subst hin
            rw [hfn] at hfi
            injection hfi with hfi
            cases hfi
            refine ⟨other, by rw [htm2]; exact hex, ?_⟩
            exact (hSR i other).mpr
              (Or.inr (Or.inr ⟨⟨i, hrn, hrn⟩, ⟨ro, hro, hro⟩⟩))
          · obtain ⟨o, ho1, ho2⟩ := einv.exCover i h2 k2 (by omega) hfi
            exact ⟨o, by rw [htm2]; exact ho1, (hSR i o).mpr (Or.inl ho2)⟩
        · intro i j hi hj
          rw [hSR i j]
          constructor
          · rintro (hS | ⟨hS1, hS2⟩ | ⟨hS1, hS2⟩)
            · by_cases hin : i = n
              · rw [hin] at hS ⊢
                exact Or.inl (hsingleton j hS).symm
              · by_cases hjn : j = n
                · obtain ⟨r, hr1, hr2⟩ := hS
                  rw [hjn] at hr2
                  exact absurd (hsingleton i ⟨r, hr2, hr1⟩) hin
                · exact (einv.classes i j (by omega) (by omega)).mp hS
            · -- i in the class of `other`, j in the class of the new node
              obtain ⟨r, hr1, hr2⟩ := hS2
              have hjn : j = n := hsingleton j ⟨r, hr2, hr1⟩
              by_cases hin : i = n
              · rw [hin] at hS1
                have := hsingleton other hS1
                omega
              · have hfi : f i = some (h, thumbKey cfg info.domain) := by
                  have hio := (einv.classes i other (by omega) hodom).mp hS1
                  rcases hio with h5 | ⟨h2, k2, h6, h7⟩
                  · rw [h5]
                    exact hof
                  · rw [h7] at hof
                    injection hof with hof
                    cases hof
                    exact h6
                exact Or.inr ⟨h, thumbKey cfg info.domain, hfi, by rw [hjn]; exact hfn⟩
            · -- i in the class of the new node, j in the class of `other`
              obtain ⟨r, hr1, hr2⟩ := hS1
              have hin : i = n := hsingleton i ⟨r, hr2, hr1⟩
              by_cases hjn : j = n
              · exact Or.inl (by omega)
              · have hfj : f j = some (h, thumbKey cfg info.domain) := by
                  have hjo := (einv.classes j other (by omega) hodom).mp hS2
                  rcases hjo with h5 | ⟨h2, k2, h6, h7⟩
                  · rw [h5]
                    exact hof
                  · rw [h7] at hof
                    injection hof with hof
                    cases hof
                    exact h6
                exact Or.inr ⟨h, thumbKey cfg info.domain,
                  by rw [hin]; exact hfn, hfj⟩
          · rintro (heq | ⟨h2, k2, hfi, hfj⟩)
            · rw [← heq]
              exact Or.inl (hselfroot i)
            · by_cases hin : i = n <;> by_cases hjn : j = n
              · rw [hin, hjn]
                exact Or.inl (hselfroot n)
              · rw [hin] at hfi
                rw [hfn] at hfi
                injection hfi with hfi
                cases hfi
                obtain ⟨o, ho1, ho2⟩ := einv.exCover j h
                  (thumbKey cfg info.domain) (by omega) hfj
                rw [hex] at ho1
                injection ho1 with ho1
                refine Or.inr (Or.inr ⟨by rw [hin]; exact ⟨n, hrn, hrn⟩, ?_⟩)
                rw [ho1]
                exact ho2
              · rw [hjn] at hfj
                rw [hfn] at hfj
                injection hfj with hfj
                cases hfj
                obtain ⟨o, ho1, ho2⟩ := einv.exCover i h
                  (thumbKey cfg info.domain) (by omega) hfi
                rw [hex] at ho1
                injection ho1 with ho1
                refine Or.inr (Or.inl ⟨?_, by rw [hjn]; exact ⟨n, hrn, hrn⟩⟩)
                rw [ho1]
                exact ho2
              · refine Or.inl ((einv.classes i j (by omega) (by omega)).mpr ?_)
                exact Or.inr ⟨h2, k2, hfi, hfj⟩
      | none =>
        rw [if_neg (by rw [hmd]; omega)]
        refine ⟨?_, ?_, ?_, ?_⟩
        · intro key
          simp only [EngineState.setTMap]
          by_cases hk : key = thumbKey cfg info.domain
          · rw [if_pos hk]
            exact einv.bkNone _
          · rw [if_neg hk]
            exact einv.bkNone key
        · intro key h2 i hh
          simp only [EngineState.setTMap] at hh
          by_cases hk : key = thumbKey cfg info.domain
          · rw [if_pos hk] at hh
            simp only at hh
            by_cases hh2 : h2 = h
            · rw [if_pos hh2] at hh
              injection hh with hh
              subst hh2
              subst hk
              refine ⟨by omega, ?_⟩
              rw [← hh]
              exact hfn
            · rw [if_neg hh2] at hh
              have hd := einv.exDom (thumbKey cfg info.domain) h2 i hh
              refine ⟨by omega, ?_⟩
              rw [hk]
              exact hd.2
          · rw [if_neg hk] at hh
            have hd := einv.exDom key h2 i hh
            exact ⟨by omega, hd.2⟩
        · intro i h2 k2 hi hfi
          by_cases hin : i = n
          · subst hin
            rw [hfn] at hfi
            injection hfi with hfi
            cases hfi
            refine ⟨i, ?_, hselfroot i⟩
            simp [EngineState.setTMap]
          · obtain ⟨o, ho1, ho2⟩ := einv.exCover i h2 k2 (by omega) hfi
            refine ⟨o, ?_, ho2⟩
            simp only [EngineState.setTMap]
            by_cases hk : k2 = thumbKey cfg info.domain
            · rw [if_pos hk]
              simp only
              by_cases hh2 : h2 = h
              · rw [hk, hh2] at ho1
                rw [hex] at ho1
                cases ho1
              · rw [if_neg hh2, ← hk]
                exact ho1
            · rw [if_neg hk]
              exact ho1
        · intro i j hi hj
          show SameRoot st.ds i j ↔ _
          by_cases hin : i = n
          · subst hin
            constructor
            · intro hS
              exact Or.inl (hsingleton j hS).symm
            · rintro (heq | ⟨h2, k2, hfi, hfj⟩)
              · rw [← heq]
                exact hselfroot i
              · by_cases hjn : j = i
                · rw [hjn]
                  exact hselfroot i
                · rw [hfn] at hfi
                  injection hfi with hfi
                  cases hfi
                  obtain ⟨o, ho1, _⟩ := einv.exCover j h
                    (thumbKey cfg info.domain) (by omega) hfj
                  rw [hex] at ho1
                  cases ho1
          · by_cases hjn : j = n
            · subst hjn
              constructor
              · intro hS
                obtain ⟨r, hr1, hr2⟩ := hS
                exact absurd (hsingleton i ⟨r, hr2, hr1⟩) hin
              · rintro (heq | ⟨h2, k2, hfi, hfj⟩)
                · omega
                · rw [hfn] at hfj
                  injection hfj with hfj
                  cases hfj
                  obtain ⟨o, ho1, _⟩ := einv.exCover i h
                    (thumbKey cfg info.domain) (by omega) hfi
                  rw [hex] at ho1
                  cases ho1
            · exact einv.classes i j (by omega) (by omega)


/-- Position/value bookkeeping for `enumFrom`. -/
theorem enumFrom_mem_spec : ∀ (l : List (Option LinkInfo)) (k : Nat)
    (p : Nat × Option LinkInfo), p ∈ List.enumFrom k l →
    k ≤ p.1 ∧ p.1 < k + l.length ∧ p.2 = l.getD (p.1 - k) none ∧ p.2 ∈ l := by
  intro l
  induction l with
  | nil =>
    intro k p hp
    cases hp
  | cons a l ih =>
    intro k p hp
    rw [show List.enumFrom k (a :: l) = (k, a) :: List.enumFrom (k + 1) l
      from rfl] at hp
    rcases List.mem_cons.mp hp with hp | hp
    · subst hp
      refine ⟨le_rfl, by simp, by simp, List.mem_cons_self _ _⟩
    · obtain ⟨h1, h2, h3, h4⟩ := ih (k + 1) p hp
      refine ⟨by omega, by simp at h2 ⊢; omega, ?_, List.mem_cons_of_mem _ h4⟩
      rw [h3]
      have hidx : p.1 - k = (p.1 - (k + 1)) + 1 := by omega
      rw [hidx]
      simp

/-- The exact-match invariant holds along the whole batch. -/
theorem processBatch_exact_aux (cfg : Settings) (fuel : Nat)
    (f : Nat → Option ((Nat × Nat) × Option Nat))
    (hmd : cfg.maxHammingDistance = 0) (hdt : cfg.deduplicateThumbs = true) :
    ∀ (rest : List (Option LinkInfo)) (m : Nat) (st : EngineState),
    EngInv m st → ExactInv m st f →
    (∀ p ∈ List.enumFrom m rest, f p.1 = itemKey cfg p.2) →
    (∀ p ∈ List.enumFrom m rest, ∀ info, p.2 = some info → info.url = none) →
    m + rest.length + 2 ≤ fuel →
    ExactInv (m + rest.length)
      ((List.enumFrom m rest).foldl
        (fun s p => processLink cfg fuel s p.1 p.2) st) f := by
  intro rest
  induction rest with
  | nil =>
    intro m st _ he _ _ _
    simpa using he
  | cons it rest ih =>
    intro m st hinv he hf hu hfl
    have h1 : List.enumFrom m (it :: rest) = (m, it) :: List.enumFrom (m + 1) rest :=
      rfl
    rw [h1]
    simp only [List.foldl_cons]
    have hfm : f m = itemKey cfg it :=
      hf (m, it) (by rw [h1]; exact List.mem_cons_self _ _)
    have hstep_inv := processLink_inv cfg fuel st it hinv (by simp at hfl; omega)
    have hstep_ex := processLink_exact cfg fuel st it f hinv he hmd hdt
      (fun info hinfo =>
        hu (m, it) (by rw [h1]; exact List.mem_cons_self _ _) info hinfo)
      hfm (by simp at hfl; omega)
    have hrec := ih (m + 1) _ hstep_inv hstep_ex
      (fun p hp => hf p (by rw [h1]; exact List.mem_cons_of_mem _ hp))
      (fun p hp info hinfo =>
        hu p (by rw [h1]; exact List.mem_cons_of_mem _ hp) info hinfo)
      (by simp at hfl ⊢; omega)
    have harith : m + (it :: rest).length = m + 1 + rest.length := by
      simp
      omega
    rw [harith]
    exact hrec

/-- C6: with `maxHammingDistance = 0` and thumbnail deduplication on, a
batch whose links carry no URLs never builds a BK-tree, and two
processed links end in the same cluster exactly when both carry
thumbnail fingerprints that are bit-identical and fall in the same
domain partition. -/
theorem exact_match_only (cfg : Settings) (items : List (Option LinkInfo))
    (hmd : cfg.maxHammingDistance = 0)
    (hdt : cfg.deduplicateThumbs = true)
    (hurl : ∀ o ∈ items, ∀ info, o = some info → info.url = none) :
    (∀ key, ((processBatch cfg items).tmaps key).bkMap = none)
    ∧ (∀ i j, i < items.length → j < items.length →
        (SameRoot (processBatch cfg items).ds i j
          ↔ (i = j ∨ ∃ h k, itemKey cfg (items.getD i none) = some (h, k)
              ∧ itemKey cfg (items.getD j none) = some (h, k)))) := by
  have hexact : ExactInv items.length (processBatch cfg items)
      (fun i => itemKey cfg (items.getD i none)) := by
    unfold processBatch
    have h0 : items.enum = List.enumFrom 0 items := rfl
    rw [h0]
    have hmain := processBatch_exact_aux cfg (items.length + 2)
      (fun i => itemKey cfg (items.getD i none)) hmd hdt items 0
      EngineState.init EngInv.init_engine (ExactInv.init_exact _)
      (by
        intro p hp
        obtain ⟨h1, h2, h3, h4⟩ := enumFrom_mem_spec items 0 p hp
        simp only
        rw [h3]
        simp)
      (by
        intro p hp info hinfo
        obtain ⟨_, _, _, h4⟩ := enumFrom_mem_spec items 0 p hp
        exact hurl p.2 h4 info hinfo)
      (by omega)
    simpa using hmain
  exact ⟨hexact.bkNone, fun i j hi hj => hexact.classes i j hi hj⟩

theorem exact_match_only_witness :
    (Settings.mk true false 0).maxHammingDistance = 0
    ∧ (Settings.mk true false 0).deduplicateThumbs = true
    ∧ ((∀ key, ((processBatch (Settings.mk true false 0)
          [some (LinkInfo.mk none none (some (1, 2))),
           some (LinkInfo.mk none none (some (1, 2)))]).tmaps key).bkMap = none)
      ∧ (∀ i j,
          i < ([some (LinkInfo.mk none none (some (1, 2))),
                some (LinkInfo.mk none none (some (1, 2)))]
            : List (Option LinkInfo)).length →
          j < ([some (LinkInfo.mk none none (some (1, 2))),
                some (LinkInfo.mk none none (some (1, 2)))]
            : List (Option LinkInfo)).length →
          (SameRoot (processBatch (Settings.mk true false 0)
              [some (LinkInfo.mk none none (some (1, 2))),
               some (LinkInfo.mk none none (some (1, 2)))]).ds i j
            ↔ (i = j ∨ ∃ h k,
                itemKey (Settings.mk true false 0)
                  (([some (LinkInfo.mk none none (some (1, 2))),
                     some (LinkInfo.mk none none (some (1, 2)))]
                    : List (Option LinkInfo)).getD i none) = some (h, k)
                ∧ itemKey (Settings.mk true false 0)
                  (([some (LinkInfo.mk none none (some (1, 2))),
                     some (LinkInfo.mk none none (some (1, 2)))]
                    : List (Option LinkInfo)).getD j none) = some (h, k))))) :=
  ⟨rfl, rfl,
    exact_match_only (Settings.mk true false 0)
      [some (LinkInfo.mk none none (some (1, 2))),
       some (LinkInfo.mk none none (some (1, 2)))] rfl rfl
      (by
        intro o ho info hinfo
        fin_cases ho <;> (cases hinfo; rfl))⟩

end Rededup
